import Mathlib

/-!
# Pool allocator (`include/alloc_with_pool.h`): shallow embedding

The C++ class template `Allocator<T>` keeps its state in static members.  The
embedding makes that state an explicit record which every operation takes and
returns.

Data model (LP64 / LLP64):
* `size_t` is 64 bits wide: every `size_t` computation is reduced modulo `SIZE_MOD`;
* `unsigned int` is 32 bits wide (`UINT_MAX`);
* addresses are natural numbers, `0` is the null pointer; pointer arithmetic is
  not wrapped (overflowing a pointer is undefined behaviour in the source);
* `mem a` is the `free_list_link` stored in the node at address `a`;
* `free_list i` is the head pointer kept in slot `i` of the table; the table of
  the source has `NFREELEISTS` slots, and an access to a slot `i >= NFREELEISTS`
  is outside it (undefined behaviour in the source): what the model stores there
  says nothing about the program;
* the system allocator is a script `sys` of the addresses it is going to
  return (`0` means failure, an exhausted script fails); every call made to
  `malloc`, `realloc` or `free` is recorded in `trace`, most recent first;
* `malloc_time` is the `int` counter of the source, an integer here;
  `malloc_time++` is defined in the source only below `INT_MAX` (overflow of an
  `int` is undefined behaviour), so the model follows the source as long as the
  counter is below `INT_MAX`;
* the template parameter enters only through `sizeof(T)`, the argument `sizeofT`.
-/

namespace Allocator

/-- Modulus of `size_t` arithmetic, `2 ^ 64`. -/
def SIZE_MOD : Nat := 18446744073709551616

/-- Largest `size_t` value. -/
def SIZE_MAX : Nat := 18446744073709551615

/-- Largest `unsigned int` value, `2 ^ 32 - 1`. -/
def UINT_MAX : Nat := 4294967295

/-- Largest `int` value, `2 ^ 31 - 1`. -/
def INT_MAX : Int := 2147483647

/-- Source: `enum {ALIGN = 8}`. -/
def ALIGN : Nat := 8

/-- Source: `enum {MAX_BYTES = 4096}`. -/
def MAX_BYTES : Nat := 4096

/-- Source: `enum {NFREELEISTS = MAX_BYTES / ALIGN}`. -/
def NFREELEISTS : Nat := MAX_BYTES / ALIGN

/-- One call made to the system allocator. -/
inductive SysEvent where
  | malloc (bytes result : Nat)
  | realloc (p bytes result : Nat)
  | free (p : Nat)
  deriving DecidableEq, Repr

/-- Static members of `Allocator<T>` together with the memory cells holding the
links and the system allocator.  `free_list` stands for the table
`free_list[NFREELEISTS]` on the slots below `NFREELEISTS` only, and
`malloc_time` for the `int` counter as long as it is below `INT_MAX`: a theorem
that is to hold of the program keeps the pooled byte sizes in `[1, MAX_BYTES]`
and the counter below `INT_MAX`. -/
structure State where
  start_free : Nat
  end_free : Nat
  heap_size : Nat
  free_list : Nat → Nat
  mem : Nat → Nat
  malloc_time : Int
  sys : List Nat
  trace : List SysEvent

/-- Zero-initialised static state, with the given script for the system allocator. -/
def init (script : List Nat) : State :=
  { start_free := 0, end_free := 0, heap_size := 0, free_list := fun _ => 0,
    mem := fun _ => 0, malloc_time := 0, sys := script, trace := [] }

/-- Store `v` in cell `a` of a table or of the memory. -/
def write (f : Nat → Nat) (a v : Nat) : Nat → Nat :=
  fun x => if x = a then v else f x

/-- Source: `freelist_index`, `((bytes) + ALIGN - 1) / ALIGN - 1` in `size_t`. -/
def freelist_index (bytes : Nat) : Nat :=
  ((bytes + ALIGN - 1) % SIZE_MOD / ALIGN + SIZE_MOD - 1) % SIZE_MOD

/-- Source: `ROUND_UP`, `((bytes) + ALIGN - 1) & ~(ALIGN - 1)` in `size_t`;
the mask `~(ALIGN - 1)` is `SIZE_MOD - ALIGN`. -/
def ROUND_UP (bytes : Nat) : Nat :=
  Nat.land ((bytes + ALIGN - 1) % SIZE_MOD) (SIZE_MOD - ALIGN)

/-- Pointer difference `e - s` converted to `size_t`. -/
def ptrdiff (e s : Nat) : Nat :=
  (e % SIZE_MOD + (SIZE_MOD - s % SIZE_MOD)) % SIZE_MOD

/-- System call `malloc(bytes)`: the next scripted address, the call recorded. -/
def sys_malloc (bytes : Nat) (s : State) : Nat × State :=
  (s.sys.headD 0,
   { s with sys := s.sys.tail, trace := SysEvent.malloc bytes (s.sys.headD 0) :: s.trace })

/-- System call `realloc(p, bytes)`: the next scripted address, the call recorded. -/
def sys_realloc (p bytes : Nat) (s : State) : Nat × State :=
  (s.sys.headD 0,
   { s with sys := s.sys.tail, trace := SysEvent.realloc p bytes (s.sys.headD 0) :: s.trace })

/-- System call `free(p)`, recorded. -/
def sys_free (p : Nat) (s : State) : State :=
  { s with trace := SysEvent.free p :: s.trace }

/-- Source: the loop `for (i = size; i < MAX_BYTES; i += ALIGN)` of `chunk_alloc`,
which stops at the first class whose list is not empty and yields `(i, temp)`.
The first argument bounds the number of iterations; `NFREELEISTS + 1` is enough
because `i` grows by `ALIGN` each time (`scavenge_bound_enough`). -/
def scavenge : Nat → Nat → (Nat → Nat) → Option (Nat × Nat)
  | 0, _, _ => none
  | k + 1, i, fl =>
    if i < MAX_BYTES then
      if fl (freelist_index i) ≠ 0 then some (i, fl (freelist_index i))
      else scavenge k ((i + ALIGN) % SIZE_MOD) fl
    else none

/-- Source: `chunk_alloc(size, nobjs)`.  Returns the chunk, the updated `nobjs`
and the new state.  The first argument bounds the depth of the recursive
self-calls; `none` means that the bound was reached.  The parameter `int& nobjs`
is a natural number here: `refill` passes 50, and the quotient stored in the
second branch is smaller than the value passed in, so the conversion to `int`
loses nothing. -/
def chunk_alloc : Nat → Nat → Nat → State → Option (Nat × Nat × State)
  | 0, _, _, _ => none
  | fuel + 1, size, nobjs, s =>
    let total_bytes := size * nobjs % SIZE_MOD
    let bytes_left := ptrdiff s.end_free s.start_free
    if bytes_left ≥ total_bytes then
      some (s.start_free, nobjs, { s with start_free := s.start_free + total_bytes })
    else if bytes_left ≥ size then
      let nobjs1 := bytes_left / size
      let total_bytes1 := size * nobjs1 % SIZE_MOD
      some (s.start_free, nobjs1, { s with start_free := s.start_free + total_bytes1 })
    else
      let bytes_to_get := (20 * total_bytes + ROUND_UP (s.heap_size / 16)) % SIZE_MOD
      let s1 : State :=
        if bytes_left > 0 then
          { s with
            mem := write s.mem s.start_free (s.free_list (freelist_index bytes_left)),
            free_list := write s.free_list (freelist_index bytes_left) s.start_free }
        else s
      let r := sys_malloc bytes_to_get s1
      let s2 : State := { r.2 with start_free := r.1, malloc_time := r.2.malloc_time + 1 }
      if r.1 = 0 then
        match scavenge (NFREELEISTS + 1) size s2.free_list with
        | some (i, temp) =>
          chunk_alloc fuel size nobjs
            { s2 with
              free_list := write s2.free_list (freelist_index i) (s2.mem temp),
              start_free := temp,
              end_free := temp + i }
        | none =>
          chunk_alloc fuel size nobjs
            { s2 with
              heap_size := (s2.heap_size + bytes_to_get) % SIZE_MOD,
              end_free := s2.start_free + bytes_to_get }
      else
        chunk_alloc fuel size nobjs
          { s2 with
            heap_size := (s2.heap_size + bytes_to_get) % SIZE_MOD,
            end_free := s2.start_free + bytes_to_get }

/-- Source: the linking loop of `refill`, entered with `current_node = cur` and
`k = nobjs - 1 - i` iterations still to go: the last node gets a null link,
every other node a link to the node `n` bytes further. -/
def link_blocks : Nat → Nat → Nat → (Nat → Nat) → (Nat → Nat)
  | 0, cur, _, m => write m cur 0
  | k + 1, cur, n, m => link_blocks k (cur + n) n (write m cur (cur + n))

/-- Source: `refill(n)`.  With `nobjs = 0` the linking loop of the source never
reaches its exit test, which is rendered as `none`. -/
def refill (fuel n : Nat) (s : State) : Option (Nat × State) :=
  match chunk_alloc fuel n 50 s with
  | none => none
  | some (chunk, nobjs, s1) =>
    if nobjs = 1 then some (chunk, s1)
    else if nobjs = 0 then none
    else
      some (chunk,
        { s1 with
          free_list := write s1.free_list (freelist_index n) (chunk + n),
          mem := link_blocks (nobjs - 2) (chunk + n) n s1.mem })

/-- Source: `allocate(n)`; `required = n * sizeof(T)` in `size_t`. -/
def allocate (sizeofT fuel n : Nat) (s : State) : Option (Nat × State) :=
  let required := n * sizeofT % SIZE_MOD
  if required > MAX_BYTES then
    let r := sys_malloc required s
    some (r.1, { r.2 with malloc_time := r.2.malloc_time + 1 })
  else
    let result := s.free_list (freelist_index required)
    if result = 0 then refill fuel (ROUND_UP required) s
    else
      some (result,
        { s with free_list := write s.free_list (freelist_index required) (s.mem result) })

/-- Source: `deallocate(p, n)`. -/
def deallocate (sizeofT p n : Nat) (s : State) : State :=
  let required := n * sizeofT % SIZE_MOD
  if required > MAX_BYTES then sys_free p s
  else
    { s with
      mem := write s.mem p (s.free_list (freelist_index required)),
      free_list := write s.free_list (freelist_index required) p }

/-- Source: `reallocate(p, originalSize, newSize)`. -/
def reallocate (sizeofT fuel p originalSize newSize : Nat) (s : State) : Option (Nat × State) :=
  if originalSize > MAX_BYTES then
    let r := sys_realloc p newSize s
    some (r.1, { r.2 with malloc_time := r.2.malloc_time + 1 })
  else
    allocate sizeofT fuel newSize (deallocate sizeofT p originalSize s)

/-- Source: `max_size()`, `size_type(UINT_MAX / sizeof(T))`. -/
def max_size (sizeofT : Nat) : Nat :=
  UINT_MAX / sizeofT % SIZE_MOD

/-- Driver: the calls `allocate(n)` for the counts `n` of the list, one after the
other; yields the pointers returned, in call order, and the final state. -/
def allocate_seq (sizeofT fuel : Nat) : List Nat → State → Option (List Nat × State)
  | [], s => some ([], s)
  | n :: ns, s =>
    match allocate sizeofT fuel n s with
    | none => none
    | some (p, s1) =>
      match allocate_seq sizeofT fuel ns s1 with
      | none => none
      | some (ps, s2) => some (p :: ps, s2)

/-- Whether a recorded call asks the system allocator for memory. -/
def is_request : SysEvent → Bool
  | SysEvent.malloc _ _ => true
  | SysEvent.realloc _ _ _ => true
  | SysEvent.free _ => false

/-- Number of requests for memory among the recorded calls. -/
def requests (tr : List SysEvent) : Nat :=
  (tr.filter is_request).length

/-- Bytes obtained from the system allocator through `malloc`: the sizes of the
recorded `malloc` requests that did not return null. -/
def obtained : List SysEvent → Nat
  | [] => 0
  | SysEvent.malloc bytes r :: tr => (if r = 0 then 0 else bytes) + obtained tr
  | SysEvent.realloc _ _ _ :: tr => obtained tr
  | SysEvent.free _ :: tr => obtained tr

/-- The blocks of a free list, from its head `p`, following the links stored in
the memory until the null link; the first argument bounds the number of blocks
that are read. -/
def free_chain (m : Nat → Nat) : Nat → Nat → List Nat
  | 0, _ => []
  | k + 1, p => if p = 0 then [] else p :: free_chain m k (m p)

/-- One call made by a client of the allocator. -/
inductive Op where
  | allocate (n : Nat)
  | deallocate (p n : Nat)
  deriving DecidableEq, Repr

/-- Driver: the calls of the list, one after the other, starting in the state `s`;
yields the final state. -/
def run (sizeofT fuel : Nat) : List Op → State → Option State
  | [], s => some s
  | Op.allocate n :: ops, s =>
    match allocate sizeofT fuel n s with
    | none => none
    | some (_, s1) => run sizeofT fuel ops s1
  | Op.deallocate p n :: ops, s => run sizeofT fuel ops (deallocate sizeofT p n s)

/-- Whether the count `n` has a pooled size: its byte size `n * sizeof(T)`, in
`size_t`, lies in `[1, MAX_BYTES]`. -/
def pooled_size (sizeofT n : Nat) : Bool :=
  decide (1 ≤ n * sizeofT % SIZE_MOD) && decide (n * sizeofT % SIZE_MOD ≤ MAX_BYTES)

/-- Whether a call has a pooled size. -/
def pooled_op (sizeofT : Nat) : Op → Bool
  | Op.allocate n => pooled_size sizeofT n
  | Op.deallocate _ n => pooled_size sizeofT n

/-- The arena is a range `[start_free, end_free)` of less than `2 ^ 64` bytes whose
length is a multiple of `ALIGN`, and `heap_size` is a `size_t` value. -/
def arena_ok (s : State) : Prop :=
  s.start_free ≤ s.end_free ∧ s.end_free - s.start_free < SIZE_MOD
    ∧ (s.end_free - s.start_free) % ALIGN = 0 ∧ s.heap_size < SIZE_MOD

/-- Whether two address ranges, given as `(address, length)`, do not overlap. -/
def disjoint (a b : Nat × Nat) : Prop :=
  a.1 + a.2 ≤ b.1 ∨ b.1 + b.2 ≤ a.1

/-- The regions handed out by the system allocator: `(address, bytes)` for every
recorded `malloc`. -/
def regions : List SysEvent → List (Nat × Nat)
  | [] => []
  | SysEvent.malloc bytes r :: tr => (r, bytes) :: regions tr
  | SysEvent.realloc _ _ _ :: tr => regions tr
  | SysEvent.free _ :: tr => regions tr

/-- The system allocator has always succeeded, each time with a region that
overlaps none of the others. -/
def system_ok (tr : List SysEvent) : Prop :=
  (∀ g ∈ regions tr, g.1 ≠ 0) ∧ (regions tr).Pairwise disjoint

/-- Driver for a client that keeps the contract of `deallocate`: next to the state
it keeps the list `(pointer, count)` of the blocks in use, every `allocate` adds
its block, and a `deallocate(p, n)` is only made for a block `(p, n)` of that
list, which it removes; a call that breaks the contract ends the run with
`none`. -/
def run_client (sizeofT fuel : Nat) :
    List Op → State × List (Nat × Nat) → Option (State × List (Nat × Nat))
  | [], c => some c
  | Op.allocate n :: ops, (s, used) =>
    match allocate sizeofT fuel n s with
    | none => none
    | some (p, s1) => run_client sizeofT fuel ops (s1, (p, n) :: used)
  | Op.deallocate p n :: ops, (s, used) =>
    if (p, n) ∈ used then
      run_client sizeofT fuel ops (deallocate sizeofT p n s, used.erase (p, n))
    else none

/-- Whether the free list with head `h` consists of the blocks `l`, in that
order, each linked to the next and the last one holding the null link. -/
def is_chain (m : Nat → Nat) : Nat → List Nat → Prop
  | h, [] => h = 0
  | h, a :: l => h = a ∧ a ≠ 0 ∧ is_chain m (m a) l

/-- The addresses of the blocks of class `i` in a list of free blocks
`(address, class)`. -/
def class_blocks (F : List (Nat × Nat)) (i : Nat) : List Nat :=
  (F.filter (fun b => decide (b.2 = i))).map Prod.fst

/-- The address range of a free block `(address, class)`: the canonical size of
class `i` is `(i + 1) * ALIGN`. -/
def block_range (b : Nat × Nat) : Nat × Nat :=
  (b.1, (b.2 + 1) * ALIGN)

/-- The address range of a block in use `(pointer, count)`: `ROUND_UP` of its byte
size. -/
def used_range (sizeofT : Nat) (u : Nat × Nat) : Nat × Nat :=
  (u.1, ROUND_UP (u.2 * sizeofT % SIZE_MOD))

/-- Invariant of the pool for a state, the blocks in use and the free blocks `F`:
the free lists are the chains of `F`, class by class; free blocks, blocks in use
and the arena overlap nowhere; and all of them lie inside regions obtained from
the system allocator. -/
structure pool_inv (sizeofT : Nat) (s : State) (used F : List (Nat × Nat)) : Prop where
  chains : ∀ i, is_chain s.mem (s.free_list i) (class_blocks F i)
  classes : ∀ b ∈ F, b.2 < NFREELEISTS
  pooled : ∀ u ∈ used, pooled_size sizeofT u.2 = true
  free_disj : F.Pairwise (fun a b => disjoint (block_range a) (block_range b))
  used_disj : used.Pairwise (fun a b => disjoint (used_range sizeofT a) (used_range sizeofT b))
  free_used : ∀ a ∈ F, ∀ u ∈ used, disjoint (block_range a) (used_range sizeofT u)
  free_arena : ∀ a ∈ F, disjoint (block_range a) (s.start_free, s.end_free - s.start_free)
  used_arena : ∀ u ∈ used,
    disjoint (used_range sizeofT u) (s.start_free, s.end_free - s.start_free)
  free_in : ∀ a ∈ F, ∃ g ∈ regions s.trace,
    g.1 ≤ (block_range a).1 ∧ (block_range a).1 + (block_range a).2 ≤ g.1 + g.2
  used_in : ∀ u ∈ used, ∃ g ∈ regions s.trace,
    g.1 ≤ (used_range sizeofT u).1
      ∧ (used_range sizeofT u).1 + (used_range sizeofT u).2 ≤ g.1 + g.2
  arena_in : s.start_free = s.end_free
    ∨ ∃ g ∈ regions s.trace, g.1 ≤ s.start_free ∧ s.end_free ≤ g.1 + g.2
  arena : arena_ok s

/-! ## Arithmetic of the size classes -/

/-- Masking with `2 ^ 64 - 8` rounds a 64-bit value down to a multiple of 8. -/
theorem land_mask (x : Nat) (hx : x < 18446744073709551616) :
    Nat.land x 18446744073709551608 = x / 8 * 8 := by
  have hc : (18446744073709551608 : Nat) = (2 ^ 61 - 1) <<< 3 := by decide
  have hd : x / 8 * 8 = (x >>> 3) <<< 3 := by
    rw [Nat.shiftLeft_eq, Nat.shiftRight_eq_div_pow]
  show x &&& 18446744073709551608 = x / 8 * 8
  rw [hd, hc]
  apply Nat.eq_of_testBit_eq
  intro j
  rw [Nat.testBit_land, Nat.testBit_shiftLeft, Nat.testBit_shiftLeft, Nat.testBit_shiftRight,
    Nat.testBit_two_pow_sub_one]
  by_cases h3 : 3 ≤ j
  · have e : 3 + (j - 3) = j := by omega
    rw [e]
    by_cases h64 : j < 64
    · have : j - 3 < 61 := by omega
      simp [h3, this]
    · have hj : x < 2 ^ j := lt_of_lt_of_le hx (by
        have : (18446744073709551616 : Nat) = 2 ^ 64 := by norm_num
        rw [this]; exact Nat.pow_le_pow_right (by norm_num) (by omega))
      rw [Nat.testBit_lt_two_pow hj]
      simp
  · simp [h3]

/-- The mask of `ROUND_UP` clears the three low bits. -/
theorem ROUND_UP_eq (bytes : Nat) :
    ROUND_UP bytes = (bytes + 7) % 18446744073709551616 / 8 * 8 := by
  unfold ROUND_UP
  simp only [ALIGN, SIZE_MOD]
  exact land_mask _ (Nat.mod_lt _ (by norm_num))

theorem freelist_index_eq (bytes : Nat) :
    freelist_index bytes
      = ((bytes + 7) % 18446744073709551616 / 8 + 18446744073709551615) % 18446744073709551616 := by
  simp only [freelist_index, ALIGN, SIZE_MOD]
  omega

theorem ptrdiff_eq (e s : Nat) :
    ptrdiff e s = (e % 18446744073709551616 + (18446744073709551616 - s % 18446744073709551616))
      % 18446744073709551616 := rfl

theorem ptrdiff_add (s d : Nat) (hd : d < 18446744073709551616) : ptrdiff (s + d) s = d := by
  rw [ptrdiff_eq]; omega

theorem ptrdiff_self (s : Nat) : ptrdiff s s = 0 := by
  rw [ptrdiff_eq]; omega

theorem write_same (f : Nat → Nat) (a v : Nat) : write f a v a = v := by simp [write]

theorem write_other (f : Nat → Nat) (a v x : Nat) (h : x ≠ a) : write f a v x = f x := by
  simp [write, h]

theorem write_write_restore (f : Nat → Nat) (a v : Nat) : write (write f a v) a (f a) = f := by
  funext x; by_cases h : x = a <;> simp [write, h]

theorem ROUND_UP_pooled (r : Nat) (h : r ≤ MAX_BYTES) :
    r ≤ ROUND_UP r ∧ ROUND_UP r < r + ALIGN ∧ ROUND_UP r ≤ MAX_BYTES ∧ ROUND_UP r % ALIGN = 0 := by
  rw [ROUND_UP_eq]
  simp only [MAX_BYTES, ALIGN] at *
  omega

theorem freelist_index_ROUND_UP (r : Nat) (h1 : 1 ≤ r) (h : r ≤ MAX_BYTES) :
    freelist_index (ROUND_UP r) = freelist_index r := by
  rw [ROUND_UP_eq, freelist_index_eq, freelist_index_eq]
  simp only [MAX_BYTES] at *
  omega

theorem chunk_alloc_carve_all (fuel size nobjs : Nat) (s : State)
    (h : size * nobjs % SIZE_MOD ≤ ptrdiff s.end_free s.start_free) :
    chunk_alloc (fuel + 1) size nobjs s
      = some (s.start_free, nobjs,
          { s with start_free := s.start_free + size * nobjs % SIZE_MOD }) := by
  rw [chunk_alloc]
  simp only [ge_iff_le, h, if_true]

theorem chunk_alloc_carve_fit (fuel size nobjs : Nat) (s : State)
    (h1 : ptrdiff s.end_free s.start_free < size * nobjs % SIZE_MOD)
    (h2 : size ≤ ptrdiff s.end_free s.start_free) :
    chunk_alloc (fuel + 1) size nobjs s
      = some (s.start_free, ptrdiff s.end_free s.start_free / size,
          { s with start_free := s.start_free
              + size * (ptrdiff s.end_free s.start_free / size) % SIZE_MOD }) := by
  rw [chunk_alloc]
  have h1' : ¬ size * nobjs % SIZE_MOD ≤ ptrdiff s.end_free s.start_free := by omega
  simp only [ge_iff_le, h1', h2, if_true, if_false]

/-- What the scan yields: a class size `j` from `i` upward, below `MAX_BYTES`,
and the head of its list, which is not null. -/
theorem scavenge_some (k i : Nat) (fl : Nat → Nat) (j t : Nat)
    (h : scavenge k i fl = some (j, t)) :
    i ≤ j ∧ j < MAX_BYTES ∧ t = fl (freelist_index j) ∧ t ≠ 0 := by
  induction k generalizing i with
  | zero => simp [scavenge] at h
  | succ k ih =>
    rw [scavenge] at h
    by_cases hi : i < MAX_BYTES
    · by_cases hne : fl (freelist_index i) ≠ 0
      · rw [if_pos hi, if_pos hne] at h
        injection h with h
        injection h with h1 h2
        subst h1
        exact ⟨le_refl _, hi, h2.symm, h2 ▸ hne⟩
      · rw [if_pos hi, if_neg hne] at h
        have := ih _ h
        simp only [MAX_BYTES, ALIGN, SIZE_MOD] at *
        omega
    · rw [if_neg hi] at h
      exact absurd h (by simp)

/-- The iteration bound of `scavenge` is never what ends the scan: once
`i + ALIGN * k` reaches `MAX_BYTES`, more iterations change nothing. -/
theorem scavenge_bound_enough (k d i : Nat) (fl : Nat → Nat) (h : MAX_BYTES ≤ i + ALIGN * k) :
    scavenge (k + d) i fl = scavenge k i fl := by
  induction k generalizing i with
  | zero =>
    have hi : ¬ i < MAX_BYTES := by omega
    cases d with
    | zero => rfl
    | succ d =>
      rw [Nat.zero_add, scavenge, scavenge, if_neg hi]
  | succ k ih =>
    rw [Nat.add_right_comm, scavenge, scavenge]
    by_cases hi : i < MAX_BYTES
    · rw [if_pos hi, if_pos hi]
      by_cases hne : fl (freelist_index i) ≠ 0
      · rw [if_pos hne, if_pos hne]
      · rw [if_neg hne, if_neg hne]
        apply ih
        simp only [MAX_BYTES, ALIGN, SIZE_MOD] at *
        omega
    · rw [if_neg hi, if_neg hi]

/-- Carving: when the arena holds at least one block of `size` bytes,
`chunk_alloc` returns the old cursor without any system call and moves the
cursor by `size * k` for the number `k` of blocks it yields. -/
theorem chunk_alloc_carve (fuel size nobjs : Nat) (s : State)
    (hfit : size ≤ ptrdiff s.end_free s.start_free) :
    ∃ k, chunk_alloc (fuel + 1) size nobjs s
        = some (s.start_free, k, { s with start_free := s.start_free + size * k % SIZE_MOD })
      ∧ (k = nobjs ∨ (k = ptrdiff s.end_free s.start_free / size
            ∧ ptrdiff s.end_free s.start_free < size * nobjs % SIZE_MOD)) := by
  by_cases h : size * nobjs % SIZE_MOD ≤ ptrdiff s.end_free s.start_free
  · exact ⟨nobjs, chunk_alloc_carve_all fuel size nobjs s h, Or.inl rfl⟩
  · have h1 : ptrdiff s.end_free s.start_free < size * nobjs % SIZE_MOD := by omega
    exact ⟨_, chunk_alloc_carve_fit fuel size nobjs s h1 hfit, Or.inr ⟨rfl, h1⟩⟩

/-- Growth step in any state.  When the arena holds less than one block,
`chunk_alloc` donates the remainder (if any), records and counts one `malloc`,
and calls itself on a state `s2` that does not depend on the recursion bound:
its arena is either the scavenged block (then `heap_size` is unchanged) or the
range of `bytes_to_get` bytes starting at the address the system allocator
returned (null included, when nothing could be scavenged). -/
theorem chunk_alloc_grow_state (size nobjs : Nat) (s : State)
    (h1 : ¬ size * nobjs % SIZE_MOD ≤ ptrdiff s.end_free s.start_free)
    (h2 : ¬ size ≤ ptrdiff s.end_free s.start_free) :
    ∃ s2 : State,
      (∀ fuel, chunk_alloc (fuel + 1) size nobjs s = chunk_alloc fuel size nobjs s2)
      ∧ s2.trace = SysEvent.malloc
          ((20 * (size * nobjs % SIZE_MOD) + ROUND_UP (s.heap_size / 16)) % SIZE_MOD)
          (s.sys.headD 0) :: s.trace
      ∧ s2.malloc_time = s.malloc_time + 1
      ∧ s2.sys = s.sys.tail
      ∧ s2.mem = (if ptrdiff s.end_free s.start_free > 0 then
            write s.mem s.start_free
              (s.free_list (freelist_index (ptrdiff s.end_free s.start_free)))
          else s.mem)
      ∧ ((∃ i, scavenge (NFREELEISTS + 1) size
                (if ptrdiff s.end_free s.start_free > 0 then
                  write s.free_list (freelist_index (ptrdiff s.end_free s.start_free))
                    s.start_free
                else s.free_list) = some (i, s2.start_free)
            ∧ s.sys.headD 0 = 0
            ∧ s2.end_free = s2.start_free + i
            ∧ s2.heap_size = s.heap_size
            ∧ s2.free_list = write
                (if ptrdiff s.end_free s.start_free > 0 then
                  write s.free_list (freelist_index (ptrdiff s.end_free s.start_free))
                    s.start_free
                else s.free_list) (freelist_index i) (s2.mem s2.start_free))
        ∨ ((s.sys.headD 0 ≠ 0 ∨ scavenge (NFREELEISTS + 1) size
                (if ptrdiff s.end_free s.start_free > 0 then
                  write s.free_list (freelist_index (ptrdiff s.end_free s.start_free))
                    s.start_free
                else s.free_list) = none)
            ∧ s2.start_free = s.sys.headD 0
            ∧ s2.end_free = s.sys.headD 0
                + (20 * (size * nobjs % SIZE_MOD) + ROUND_UP (s.heap_size / 16)) % SIZE_MOD
            ∧ s2.heap_size = (s.heap_size
                + (20 * (size * nobjs % SIZE_MOD) + ROUND_UP (s.heap_size / 16)) % SIZE_MOD)
                % SIZE_MOD
            ∧ s2.free_list = (if ptrdiff s.end_free s.start_free > 0 then
                  write s.free_list (freelist_index (ptrdiff s.end_free s.start_free))
                    s.start_free
                else s.free_list))) := by
  by_cases hbl : ptrdiff s.end_free s.start_free > 0
  · simp only [hbl, if_true]
    by_cases hr : s.sys.headD 0 = 0
    · cases hsc : scavenge (NFREELEISTS + 1) size
          (write s.free_list (freelist_index (ptrdiff s.end_free s.start_free)) s.start_free) with
      | none =>
        refine ⟨?st1, fun fuel => ?hf1, ?hp1⟩
        case hf1 =>
          conv_lhs => rw [chunk_alloc]
          simp only [ge_iff_le, h1, h2, if_false, sys_malloc, hbl, if_pos hr, if_true, hsc]
          exact Eq.refl _
        case hp1 => exact ⟨rfl, rfl, rfl, rfl, Or.inr ⟨Or.inr rfl, rfl, rfl, rfl, rfl⟩⟩
      | some it =>
        obtain ⟨i, temp⟩ := it
        refine ⟨?st2, fun fuel => ?hf2, ?hp2⟩
        case hf2 =>
          conv_lhs => rw [chunk_alloc]
          simp only [ge_iff_le, h1, h2, if_false, sys_malloc, hbl, if_pos hr, if_true, hsc]
          exact Eq.refl _
        case hp2 => exact ⟨rfl, rfl, rfl, rfl, Or.inl ⟨i, rfl, hr, rfl, rfl, rfl⟩⟩
    · refine ⟨?st3, fun fuel => ?hf3, ?hp3⟩
      case hf3 =>
        conv_lhs => rw [chunk_alloc]
        simp only [ge_iff_le, h1, h2, if_false, sys_malloc, hbl, if_neg hr, if_true]
        exact Eq.refl _
      case hp3 => exact ⟨rfl, rfl, rfl, rfl, Or.inr ⟨Or.inl hr, rfl, rfl, rfl, rfl⟩⟩
  · simp only [hbl, if_false]
    by_cases hr : s.sys.headD 0 = 0
    · cases hsc : scavenge (NFREELEISTS + 1) size s.free_list with
      | none =>
        refine ⟨?st4, fun fuel => ?hf4, ?hp4⟩
        case hf4 =>
          conv_lhs => rw [chunk_alloc]
          simp only [ge_iff_le, h1, h2, if_false, sys_malloc, hbl, if_pos hr, if_true, hsc]
          exact Eq.refl _
        case hp4 => exact ⟨rfl, rfl, rfl, rfl, Or.inr ⟨Or.inr rfl, rfl, rfl, rfl, rfl⟩⟩
      | some it =>
        obtain ⟨i, temp⟩ := it
        refine ⟨?st5, fun fuel => ?hf5, ?hp5⟩
        case hf5 =>
          conv_lhs => rw [chunk_alloc]
          simp only [ge_iff_le, h1, h2, if_false, sys_malloc, hbl, if_pos hr, if_true, hsc]
          exact Eq.refl _
        case hp5 => exact ⟨rfl, rfl, rfl, rfl, Or.inl ⟨i, rfl, hr, rfl, rfl, rfl⟩⟩
    · refine ⟨?st6, fun fuel => ?hf6, ?hp6⟩
      case hf6 =>
        conv_lhs => rw [chunk_alloc]
        simp only [ge_iff_le, h1, h2, if_false, sys_malloc, hbl, if_neg hr, if_true]
        exact Eq.refl _
      case hp6 => exact ⟨rfl, rfl, rfl, rfl, Or.inr ⟨Or.inl hr, rfl, rfl, rfl, rfl⟩⟩

/-- The recursion bound of `chunk_alloc` only cuts runs short: a result
obtained within a bound is the result within every larger bound. -/
theorem chunk_alloc_bound_mono (fuel size nobjs : Nat) (s : State) (r : Nat × Nat × State)
    (h : chunk_alloc fuel size nobjs s = some r) :
    chunk_alloc (fuel + 1) size nobjs s = some r := by
  induction fuel generalizing s with
  | zero => simp [chunk_alloc] at h
  | succ fuel ih =>
    by_cases h1 : size * nobjs % SIZE_MOD ≤ ptrdiff s.end_free s.start_free
    · rw [chunk_alloc_carve_all _ _ _ _ h1] at h ⊢
      exact h
    · by_cases h2 : size ≤ ptrdiff s.end_free s.start_free
      · rw [chunk_alloc_carve_fit _ _ _ _ (by omega) h2] at h ⊢
        exact h
      · obtain ⟨s2, he, _⟩ := chunk_alloc_grow_state size nobjs s h1 h2
        rw [he] at h ⊢
        exact ih s2 h

/-- Growth step in the pooled domain: the state on which `chunk_alloc` calls
itself holds at least one block in its arena, whether that arena is the region
obtained, the scavenged block, or (on total failure) the range starting at the
null address. -/
theorem chunk_alloc_grow_step (fuel size nobjs : Nat) (s : State)
    (hlt : ptrdiff s.end_free s.start_free < size) (hn : 1 ≤ nobjs)
    (hprod : size * nobjs ≤ 204800) (hheap : s.heap_size < SIZE_MOD) :
    ∃ s2 : State, chunk_alloc (fuel + 1) size nobjs s = chunk_alloc fuel size nobjs s2
      ∧ s2.trace = SysEvent.malloc
          ((20 * (size * nobjs % SIZE_MOD) + ROUND_UP (s.heap_size / 16)) % SIZE_MOD)
          (s.sys.headD 0) :: s.trace
      ∧ s2.malloc_time = s.malloc_time + 1
      ∧ s2.sys = s.sys.tail
      ∧ s2.heap_size < SIZE_MOD
      ∧ size ≤ ptrdiff s2.end_free s2.start_free := by
  have hsz : size ≤ size * nobjs := Nat.le_mul_of_pos_right _ hn
  have htot : size * nobjs % SIZE_MOD = size * nobjs := by
    apply Nat.mod_eq_of_lt; simp only [SIZE_MOD]; omega
  have hru := ROUND_UP_eq (s.heap_size / 16)
  have hbtg_lt : 20 * (size * nobjs) + ROUND_UP (s.heap_size / 16) < 18446744073709551616 := by
    rw [hru]; simp only [SIZE_MOD] at *; omega
  have hbtg : (20 * (size * nobjs) + ROUND_UP (s.heap_size / 16)) % SIZE_MOD
      = 20 * (size * nobjs) + ROUND_UP (s.heap_size / 16) := Nat.mod_eq_of_lt hbtg_lt
  obtain ⟨s2, he, htr, hmt, hsys, _, hcase⟩ :=
    chunk_alloc_grow_state size nobjs s (by omega) (by omega)
  refine ⟨s2, he fuel, htr, hmt, hsys, ?_, ?_⟩
  · rcases hcase with ⟨i, _, _, _, hh, _⟩ | ⟨_, _, _, hh, _⟩
    · rw [hh]; exact hheap
    · rw [hh]; exact Nat.mod_lt _ (by simp [SIZE_MOD])
  · rcases hcase with ⟨i, hsc, _, hend, _, _⟩ | ⟨_, hst, hend, _, _⟩
    · have hs := scavenge_some _ _ _ _ _ hsc
      rw [hend, ptrdiff_add _ _ (by simp only [MAX_BYTES] at hs; omega)]
      exact hs.1
    · rw [hend, hst, htot, hbtg, ptrdiff_add _ _ hbtg_lt]
      omega

theorem requests_append (a b : List SysEvent) : requests (a ++ b) = requests a + requests b := by
  simp [requests, List.filter_append]

/-- In the pooled domain `chunk_alloc` returns with two levels of recursion and
yields at least one block; it issues no system call when the arena holds a
block and exactly one `malloc` otherwise. -/
theorem chunk_alloc_pooled (fuel size nobjs : Nat) (s : State) (hn : 1 ≤ nobjs)
    (hprod : size * nobjs ≤ 204800) (hheap : s.heap_size < SIZE_MOD) :
    ∃ c k s1, chunk_alloc (fuel + 2) size nobjs s = some (c, k, s1) ∧ 1 ≤ k
      ∧ (size ≤ ptrdiff s.end_free s.start_free →
          s1.trace = s.trace ∧ s1.malloc_time = s.malloc_time ∧ s1.sys = s.sys
            ∧ c = s.start_free)
      ∧ (ptrdiff s.end_free s.start_free < size →
          s1.trace = SysEvent.malloc
              ((20 * (size * nobjs % SIZE_MOD) + ROUND_UP (s.heap_size / 16)) % SIZE_MOD)
              (s.sys.headD 0) :: s.trace
            ∧ s1.malloc_time = s.malloc_time + 1 ∧ s1.sys = s.sys.tail) := by
  have hk : ∀ (t : State) (k : Nat), size ≤ ptrdiff t.end_free t.start_free →
      (k = nobjs ∨ (k = ptrdiff t.end_free t.start_free / size
        ∧ ptrdiff t.end_free t.start_free < size * nobjs % SIZE_MOD)) → 1 ≤ k := by
    intro t k hfit hcase
    rcases hcase with h | ⟨h, hlt⟩
    · omega
    · have hpos : 0 < size := by
        rcases Nat.eq_zero_or_pos size with h0 | h0
        · rw [h0] at hlt; simp at hlt
        · exact h0
      rw [h]
      exact Nat.div_pos hfit hpos
  by_cases hfit : size ≤ ptrdiff s.end_free s.start_free
  · obtain ⟨k, hk1, hk2⟩ := chunk_alloc_carve (fuel + 1) size nobjs s hfit
    refine ⟨_, k, _, hk1, hk s k hfit hk2, fun _ => ⟨rfl, rfl, rfl, rfl⟩, fun h => ?_⟩
    omega
  · have hlt : ptrdiff s.end_free s.start_free < size := by omega
    obtain ⟨s2, he, htr, hmt, hsys, _, hfit2⟩ :=
      chunk_alloc_grow_step (fuel + 1) size nobjs s hlt hn hprod hheap
    obtain ⟨k, hk1, hk2⟩ := chunk_alloc_carve fuel size nobjs s2 hfit2
    refine ⟨_, k, _, he.trans hk1, hk s2 k hfit2 hk2, fun h => absurd h hfit, fun _ => ?_⟩
    exact ⟨htr, hmt, hsys⟩

/-- What `refill` adds to `chunk_alloc`: the chunk is returned as it is, and only the
free list of the class and the link words change. -/
theorem refill_of_chunk (fuel n c k : Nat) (s s1 : State)
    (h : chunk_alloc fuel n 50 s = some (c, k, s1)) (hk : 1 ≤ k) :
    ∃ s2, refill fuel n s = some (c, s2) ∧ s2.trace = s1.trace
      ∧ s2.malloc_time = s1.malloc_time ∧ s2.sys = s1.sys ∧ s2.start_free = s1.start_free
      ∧ s2.end_free = s1.end_free ∧ s2.heap_size = s1.heap_size := by
  unfold refill
  rw [h]
  by_cases h1 : k = 1
  · simp only [h1, if_true]
    exact ⟨_, rfl, rfl, rfl, rfl, rfl, rfl, rfl⟩
  · have h0 : ¬ k = 0 := by omega
    simp only [h1, h0, if_false]
    exact ⟨_, rfl, rfl, rfl, rfl, rfl, rfl, rfl⟩

/-- The `size_t` field `heap_size` stays below the modulus. -/
theorem chunk_alloc_heap_lt (fuel size nobjs c k : Nat) (s s1 : State)
    (h : chunk_alloc fuel size nobjs s = some (c, k, s1)) (hheap : s.heap_size < SIZE_MOD) :
    s1.heap_size < SIZE_MOD := by
  induction fuel generalizing s with
  | zero => simp [chunk_alloc] at h
  | succ fuel ih =>
    by_cases h1 : size * nobjs % SIZE_MOD ≤ ptrdiff s.end_free s.start_free
    · rw [chunk_alloc_carve_all fuel size nobjs s h1] at h
      injection h with h; injection h with _ h; injection h with _ h
      rw [← h]; exact hheap
    · by_cases h2 : size ≤ ptrdiff s.end_free s.start_free
      · rw [chunk_alloc_carve_fit fuel size nobjs s (by omega) h2] at h
        injection h with h; injection h with _ h; injection h with _ h
        rw [← h]; exact hheap
      · obtain ⟨s2, he, _, _, _, _, hcase⟩ := chunk_alloc_grow_state size nobjs s h1 h2
        rw [he] at h
        refine ih s2 h ?_
        rcases hcase with ⟨i, _, _, _, hh, _⟩ | ⟨_, _, _, hh, _⟩
        · rw [hh]; exact hheap
        · rw [hh]; exact Nat.mod_lt _ (by simp [SIZE_MOD])

/-- Every `allocate` returns in the pooled and in the large case, and moves the
counter by the number of requests it records. -/
theorem allocate_counts (sizeofT fuel n : Nat) (s : State) (hheap : s.heap_size < SIZE_MOD) :
    ∃ q s1, allocate sizeofT (fuel + 2) n s = some (q, s1)
      ∧ (∃ evs, s1.trace = evs ++ s.trace ∧ s1.malloc_time = s.malloc_time + requests evs)
      ∧ s1.heap_size < SIZE_MOD
      ∧ (n * sizeofT % SIZE_MOD > MAX_BYTES →
          s1.malloc_time = s.malloc_time + 1 ∧ s1.free_list = s.free_list
            ∧ s1.start_free = s.start_free ∧ s1.end_free = s.end_free
            ∧ s1.heap_size = s.heap_size)
      ∧ (n * sizeofT % SIZE_MOD ≤ MAX_BYTES →
          s.free_list (freelist_index (n * sizeofT % SIZE_MOD)) ≠ 0 →
          s1.malloc_time = s.malloc_time)
      ∧ (n * sizeofT % SIZE_MOD ≤ MAX_BYTES →
          s.free_list (freelist_index (n * sizeofT % SIZE_MOD)) = 0 →
          ROUND_UP (n * sizeofT % SIZE_MOD) ≤ ptrdiff s.end_free s.start_free →
          s1.malloc_time = s.malloc_time)
      ∧ (n * sizeofT % SIZE_MOD ≤ MAX_BYTES →
          s.free_list (freelist_index (n * sizeofT % SIZE_MOD)) = 0 →
          ptrdiff s.end_free s.start_free < ROUND_UP (n * sizeofT % SIZE_MOD) →
          s1.malloc_time = s.malloc_time + 1) := by
  unfold allocate
  dsimp only
  by_cases hbig : n * sizeofT % SIZE_MOD > MAX_BYTES
  · rw [if_pos hbig]
    refine ⟨_, _, rfl, ⟨[SysEvent.malloc _ _], rfl, ?_⟩, hheap, fun _ => ⟨rfl, rfl, rfl, rfl, rfl⟩,
      fun h => absurd hbig (by omega), fun h => absurd hbig (by omega),
      fun h => absurd hbig (by omega)⟩
    simp [requests, is_request, sys_malloc]
  · rw [if_neg hbig]
    have hle : n * sizeofT % SIZE_MOD ≤ MAX_BYTES := by omega
    by_cases hhead : s.free_list (freelist_index (n * sizeofT % SIZE_MOD)) = 0
    · rw [if_pos hhead]
      have hru := ROUND_UP_pooled _ hle
      have hprod : ROUND_UP (n * sizeofT % SIZE_MOD) * 50 ≤ 204800 := by
        simp only [MAX_BYTES] at hru; omega
      obtain ⟨c, k, s1, hc, hk, hA, hB⟩ :=
        chunk_alloc_pooled fuel (ROUND_UP (n * sizeofT % SIZE_MOD)) 50 s (by omega) hprod hheap
      obtain ⟨s2, hr, htr, hmt, hsys, hst, hen, hhp⟩ := refill_of_chunk _ _ _ _ _ _ hc hk
      have hheap2 : s2.heap_size < SIZE_MOD := by
        rw [hhp]; exact chunk_alloc_heap_lt _ _ _ _ _ _ _ hc hheap
      by_cases hfit : ROUND_UP (n * sizeofT % SIZE_MOD) ≤ ptrdiff s.end_free s.start_free
      · obtain ⟨h1, h2, _, _⟩ := hA hfit
        have hev : ∃ evs, s2.trace = evs ++ s.trace
            ∧ s2.malloc_time = s.malloc_time + requests evs := by
          refine ⟨[], ?_, ?_⟩
          · rw [htr, h1]; rfl
          · rw [hmt, h2]; simp [requests]
        exact ⟨_, _, hr, hev, hheap2, fun h => absurd h hbig, fun _ h => absurd hhead h,
          fun _ _ _ => by rw [hmt, h2], fun _ _ h => absurd hfit (by omega)⟩
      · obtain ⟨h1, h2, _⟩ := hB (by omega)
        have hev : ∃ evs, s2.trace = evs ++ s.trace
            ∧ s2.malloc_time = s.malloc_time + requests evs := by
          refine ⟨[SysEvent.malloc
            ((20 * (ROUND_UP (n * sizeofT % SIZE_MOD) * 50 % SIZE_MOD)
              + ROUND_UP (s.heap_size / 16)) % SIZE_MOD) (s.sys.headD 0)], ?_, ?_⟩
          · rw [htr, h1]; rfl
          · rw [hmt, h2]; simp [requests, is_request]
        exact ⟨_, _, hr, hev, hheap2, fun h => absurd h hbig,
          fun _ h => absurd hhead h, fun _ _ h => absurd h hfit, fun _ _ _ => by rw [hmt, h2]⟩
    · rw [if_neg hhead]
      refine ⟨_, _, rfl, ⟨[], rfl, ?_⟩, hheap, fun h => absurd h hbig, fun _ _ => rfl,
        fun _ h => absurd h hhead, fun _ h => absurd h hhead⟩
      simp [requests]

/-- `deallocate` asks the system allocator for nothing: the counter keeps its
value and the record gains at most a `free`. -/
theorem deallocate_counts (sizeofT p n : Nat) (s : State) :
    (deallocate sizeofT p n s).malloc_time = s.malloc_time
      ∧ (deallocate sizeofT p n s).heap_size = s.heap_size
      ∧ ∃ evs, (deallocate sizeofT p n s).trace = evs ++ s.trace ∧ requests evs = 0 := by
  unfold deallocate
  dsimp only
  by_cases hbig : n * sizeofT % SIZE_MOD > MAX_BYTES
  · rw [if_pos hbig]
    exact ⟨rfl, rfl, [SysEvent.free p], rfl, by simp [requests, is_request]⟩
  · rw [if_neg hbig]
    exact ⟨rfl, rfl, [], rfl, by simp [requests]⟩

/-- The linking loop leaves every cell below its first node untouched. -/
theorem link_blocks_below (k cur n : Nat) (m : Nat → Nat) (x : Nat) (hx : x < cur) :
    link_blocks k cur n m x = m x := by
  induction k generalizing cur m with
  | zero =>
    rw [link_blocks]
    exact write_other _ _ _ _ (by omega)
  | succ k ih =>
    rw [link_blocks, ih (cur + n) _ (by omega)]
    exact write_other _ _ _ _ (by omega)

/-- The linking loop builds the chain: node `j` links to node `j + 1`, the last
node holds the null link. -/
theorem link_blocks_at (k cur n : Nat) (m : Nat → Nat) (hn : 0 < n) (j : Nat) (hj : j ≤ k) :
    link_blocks k cur n m (cur + j * n) = if j < k then cur + (j + 1) * n else 0 := by
  induction k generalizing cur m j with
  | zero =>
    have : j = 0 := by omega
    subst this
    rw [link_blocks]
    simp [write]
  | succ k ih =>
    rw [link_blocks]
    cases j with
    | zero =>
      rw [Nat.zero_mul, Nat.add_zero, link_blocks_below _ _ _ _ _ (by omega)]
      simp [write]
    | succ j =>
      have e : cur + (j + 1) * n = (cur + n) + j * n := by rw [Nat.succ_mul]; omega
      rw [e, ih (cur + n) _ j (by omega)]
      by_cases hjk : j < k
      · have : j + 1 < k + 1 := by omega
        simp only [hjk, this, if_true]
        rw [Nat.succ_mul (j + 1), Nat.succ_mul j]; omega
      · have : ¬ j + 1 < k + 1 := by omega
        simp only [hjk, this, if_false]

/-- Growth that succeeds, in the pooled domain: the exact result of `chunk_alloc`. -/
theorem chunk_alloc_grow_success (fuel size nobjs : Nat) (s : State)
    (hlt : ptrdiff s.end_free s.start_free < size) (hn : 1 ≤ nobjs)
    (hprod : size * nobjs ≤ 204800) (hheap : s.heap_size < SIZE_MOD)
    (hr : s.sys.headD 0 ≠ 0) :
    chunk_alloc (fuel + 2) size nobjs s
      = some (s.sys.headD 0, nobjs,
          { start_free := s.sys.headD 0 + size * nobjs,
            end_free := s.sys.headD 0 + (20 * (size * nobjs) + ROUND_UP (s.heap_size / 16)),
            heap_size := (s.heap_size + (20 * (size * nobjs) + ROUND_UP (s.heap_size / 16)))
              % SIZE_MOD,
            free_list :=
              if ptrdiff s.end_free s.start_free > 0 then
                write s.free_list (freelist_index (ptrdiff s.end_free s.start_free)) s.start_free
              else s.free_list,
            mem :=
              if ptrdiff s.end_free s.start_free > 0 then
                write s.mem s.start_free
                  (s.free_list (freelist_index (ptrdiff s.end_free s.start_free)))
              else s.mem,
            malloc_time := s.malloc_time + 1,
            sys := s.sys.tail,
            trace := SysEvent.malloc (20 * (size * nobjs) + ROUND_UP (s.heap_size / 16))
              (s.sys.headD 0) :: s.trace }) := by
  have hsz : size ≤ size * nobjs := Nat.le_mul_of_pos_right _ hn
  have htot : size * nobjs % SIZE_MOD = size * nobjs := by
    apply Nat.mod_eq_of_lt; simp only [SIZE_MOD]; omega
  have hru := ROUND_UP_eq (s.heap_size / 16)
  have hbtg_lt : 20 * (size * nobjs) + ROUND_UP (s.heap_size / 16) < 18446744073709551616 := by
    rw [hru]; simp only [SIZE_MOD] at *; omega
  have hbtg : (20 * (size * nobjs) + ROUND_UP (s.heap_size / 16)) % SIZE_MOD
      = 20 * (size * nobjs) + ROUND_UP (s.heap_size / 16) := Nat.mod_eq_of_lt hbtg_lt
  have h1 : ¬ size * nobjs ≤ ptrdiff s.end_free s.start_free := by omega
  have h2 : ¬ size ≤ ptrdiff s.end_free s.start_free := by omega
  rw [chunk_alloc]
  simp only [ge_iff_le, htot, h1, h2, if_false, hbtg, sys_malloc]
  by_cases hbl : ptrdiff s.end_free s.start_free > 0
  · simp only [hbl, hr, if_true, if_false]
    rw [chunk_alloc_carve_all]
    · rw [htot]
    · show size * nobjs % SIZE_MOD
        ≤ ptrdiff (s.sys.headD 0 + (20 * (size * nobjs) + ROUND_UP (s.heap_size / 16)))
            (s.sys.headD 0)
      rw [ptrdiff_add _ _ hbtg_lt, htot]; omega
  · simp only [hbl, hr, if_false]
    rw [chunk_alloc_carve_all]
    · rw [htot]
    · show size * nobjs % SIZE_MOD
        ≤ ptrdiff (s.sys.headD 0 + (20 * (size * nobjs) + ROUND_UP (s.heap_size / 16)))
            (s.sys.headD 0)
      rw [ptrdiff_add _ _ hbtg_lt, htot]; omega

/-- The addresses of a chain, listed from its head. -/
theorem range_map_shift (a rn k : Nat) :
    a :: (List.range k).map (fun j => a + rn + j * rn)
      = (List.range (k + 1)).map (fun j => a + j * rn) := by
  rw [List.range_succ_eq_map, List.map_cons, List.map_map]
  congr 1
  · simp
  · apply List.map_congr_left
    intro j _
    simp only [Function.comp, Nat.succ_mul]
    omega

/-- Popping a chain: when the list of the class starts at `a` and its nodes lie
`rn` bytes apart, `k` calls return `a`, `a + rn`, ... and make no system call. -/
theorem allocate_seq_chain (sizeofT fuel n rn : Nat)
    (hhi : n * sizeofT % SIZE_MOD ≤ MAX_BYTES) (k : Nat) (s : State) (a : Nat) (ha : a ≠ 0)
    (hhead : 0 < k → s.free_list (freelist_index (n * sizeofT % SIZE_MOD)) = a)
    (hchain : ∀ j, j < k → s.mem (a + j * rn) = if j + 1 < k then a + (j + 1) * rn else 0) :
    ∃ s1, allocate_seq sizeofT fuel (List.replicate k n) s
        = some ((List.range k).map (fun j => a + j * rn), s1)
      ∧ s1.malloc_time = s.malloc_time ∧ s1.trace = s.trace ∧ s1.sys = s.sys
      ∧ s1.start_free = s.start_free ∧ s1.end_free = s.end_free
      ∧ s1.heap_size = s.heap_size := by
  induction k generalizing s a with
  | zero => exact ⟨s, rfl, rfl, rfl, rfl, rfl, rfl, rfl⟩
  | succ k ih =>
    have hbig : ¬ n * sizeofT % SIZE_MOD > MAX_BYTES := by omega
    have hh := hhead (by omega)
    have hne : ¬ s.free_list (freelist_index (n * sizeofT % SIZE_MOD)) = 0 := by rw [hh]; exact ha
    have hal : allocate sizeofT fuel n s
        = some (a,
            { s with
              free_list :=
                write s.free_list (freelist_index (n * sizeofT % SIZE_MOD)) (s.mem a) }) := by
      unfold allocate
      dsimp only
      rw [if_neg hbig, if_neg hne, hh]
    have hm0 := hchain 0 (by omega)
    rw [Nat.zero_mul, Nat.add_zero] at hm0
    obtain ⟨s1, h1, h2, h3, h4, h5, h6, h7⟩ := ih
      { s with
        free_list := write s.free_list (freelist_index (n * sizeofT % SIZE_MOD)) (s.mem a) }
      (a + rn) (by omega)
      (by
        intro hk
        dsimp only
        rw [write_same, hm0]
        have : 0 + 1 < k + 1 := by omega
        simp only [this, if_true]
        omega)
      (by
        intro j hj
        dsimp only
        have e : a + rn + j * rn = a + (j + 1) * rn := by rw [Nat.succ_mul]; omega
        rw [e, hchain (j + 1) (by omega)]
        by_cases hjk : j + 1 < k
        · have : j + 1 + 1 < k + 1 := by omega
          simp only [hjk, this, if_true]
          rw [Nat.succ_mul (j + 1), Nat.succ_mul j]; omega
        · have : ¬ j + 1 + 1 < k + 1 := by omega
          simp only [hjk, this, if_false])
    refine ⟨s1, ?_, h2, h3, h4, h5, h6, h7⟩
    rw [List.replicate_succ, allocate_seq, hal]
    dsimp only
    rw [h1]
    dsimp only
    rw [range_map_shift]

/-- The linking loop writes the link words of its nodes and nothing else. -/
theorem link_blocks_other (k cur n : Nat) (m : Nat → Nat) (x : Nat)
    (hx : ∀ j, j ≤ k → x ≠ cur + j * n) : link_blocks k cur n m x = m x := by
  induction k generalizing cur m with
  | zero =>
    rw [link_blocks]
    exact write_other _ _ _ _ (by simpa using hx 0 (le_refl _))
  | succ k ih =>
    rw [link_blocks, ih (cur + n) _ (fun j hj => by
      have := hx (j + 1) (by omega)
      rw [Nat.succ_mul] at this
      omega)]
    exact write_other _ _ _ _ (by simpa using hx 0 (by omega))

/-- Reading a list that starts with the null pointer yields no block. -/
theorem free_chain_null (m : Nat → Nat) (b : Nat) : free_chain m b 0 = [] := by
  cases b with
  | zero => rfl
  | succ b => rw [free_chain, if_pos rfl]

/-- Reading a chain of `K + 1` nodes that lie `n` bytes apart, the last of which
holds the null link. -/
theorem free_chain_links (m : Nat → Nat) (n K a b : Nat) (ha : a ≠ 0) (hb : K + 1 ≤ b)
    (hm : ∀ j, j ≤ K → m (a + j * n) = if j < K then a + (j + 1) * n else 0) :
    free_chain m b a = (List.range (K + 1)).map (fun j => a + j * n) := by
  induction K generalizing a b with
  | zero =>
    obtain ⟨b, rfl⟩ : ∃ c, b = c + 1 := ⟨b - 1, by omega⟩
    have h0 := hm 0 (le_refl _)
    rw [Nat.zero_mul, Nat.add_zero, if_neg (by omega)] at h0
    rw [free_chain, if_neg ha, h0, free_chain_null]
    simp [List.range_succ]
  | succ K ih =>
    obtain ⟨b, rfl⟩ : ∃ c, b = c + 1 := ⟨b - 1, by omega⟩
    have h0 := hm 0 (by omega)
    rw [Nat.zero_mul, Nat.add_zero, if_pos (by omega), Nat.one_mul] at h0
    rw [free_chain, if_neg ha, h0, ih (a + n) b (by omega) (by omega), range_map_shift]
    intro j hj
    have e : a + n + j * n = a + (j + 1) * n := by rw [Nat.succ_mul]; omega
    rw [e, hm (j + 1) (by omega)]
    by_cases hjk : j < K
    · rw [if_pos hjk, if_pos (by omega)]
      rw [Nat.succ_mul (j + 1), Nat.succ_mul j]; omega
    · rw [if_neg hjk, if_neg (by omega)]

/-- With `cursor <= limit < 2 ^ 64` the `size_t` difference is the true one. -/
theorem ptrdiff_of_le (e s : Nat) (h : s ≤ e) (he : e < SIZE_MOD) : ptrdiff e s = e - s := by
  rw [ptrdiff_eq]
  simp only [SIZE_MOD] at he
  omega

/-- Growth that succeeds, whenever the size of the request to the system does
not overflow `size_t`: the exact result of `chunk_alloc`. -/
theorem chunk_alloc_grow_success_fit (fuel size nobjs : Nat) (s : State)
    (hlt : ptrdiff s.end_free s.start_free < size) (hn : 1 ≤ nobjs)
    (h20 : 20 * (size * nobjs) + ROUND_UP (s.heap_size / 16) < SIZE_MOD)
    (hr : s.sys.headD 0 ≠ 0) :
    chunk_alloc (fuel + 2) size nobjs s
      = some (s.sys.headD 0, nobjs,
          { start_free := s.sys.headD 0 + size * nobjs,
            end_free := s.sys.headD 0 + (20 * (size * nobjs) + ROUND_UP (s.heap_size / 16)),
            heap_size := (s.heap_size + (20 * (size * nobjs) + ROUND_UP (s.heap_size / 16)))
              % SIZE_MOD,
            free_list :=
              if ptrdiff s.end_free s.start_free > 0 then
                write s.free_list (freelist_index (ptrdiff s.end_free s.start_free)) s.start_free
              else s.free_list,
            mem :=
              if ptrdiff s.end_free s.start_free > 0 then
                write s.mem s.start_free
                  (s.free_list (freelist_index (ptrdiff s.end_free s.start_free)))
              else s.mem,
            malloc_time := s.malloc_time + 1,
            sys := s.sys.tail,
            trace := SysEvent.malloc (20 * (size * nobjs) + ROUND_UP (s.heap_size / 16))
              (s.sys.headD 0) :: s.trace }) := by
  have hsz : size ≤ size * nobjs := Nat.le_mul_of_pos_right _ hn
  have hbtg_lt : 20 * (size * nobjs) + ROUND_UP (s.heap_size / 16) < 18446744073709551616 := h20
  have htot : size * nobjs % SIZE_MOD = size * nobjs := by
    apply Nat.mod_eq_of_lt; simp only [SIZE_MOD]; omega
  have hbtg : (20 * (size * nobjs) + ROUND_UP (s.heap_size / 16)) % SIZE_MOD
      = 20 * (size * nobjs) + ROUND_UP (s.heap_size / 16) := Nat.mod_eq_of_lt hbtg_lt
  have h1 : ¬ size * nobjs ≤ ptrdiff s.end_free s.start_free := by omega
  have h2 : ¬ size ≤ ptrdiff s.end_free s.start_free := by omega
  rw [chunk_alloc]
  simp only [ge_iff_le, htot, h1, h2, if_false, hbtg, sys_malloc]
  by_cases hbl : ptrdiff s.end_free s.start_free > 0
  · simp only [hbl, hr, if_true, if_false]
    rw [chunk_alloc_carve_all]
    · rw [htot]
    · show size * nobjs % SIZE_MOD
        ≤ ptrdiff (s.sys.headD 0 + (20 * (size * nobjs) + ROUND_UP (s.heap_size / 16)))
            (s.sys.headD 0)
      rw [ptrdiff_add _ _ hbtg_lt, htot]; omega
  · simp only [hbl, hr, if_false]
    rw [chunk_alloc_carve_all]
    · rw [htot]
    · show size * nobjs % SIZE_MOD
        ≤ ptrdiff (s.sys.headD 0 + (20 * (size * nobjs) + ROUND_UP (s.heap_size / 16)))
            (s.sys.headD 0)
      rw [ptrdiff_add _ _ hbtg_lt, htot]; omega

/-- Larger recursion bounds give the same result. -/
theorem chunk_alloc_bound_le (fuel d size nobjs : Nat) (s : State) (r : Nat × Nat × State)
    (h : chunk_alloc fuel size nobjs s = some r) :
    chunk_alloc (fuel + d) size nobjs s = some r := by
  induction d with
  | zero => exact h
  | succ d ih => exact chunk_alloc_bound_mono _ _ _ _ _ ih

/-- Growth step whenever the size of the request to the system does not overflow
`size_t`: the state on which `chunk_alloc` calls itself holds at least one
block in its arena. -/
theorem chunk_alloc_grow_step_fit (fuel size nobjs : Nat) (s : State)
    (hlt : ptrdiff s.end_free s.start_free < size) (hn : 1 ≤ nobjs)
    (h20 : 20 * (size * nobjs) + ROUND_UP (s.heap_size / 16) < SIZE_MOD) :
    ∃ s2 : State, chunk_alloc (fuel + 1) size nobjs s = chunk_alloc fuel size nobjs s2
      ∧ s2.trace = SysEvent.malloc
          ((20 * (size * nobjs % SIZE_MOD) + ROUND_UP (s.heap_size / 16)) % SIZE_MOD)
          (s.sys.headD 0) :: s.trace
      ∧ size ≤ ptrdiff s2.end_free s2.start_free := by
  have hsz : size ≤ size * nobjs := Nat.le_mul_of_pos_right _ hn
  have hbtg_lt : 20 * (size * nobjs) + ROUND_UP (s.heap_size / 16) < 18446744073709551616 := h20
  have htot : size * nobjs % SIZE_MOD = size * nobjs := by
    apply Nat.mod_eq_of_lt; simp only [SIZE_MOD]; omega
  have hbtg : (20 * (size * nobjs) + ROUND_UP (s.heap_size / 16)) % SIZE_MOD
      = 20 * (size * nobjs) + ROUND_UP (s.heap_size / 16) := Nat.mod_eq_of_lt hbtg_lt
  obtain ⟨s2, he, htr, _, _, _, hcase⟩ :=
    chunk_alloc_grow_state size nobjs s (by omega) (by omega)
  refine ⟨s2, he fuel, htr, ?_⟩
  rcases hcase with ⟨i, hsc, _, hend, _, _⟩ | ⟨_, hst, hend, _, _⟩
  · have hs := scavenge_some _ _ _ _ _ hsc
    rw [hend, ptrdiff_add _ _ (by simp only [MAX_BYTES] at hs; omega)]
    exact hs.1
  · rw [hend, hst, htot, hbtg, ptrdiff_add _ _ hbtg_lt]
    omega

theorem pooled_size_iff (sizeofT n : Nat) :
    pooled_size sizeofT n = true
      ↔ 1 ≤ n * sizeofT % SIZE_MOD ∧ n * sizeofT % SIZE_MOD ≤ MAX_BYTES := by
  simp [pooled_size]

/-- In a state with a well-formed arena the `size_t` difference is the true one. -/
theorem ptrdiff_of_arena_ok (s : State) (h : arena_ok s) :
    ptrdiff s.end_free s.start_free = s.end_free - s.start_free := by
  obtain ⟨h1, h2, _, _⟩ := h
  have e : s.end_free = s.start_free + (s.end_free - s.start_free) := by omega
  rw [e, ptrdiff_add _ _ h2]
  omega

/-- The scan moves in steps of `ALIGN`. -/
theorem scavenge_some_mod (k i : Nat) (fl : Nat → Nat) (j t : Nat)
    (h : scavenge k i fl = some (j, t)) : j % ALIGN = i % ALIGN := by
  induction k generalizing i with
  | zero => simp [scavenge] at h
  | succ k ih =>
    rw [scavenge] at h
    by_cases hi : i < MAX_BYTES
    · by_cases hne : fl (freelist_index i) ≠ 0
      · rw [if_pos hi, if_pos hne] at h
        injection h with h
        injection h with h1 h2
        rw [h1]
      · rw [if_pos hi, if_neg hne] at h
        have := ih _ h
        simp only [MAX_BYTES, ALIGN, SIZE_MOD] at *
        omega
    · rw [if_neg hi] at h
      exact absurd h (by simp)

/-- Carving for a pooled size: what `chunk_alloc` returns when the arena holds
at least one block. -/
theorem chunk_alloc_carve_pooled (fuel n c k : Nat) (s s1 : State)
    (h : chunk_alloc fuel n 50 s = some (c, k, s1))
    (hfit : n ≤ ptrdiff s.end_free s.start_free) (hn : n ≤ MAX_BYTES) :
    c = s.start_free ∧ s1 = { s with start_free := s.start_free + n * k }
      ∧ n * k ≤ ptrdiff s.end_free s.start_free ∧ 1 ≤ k ∧ k ≤ 50 := by
  cases fuel with
  | zero => simp [chunk_alloc] at h
  | succ f =>
    have htot : n * 50 % SIZE_MOD = n * 50 := by
      apply Nat.mod_eq_of_lt
      simp only [MAX_BYTES, SIZE_MOD] at *
      omega
    by_cases h1 : n * 50 % SIZE_MOD ≤ ptrdiff s.end_free s.start_free
    · rw [chunk_alloc_carve_all f n 50 s h1] at h
      injection h with h
      injection h with hc h
      injection h with hk hs
      subst hc hk
      rw [htot] at hs h1
      exact ⟨rfl, hs.symm, h1, by omega, le_refl _⟩
    · have hlt : ptrdiff s.end_free s.start_free < n * 50 % SIZE_MOD := by omega
      rw [chunk_alloc_carve_fit f n 50 s hlt hfit] at h
      injection h with h
      injection h with hc h
      injection h with hk hs
      subst hc hk
      have hle : n * (ptrdiff s.end_free s.start_free / n) ≤ ptrdiff s.end_free s.start_free :=
        Nat.mul_div_le _ _
      have hmod : n * (ptrdiff s.end_free s.start_free / n) % SIZE_MOD
          = n * (ptrdiff s.end_free s.start_free / n) := by
        apply Nat.mod_eq_of_lt
        rw [htot] at hlt
        simp only [MAX_BYTES, SIZE_MOD] at *
        omega
      rw [hmod] at hs
      have hpos : 0 < n := by
        rcases Nat.eq_zero_or_pos n with h0 | h0
        · rw [h0] at hlt; simp at hlt
        · exact h0
      refine ⟨rfl, hs.symm, hle, Nat.div_pos hfit hpos, ?_⟩
      rw [htot] at hlt
      have : ptrdiff s.end_free s.start_free / n < 50 := by
        rw [Nat.div_lt_iff_lt_mul hpos]
        omega
      omega

/-- Carving for a pooled size keeps the arena well formed. -/
theorem arena_ok_carve (n k : Nat) (s : State) (h : arena_ok s) (hn8 : n % ALIGN = 0)
    (hk : n * k ≤ ptrdiff s.end_free s.start_free) :
    arena_ok { s with start_free := s.start_free + n * k } := by
  have hpd := ptrdiff_of_arena_ok s h
  rw [hpd] at hk
  obtain ⟨h1, h2, h3, h4⟩ := h
  have h8 : n * k % ALIGN = 0 := by
    rw [Nat.mul_mod, hn8]; simp
  refine ⟨?_, ?_, ?_, h4⟩
  · show s.start_free + n * k ≤ s.end_free
    omega
  · show s.end_free - (s.start_free + n * k) < SIZE_MOD
    omega
  · show (s.end_free - (s.start_free + n * k)) % ALIGN = 0
    simp only [ALIGN] at *
    omega

/-- Growth step for a pooled size in a state with a well-formed arena: the
state on which `chunk_alloc` calls itself has a well-formed arena holding at
least one block, and the free list of the requested class, if it was empty, is
still empty (the donated remainder goes to a lower class, the scan takes a block
from a higher one). -/
theorem chunk_alloc_grow_pooled (n : Nat) (s : State) (hinv : arena_ok s)
    (hn8 : n % ALIGN = 0) (hn : n ≤ MAX_BYTES)
    (hlt : ptrdiff s.end_free s.start_free < n) :
    ∃ s2 : State,
      (∀ fuel, chunk_alloc (fuel + 1) n 50 s = chunk_alloc fuel n 50 s2)
      ∧ arena_ok s2
      ∧ n ≤ ptrdiff s2.end_free s2.start_free
      ∧ (s.free_list (freelist_index n) = 0 → s2.free_list (freelist_index n) = 0)
      ∧ (0 < ptrdiff s.end_free s.start_free →
          freelist_index (ptrdiff s.end_free s.start_free) < freelist_index n) := by
  have hpd := ptrdiff_of_arena_ok s hinv
  obtain ⟨ho1, ho2, ho3, ho4⟩ := hinv
  have htot : n * 50 % SIZE_MOD = n * 50 := by
    apply Nat.mod_eq_of_lt
    simp only [MAX_BYTES, SIZE_MOD] at *
    omega
  have hru := ROUND_UP_eq (s.heap_size / 16)
  have hbtg_lt : 20 * (n * 50) + ROUND_UP (s.heap_size / 16) < 18446744073709551616 := by
    rw [hru]; simp only [MAX_BYTES, SIZE_MOD] at *; omega
  have hbtg : (20 * (n * 50) + ROUND_UP (s.heap_size / 16)) % SIZE_MOD
      = 20 * (n * 50) + ROUND_UP (s.heap_size / 16) := Nat.mod_eq_of_lt hbtg_lt
  have hbtg8 : (20 * (n * 50) + ROUND_UP (s.heap_size / 16)) % ALIGN = 0 := by
    rw [hru]; simp only [ALIGN] at *; omega
  have hidx : 0 < ptrdiff s.end_free s.start_free →
      freelist_index (ptrdiff s.end_free s.start_free) < freelist_index n := by
    intro hpos
    rw [hpd] at hpos hlt ⊢
    rw [freelist_index_eq, freelist_index_eq]
    simp only [MAX_BYTES, ALIGN] at *
    omega
  have hfl1 : s.free_list (freelist_index n) = 0 →
      (if ptrdiff s.end_free s.start_free > 0 then
        write s.free_list (freelist_index (ptrdiff s.end_free s.start_free)) s.start_free
      else s.free_list) (freelist_index n) = 0 := by
    intro h0
    by_cases hpos : ptrdiff s.end_free s.start_free > 0
    · rw [if_pos hpos, write_other _ _ _ _ (by have := hidx hpos; omega)]
      exact h0
    · rw [if_neg hpos]
      exact h0
  obtain ⟨s2, he, _, _, _, _, hcase⟩ :=
    chunk_alloc_grow_state n 50 s (by rw [htot]; omega) (by omega)
  refine ⟨s2, he, ?_, ?_, ?_, hidx⟩
  · rcases hcase with ⟨i, hsc, _, hend, hh, _⟩ | ⟨_, hst, hend, hh, _⟩
    · have hs := scavenge_some _ _ _ _ _ hsc
      have hm := scavenge_some_mod _ _ _ _ _ hsc
      refine ⟨by omega, ?_, ?_, by rw [hh]; exact ho4⟩
      · rw [hend]; simp only [MAX_BYTES, SIZE_MOD] at *; omega
      · rw [hend]; simp only [ALIGN] at *; omega
    · rw [htot, hbtg] at hend hh
      refine ⟨by omega, ?_, ?_, by rw [hh]; exact Nat.mod_lt _ (by simp [SIZE_MOD])⟩
      · rw [hend, hst]; simp only [SIZE_MOD]; omega
      · rw [hend, hst]; simp only [ALIGN] at *; omega
  · rcases hcase with ⟨i, hsc, _, hend, _, _⟩ | ⟨_, hst, hend, _, _⟩
    · have hs := scavenge_some _ _ _ _ _ hsc
      rw [hend, ptrdiff_add _ _ (by simp only [MAX_BYTES] at hs; omega)]
      exact hs.1
    · rw [hend, hst, htot, hbtg, ptrdiff_add _ _ hbtg_lt]
      omega
  · intro h0
    have h1 := hfl1 h0
    rcases hcase with ⟨i, hsc, _, _, _, hfl⟩ | ⟨_, _, _, _, hfl⟩
    · have hs := scavenge_some _ _ _ _ _ hsc
      have hm := scavenge_some_mod _ _ _ _ _ hsc
      have hin : i ≠ n := by
        intro hi
        rw [hi] at hs
        exact hs.2.2.2 (hs.2.2.1.trans h1)
      have hne : freelist_index n ≠ freelist_index i := by
        rw [freelist_index_eq, freelist_index_eq]
        simp only [MAX_BYTES, ALIGN] at *
        omega
      rw [hfl, write_other _ _ _ _ hne]
      exact h1
    · rw [hfl]
      exact h1

/-- For a pooled size and a well-formed arena, `chunk_alloc` leaves the arena well
formed and the free list of the requested class empty if it was empty. -/
theorem chunk_alloc_pooled_inv (fuel n c k : Nat) (s s1 : State)
    (h : chunk_alloc fuel n 50 s = some (c, k, s1)) (hinv : arena_ok s)
    (hn8 : n % ALIGN = 0) (hn : n ≤ MAX_BYTES) :
    arena_ok s1
      ∧ (s.free_list (freelist_index n) = 0 → s1.free_list (freelist_index n) = 0) := by
  by_cases hfit : n ≤ ptrdiff s.end_free s.start_free
  · obtain ⟨_, hs1, hk, _, _⟩ := chunk_alloc_carve_pooled fuel n c k s s1 h hfit hn
    rw [hs1]
    exact ⟨arena_ok_carve n k s hinv hn8 hk, fun h0 => h0⟩
  · obtain ⟨s2, he, hinv2, hfit2, hfl, _⟩ :=
      chunk_alloc_grow_pooled n s hinv hn8 hn (by omega)
    cases fuel with
    | zero => simp [chunk_alloc] at h
    | succ f =>
      rw [he f] at h
      obtain ⟨_, hs1, hk, _, _⟩ := chunk_alloc_carve_pooled f n c k s2 s1 h hfit2 hn
      rw [hs1]
      exact ⟨arena_ok_carve n k s2 hinv2 hn8 hk, fun h0 => hfl h0⟩

/-- Refill for a pooled size keeps the arena well formed. -/
theorem refill_arena_ok (fuel n p : Nat) (s s1 : State) (h : refill fuel n s = some (p, s1))
    (hinv : arena_ok s) (hn8 : n % ALIGN = 0) (hn : n ≤ MAX_BYTES) : arena_ok s1 := by
  unfold refill at h
  cases hc : chunk_alloc fuel n 50 s with
  | none => rw [hc] at h; simp at h
  | some r =>
    obtain ⟨c, k, s0⟩ := r
    rw [hc] at h
    dsimp only at h
    have hinv0 := (chunk_alloc_pooled_inv fuel n c k s s0 hc hinv hn8 hn).1
    by_cases h1 : k = 1
    · rw [if_pos h1] at h
      injection h with h
      injection h with _ h
      rw [← h]; exact hinv0
    · rw [if_neg h1] at h
      by_cases h0 : k = 0
      · rw [if_pos h0] at h; simp at h
      · rw [if_neg h0] at h
        injection h with h
        injection h with _ h
        rw [← h]; exact hinv0

/-- A pooled `allocate` keeps the arena well formed. -/
theorem allocate_arena_ok (sizeofT fuel n p : Nat) (s s1 : State)
    (h : allocate sizeofT fuel n s = some (p, s1)) (hinv : arena_ok s)
    (hn : pooled_size sizeofT n = true) : arena_ok s1 := by
  rw [pooled_size_iff] at hn
  have hru := ROUND_UP_pooled _ hn.2
  unfold allocate at h
  dsimp only at h
  rw [if_neg (by omega)] at h
  by_cases hhead : s.free_list (freelist_index (n * sizeofT % SIZE_MOD)) = 0
  · rw [if_pos hhead] at h
    exact refill_arena_ok fuel _ p s s1 h hinv hru.2.2.2 hru.2.2.1
  · rw [if_neg hhead] at h
    injection h with h
    injection h with _ h
    rw [← h]; exact hinv

/-- A pooled `deallocate` does not touch the arena. -/
theorem deallocate_arena_ok (sizeofT p n : Nat) (s : State) (hinv : arena_ok s)
    (hn : pooled_size sizeofT n = true) : arena_ok (deallocate sizeofT p n s) := by
  rw [pooled_size_iff] at hn
  unfold deallocate
  dsimp only
  rw [if_neg (by omega)]
  exact hinv

/-- Every run of pooled calls keeps the arena well formed. -/
theorem run_arena_ok (sizeofT fuel : Nat) (ops : List Op) (s s1 : State)
    (hops : ∀ op ∈ ops, pooled_op sizeofT op = true)
    (h : run sizeofT fuel ops s = some s1) (hinv : arena_ok s) : arena_ok s1 := by
  induction ops generalizing s with
  | nil =>
    rw [run] at h
    injection h with h
    rw [← h]; exact hinv
  | cons op ops ih =>
    have hop := hops op (List.mem_cons_self _ _)
    have hrest : ∀ o ∈ ops, pooled_op sizeofT o = true :=
      fun o ho => hops o (List.mem_cons_of_mem _ ho)
    cases op with
    | allocate n =>
      rw [run] at h
      cases ha : allocate sizeofT fuel n s with
      | none => rw [ha] at h; simp at h
      | some r =>
        obtain ⟨p, s0⟩ := r
        rw [ha] at h
        exact ih s0 hrest h (allocate_arena_ok sizeofT fuel n p s s0 ha hinv hop)
    | deallocate p n =>
      rw [run] at h
      exact ih _ hrest h (deallocate_arena_ok sizeofT p n s hinv hop)

theorem arena_ok_init (script : List Nat) : arena_ok (init script) := by
  refine ⟨le_refl _, ?_, ?_, ?_⟩ <;> simp [init, SIZE_MOD]

theorem disjoint_symm {a b : Nat × Nat} (h : disjoint a b) : disjoint b a := by
  unfold disjoint at *
  omega

/-- A range that avoids `(a, l)` avoids every range inside `(a, l)`. -/
theorem disjoint_sub {x : Nat × Nat} {a l a1 l1 : Nat} (h : disjoint x (a, l))
    (h1 : a ≤ a1) (h2 : a1 + l1 ≤ a + l) : disjoint x (a1, l1) := by
  unfold disjoint at *
  dsimp only at *
  omega

/-- Two ranges that lie inside disjoint regions are disjoint. -/
theorem disjoint_of_inside {x y g1 g2 : Nat × Nat} (h : disjoint g1 g2)
    (hx : g1.1 ≤ x.1 ∧ x.1 + x.2 ≤ g1.1 + g1.2)
    (hy : g2.1 ≤ y.1 ∧ y.1 + y.2 ≤ g2.1 + g2.2) : disjoint x y := by
  unfold disjoint at *
  omega

/-- Disjoint ranges that are not empty start at different addresses. -/
theorem ne_of_disjoint {x y : Nat × Nat} (h : disjoint x y) (hx : 0 < x.2) (hy : 0 < y.2) :
    x.1 ≠ y.1 := by
  unfold disjoint at *
  omega

/-- The canonical size of the class of a pooled byte size is its `ROUND_UP`. -/
theorem class_size (r : Nat) (h1 : 1 ≤ r) (h2 : r ≤ MAX_BYTES) :
    (freelist_index r + 1) * ALIGN = ROUND_UP r ∧ freelist_index r < NFREELEISTS
      ∧ 0 < ROUND_UP r := by
  rw [freelist_index_eq, ROUND_UP_eq]
  simp only [MAX_BYTES, ALIGN, NFREELEISTS] at *
  omega

theorem block_range_pos (b : Nat × Nat) : 0 < (block_range b).2 := by
  unfold block_range
  simp [ALIGN]

theorem used_range_pos (sizeofT : Nat) (u : Nat × Nat) (h : pooled_size sizeofT u.2 = true) :
    0 < (used_range sizeofT u).2 := by
  rw [pooled_size_iff] at h
  exact (class_size _ h.1 h.2).2.2

/-- An element of a list is related to every other element when the relation
holds pairwise and is symmetric. -/
theorem pairwise_erase_rel {R : Nat × Nat → Nat × Nat → Prop} (hsymm : ∀ {a b}, R a b → R b a)
    (l : List (Nat × Nat)) (x : Nat × Nat) (hp : l.Pairwise R) (hx : x ∈ l) :
    ∀ u ∈ l.erase x, R x u := by
  induction l with
  | nil => exact absurd hx (List.not_mem_nil _)
  | cons b l ih =>
    rw [List.pairwise_cons] at hp
    by_cases hb : b = x
    · subst hb
      rw [List.erase_cons_head]
      exact hp.1
    · have hne : ¬ (b == x) = true := fun hh => hb (eq_of_beq hh)
      rw [List.erase_cons_tail hne]
      have hxl : x ∈ l := by
        rcases List.mem_cons.mp hx with h | h
        · exact absurd h.symm hb
        · exact h
      intro u hu
      rcases List.mem_cons.mp hu with h | h
      · rw [h]; exact hsymm (hp.1 x hxl)
      · exact ih hp.2 hxl u h

/-! ### Chains -/

theorem is_chain_congr (m m1 : Nat → Nat) (l : List Nat) (h : Nat)
    (hm : ∀ a ∈ l, m1 a = m a) (hc : is_chain m h l) : is_chain m1 h l := by
  induction l generalizing h with
  | nil => exact hc
  | cons a l ih =>
    obtain ⟨h1, h2, h3⟩ := hc
    refine ⟨h1, h2, ?_⟩
    rw [hm a (List.mem_cons_self _ _)]
    exact ih _ (fun b hb => hm b (List.mem_cons_of_mem _ hb)) h3

theorem is_chain_null (m : Nat → Nat) (l : List Nat) (hc : is_chain m 0 l) : l = [] := by
  cases l with
  | nil => rfl
  | cons a l =>
    obtain ⟨h1, h2, _⟩ := hc
    exact absurd h1.symm h2

theorem is_chain_head (m : Nat → Nat) (l : List Nat) (h : Nat) (hc : is_chain m h l)
    (hne : h ≠ 0) : ∃ rest, l = h :: rest ∧ is_chain m (m h) rest := by
  cases l with
  | nil => exact absurd hc hne
  | cons a l =>
    obtain ⟨h1, _, h3⟩ := hc
    subst h1
    exact ⟨l, rfl, h3⟩

/-- The chain built by the linking loop of `refill`. -/
theorem is_chain_links (m : Nat → Nat) (n K a : Nat) (ha : a ≠ 0)
    (hm : ∀ j, j ≤ K → m (a + j * n) = if j < K then a + (j + 1) * n else 0) :
    is_chain m a ((List.range (K + 1)).map (fun j => a + j * n)) := by
  induction K generalizing a with
  | zero =>
    have h0 := hm 0 (le_refl _)
    rw [Nat.zero_mul, Nat.add_zero, if_neg (by omega)] at h0
    have e : (List.range (0 + 1)).map (fun j => a + j * n) = [a] := by simp [List.range_succ]
    rw [e]
    exact ⟨rfl, ha, h0⟩
  | succ K ih =>
    have h0 := hm 0 (by omega)
    rw [Nat.zero_mul, Nat.add_zero, if_pos (by omega), Nat.one_mul] at h0
    rw [← range_map_shift]
    refine ⟨rfl, ha, ?_⟩
    rw [h0]
    apply ih (a + n) (by omega)
    intro j hj
    have e : a + n + j * n = a + (j + 1) * n := by rw [Nat.succ_mul]; omega
    rw [e, hm (j + 1) (by omega)]
    by_cases hjk : j < K
    · rw [if_pos hjk, if_pos (by omega)]
      rw [Nat.succ_mul (j + 1), Nat.succ_mul j]; omega
    · rw [if_neg hjk, if_neg (by omega)]

/-! ### Free blocks by class -/

theorem class_blocks_cons (b : Nat × Nat) (F : List (Nat × Nat)) (i : Nat) :
    class_blocks (b :: F) i = if b.2 = i then b.1 :: class_blocks F i else class_blocks F i := by
  unfold class_blocks
  by_cases h : b.2 = i
  · simp [h]
  · simp [h]

theorem class_blocks_append (F G : List (Nat × Nat)) (i : Nat) :
    class_blocks (F ++ G) i = class_blocks F i ++ class_blocks G i := by
  unfold class_blocks
  rw [List.filter_append, List.map_append]

theorem mem_class_blocks (F : List (Nat × Nat)) (i a : Nat) :
    a ∈ class_blocks F i ↔ (a, i) ∈ F := by
  unfold class_blocks
  simp only [List.mem_map, List.mem_filter, decide_eq_true_eq]
  constructor
  · rintro ⟨b, ⟨hb, hi⟩, ha⟩
    have : b = (a, i) := by
      cases b; simp only at hi ha; rw [hi, ha]
    rw [← this]; exact hb
  · intro h
    exact ⟨(a, i), ⟨h, rfl⟩, rfl⟩

/-- Blocks of one class, listed by a function of an index. -/
theorem class_blocks_map (f : Nat → Nat) (idx i : Nat) (l : List Nat) :
    class_blocks (l.map (fun j => (f j, idx))) i = if idx = i then l.map f else [] := by
  unfold class_blocks
  induction l with
  | nil => simp
  | cons x l ih =>
    by_cases h : idx = i
    · simp only [h, if_true] at ih ⊢
      simp [List.filter_cons, ih]
    · simp only [h, if_false] at ih ⊢
      simp [List.filter_cons, h, ih]

/-- Taking the head block of a class off the list of free blocks. -/
theorem class_blocks_erase (F : List (Nat × Nat)) (idx a : Nat) (rest : List Nat)
    (h : class_blocks F idx = a :: rest) :
    class_blocks (F.erase (a, idx)) idx = rest
      ∧ ∀ i, i ≠ idx → class_blocks (F.erase (a, idx)) i = class_blocks F i := by
  induction F with
  | nil => simp [class_blocks] at h
  | cons b F ih =>
    rw [class_blocks_cons] at h
    by_cases hb : b.2 = idx
    · rw [if_pos hb] at h
      injection h with h1 h2
      have e : b = (a, idx) := by
        cases b; simp only at hb h1; rw [hb, h1]
      rw [e, List.erase_cons_head]
      refine ⟨h2, fun i hi => ?_⟩
      rw [class_blocks_cons, if_neg (by simpa using hi.symm)]
    · rw [if_neg hb] at h
      have hne : ¬ (b == (a, idx)) = true := by
        intro hh
        have := eq_of_beq hh
        rw [this] at hb
        exact hb rfl
      rw [List.erase_cons_tail hne]
      obtain ⟨ih1, ih2⟩ := ih h
      refine ⟨?_, fun i hi => ?_⟩
      · rw [class_blocks_cons, if_neg hb]; exact ih1
      · rw [class_blocks_cons, class_blocks_cons, ih2 i hi]

/-! ### Regions -/

theorem regions_append (a b : List SysEvent) : regions (a ++ b) = regions a ++ regions b := by
  induction a with
  | nil => rfl
  | cons e a ih =>
    cases e <;> simp [regions, ih]

theorem system_ok_of_append (a b : List SysEvent) (h : system_ok (a ++ b)) : system_ok b := by
  unfold system_ok at *
  rw [regions_append] at h
  exact ⟨fun g hg => h.1 g (List.mem_append_right _ hg), (List.pairwise_append.mp h.2).2.1⟩

/-- A block that lies inside a region of a well-behaved system allocator is not
at the null address. -/
theorem ne_zero_of_inside (tr : List SysEvent) (hsys : system_ok tr) (a : Nat)
    (h : ∃ g ∈ regions tr, g.1 ≤ a) : a ≠ 0 := by
  obtain ⟨g, hg, hle⟩ := h
  have := hsys.1 g hg
  omega

/-! ### The invariant of the pool, step by step -/

/-- A pooled `deallocate` of a block in use keeps the invariant: the block moves
from the blocks in use to the head of the free list of its class. -/
theorem deallocate_pool_inv (sizeofT p n : Nat) (s : State) (used F : List (Nat × Nat))
    (hinv : pool_inv sizeofT s used F) (hsys : system_ok s.trace) (hmem : (p, n) ∈ used) :
    pool_inv sizeofT (deallocate sizeofT p n s) (used.erase (p, n))
      ((p, freelist_index (n * sizeofT % SIZE_MOD)) :: F) := by
  have hpool := hinv.pooled (p, n) hmem
  have hpool2 := (pooled_size_iff sizeofT n).mp hpool
  obtain ⟨hcs, hlt, hpos⟩ := class_size _ hpool2.1 hpool2.2
  have hrange : block_range (p, freelist_index (n * sizeofT % SIZE_MOD))
      = used_range sizeofT (p, n) := by
    unfold block_range used_range
    rw [hcs]
  have hp0 : p ≠ 0 := by
    obtain ⟨g, hg, hle, _⟩ := hinv.used_in (p, n) hmem
    exact ne_zero_of_inside s.trace hsys p ⟨g, hg, hle⟩
  have hfresh : ∀ a ∈ F, a.1 ≠ p := by
    intro a ha
    have := ne_of_disjoint (hinv.free_used a ha (p, n) hmem) (block_range_pos a)
      (used_range_pos sizeofT (p, n) hpool)
    exact this
  have hstate : deallocate sizeofT p n s
      = { s with
          mem := write s.mem p (s.free_list (freelist_index (n * sizeofT % SIZE_MOD))),
          free_list := write s.free_list (freelist_index (n * sizeofT % SIZE_MOD)) p } := by
    unfold deallocate
    dsimp only
    rw [if_neg (by omega)]
  rw [hstate]
  clear hstate
  generalize freelist_index (n * sizeofT % SIZE_MOD) = idx at *
  have hmemeq : ∀ i, ∀ a ∈ class_blocks F i,
      write s.mem p (s.free_list idx) a = s.mem a := by
    intro i a ha
    rw [mem_class_blocks] at ha
    exact write_other _ _ _ _ (hfresh (a, i) ha)
  constructor
  · intro i
    show is_chain (write s.mem p _) (write s.free_list _ p i) (class_blocks _ i)
    rw [class_blocks_cons]
    by_cases hi : idx = i
    · rw [if_pos hi]
      subst hi
      refine ⟨write_same _ _ _, hp0, ?_⟩
      rw [write_same]
      exact is_chain_congr _ _ _ _ (hmemeq _) (hinv.chains _)
    · rw [if_neg hi, write_other _ _ _ _ (Ne.symm hi)]
      exact is_chain_congr _ _ _ _ (hmemeq _) (hinv.chains _)
  · intro b hb
    rcases List.mem_cons.mp hb with h | h
    · rw [h]; exact hlt
    · exact hinv.classes b h
  · intro u hu
    exact hinv.pooled u (List.mem_of_mem_erase hu)
  · rw [List.pairwise_cons]
    refine ⟨fun a ha => ?_, hinv.free_disj⟩
    rw [hrange]
    exact disjoint_symm (hinv.free_used a ha (p, n) hmem)
  · exact hinv.used_disj.sublist (List.erase_sublist _ _)
  · intro a ha u hu
    rcases List.mem_cons.mp ha with h | h
    · rw [h, hrange]
      exact pairwise_erase_rel (fun h => disjoint_symm h) used (p, n) hinv.used_disj hmem u hu
    · exact hinv.free_used a h u (List.mem_of_mem_erase hu)
  · intro a ha
    rcases List.mem_cons.mp ha with h | h
    · rw [h, hrange]; exact hinv.used_arena (p, n) hmem
    · exact hinv.free_arena a h
  · intro u hu
    exact hinv.used_arena u (List.mem_of_mem_erase hu)
  · intro a ha
    rcases List.mem_cons.mp ha with h | h
    · rw [h, hrange]; exact hinv.used_in (p, n) hmem
    · exact hinv.free_in a h
  · intro u hu
    exact hinv.used_in u (List.mem_of_mem_erase hu)
  · exact hinv.arena_in
  · exact hinv.arena

/-- A pooled `allocate` served from the free list keeps the invariant: the head
block of the class moves from the free blocks to the blocks in use. -/
theorem allocate_hit_pool_inv (sizeofT n idx : Nat) (s : State) (used F : List (Nat × Nat))
    (hinv : pool_inv sizeofT s used F) (hn : pooled_size sizeofT n = true)
    (hidx : idx = freelist_index (n * sizeofT % SIZE_MOD))
    (hhead : s.free_list idx ≠ 0) :
    pool_inv sizeofT
      { s with free_list := write s.free_list idx (s.mem (s.free_list idx)) }
      ((s.free_list idx, n) :: used) (F.erase (s.free_list idx, idx)) := by
  have hpool2 := (pooled_size_iff sizeofT n).mp hn
  obtain ⟨hcs, hlt, hpos⟩ := class_size _ hpool2.1 hpool2.2
  rw [← hidx] at hcs
  have hrange : used_range sizeofT (s.free_list idx, n) = block_range (s.free_list idx, idx) := by
    unfold block_range used_range
    rw [hcs]
  obtain ⟨rest, hrest, hchain⟩ := is_chain_head _ _ _ (hinv.chains idx) hhead
  have hmemF : (s.free_list idx, idx) ∈ F := by
    rw [← mem_class_blocks, hrest]
    exact List.mem_cons_self _ _
  obtain ⟨he1, he2⟩ := class_blocks_erase F idx (s.free_list idx) rest hrest
  generalize s.free_list idx = a at *
  constructor
  · intro i
    show is_chain s.mem (write s.free_list idx (s.mem a) i) (class_blocks _ i)
    by_cases hi : i = idx
    · subst hi
      rw [write_same, he1]
      exact hchain
    · rw [write_other _ _ _ _ hi, he2 i hi]
      exact hinv.chains i
  · intro b hb
    exact hinv.classes b (List.mem_of_mem_erase hb)
  · intro u hu
    rcases List.mem_cons.mp hu with h | h
    · rw [h]; exact hn
    · exact hinv.pooled u h
  · exact hinv.free_disj.sublist (List.erase_sublist _ _)
  · rw [List.pairwise_cons]
    refine ⟨fun u hu => ?_, hinv.used_disj⟩
    rw [hrange]
    exact hinv.free_used (a, idx) hmemF u hu
  · intro b hb u hu
    rcases List.mem_cons.mp hu with h | h
    · rw [h, hrange]
      exact disjoint_symm
        (pairwise_erase_rel (fun h => disjoint_symm h) F (a, idx) hinv.free_disj hmemF b hb)
    · exact hinv.free_used b (List.mem_of_mem_erase hb) u h
  · intro b hb
    exact hinv.free_arena b (List.mem_of_mem_erase hb)
  · intro u hu
    rcases List.mem_cons.mp hu with h | h
    · rw [h, hrange]; exact hinv.free_arena (a, idx) hmemF
    · exact hinv.used_arena u h
  · intro b hb
    exact hinv.free_in b (List.mem_of_mem_erase hb)
  · intro u hu
    rcases List.mem_cons.mp hu with h | h
    · rw [h, hrange]; exact hinv.free_in (a, idx) hmemF
    · exact hinv.used_in u h
  · exact hinv.arena_in
  · exact hinv.arena

/-- Donating the remainder of the arena keeps the invariant: the remainder
becomes a free block of its own class and the arena is left empty. -/
theorem donate_pool_inv (sizeofT rn : Nat) (s : State) (used F : List (Nat × Nat))
    (hinv : pool_inv sizeofT s used F) (hsys : system_ok s.trace)
    (hpos : 0 < ptrdiff s.end_free s.start_free)
    (hlt : ptrdiff s.end_free s.start_free < rn) (hrn : rn ≤ MAX_BYTES) :
    pool_inv sizeofT
      { s with
        mem := write s.mem s.start_free
          (s.free_list (freelist_index (ptrdiff s.end_free s.start_free))),
        free_list :=
          write s.free_list (freelist_index (ptrdiff s.end_free s.start_free)) s.start_free,
        start_free := s.end_free }
      used ((s.start_free, freelist_index (ptrdiff s.end_free s.start_free)) :: F) := by
  have hpd := ptrdiff_of_arena_ok s hinv.arena
  obtain ⟨ho1, ho2, ho3, ho4⟩ := hinv.arena
  rw [hpd] at hpos hlt
  have hcs : (freelist_index (ptrdiff s.end_free s.start_free) + 1) * ALIGN
      = s.end_free - s.start_free
      ∧ freelist_index (ptrdiff s.end_free s.start_free) < NFREELEISTS := by
    rw [hpd, freelist_index_eq]
    simp only [MAX_BYTES, ALIGN, NFREELEISTS] at *
    omega
  generalize freelist_index (ptrdiff s.end_free s.start_free) = idx at *
  have hrange : block_range (s.start_free, idx) = (s.start_free, s.end_free - s.start_free) := by
    unfold block_range
    rw [hcs.1]
  have hin : ∃ g ∈ regions s.trace, g.1 ≤ s.start_free ∧ s.end_free ≤ g.1 + g.2 := by
    rcases hinv.arena_in with h | h
    · omega
    · exact h
  have hs0 : s.start_free ≠ 0 := by
    obtain ⟨g, hg, hle, _⟩ := hin
    exact ne_zero_of_inside s.trace hsys _ ⟨g, hg, hle⟩
  have hfresh : ∀ a ∈ F, a.1 ≠ s.start_free := by
    intro a ha
    exact ne_of_disjoint (hinv.free_arena a ha) (block_range_pos a) hpos
  have hmemeq : ∀ i, ∀ a ∈ class_blocks F i,
      write s.mem s.start_free (s.free_list idx) a = s.mem a := by
    intro i a ha
    rw [mem_class_blocks] at ha
    exact write_other _ _ _ _ (hfresh (a, i) ha)
  have hempty : ∀ x : Nat × Nat, disjoint x (s.start_free, s.end_free - s.start_free) →
      disjoint x (s.end_free, s.end_free - s.end_free) :=
    fun x hx => disjoint_sub hx ho1 (by omega)
  constructor
  · intro i
    show is_chain (write s.mem s.start_free _) (write s.free_list idx s.start_free i)
      (class_blocks _ i)
    rw [class_blocks_cons]
    by_cases hi : idx = i
    · rw [if_pos hi]
      subst hi
      refine ⟨write_same _ _ _, hs0, ?_⟩
      rw [write_same]
      exact is_chain_congr _ _ _ _ (hmemeq _) (hinv.chains _)
    · rw [if_neg hi, write_other _ _ _ _ (Ne.symm hi)]
      exact is_chain_congr _ _ _ _ (hmemeq _) (hinv.chains _)
  · intro b hb
    rcases List.mem_cons.mp hb with h | h
    · rw [h]; exact hcs.2
    · exact hinv.classes b h
  · exact hinv.pooled
  · rw [List.pairwise_cons]
    refine ⟨fun a ha => ?_, hinv.free_disj⟩
    rw [hrange]
    exact disjoint_symm (hinv.free_arena a ha)
  · exact hinv.used_disj
  · intro a ha u hu
    rcases List.mem_cons.mp ha with h | h
    · rw [h, hrange]
      exact disjoint_symm (hinv.used_arena u hu)
    · exact hinv.free_used a h u hu
  · intro a ha
    show disjoint (block_range a) (s.end_free, s.end_free - s.end_free)
    rcases List.mem_cons.mp ha with h | h
    · rw [h, hrange]
      unfold disjoint
      dsimp only
      omega
    · exact hempty _ (hinv.free_arena a h)
  · intro u hu
    exact hempty _ (hinv.used_arena u hu)
  · intro a ha
    rcases List.mem_cons.mp ha with h | h
    · rw [h, hrange]
      obtain ⟨g, hg, h1, h2⟩ := hin
      exact ⟨g, hg, h1, by dsimp only; omega⟩
    · exact hinv.free_in a h
  · exact hinv.used_in
  · exact Or.inl rfl
  · exact ⟨le_refl _, by show s.end_free - s.end_free < SIZE_MOD; simp [SIZE_MOD],
      by show (s.end_free - s.end_free) % ALIGN = 0; simp, ho4⟩

/-- A new region for an empty arena keeps the invariant, when the region
overlaps none of the regions obtained before. -/
theorem new_region_pool_inv (sizeofT b btg h : Nat) (mt : Int) (sy : List Nat) (s : State)
    (used F : List (Nat × Nat)) (hinv : pool_inv sizeofT s used F)
    (hsys : system_ok (SysEvent.malloc btg b :: s.trace))
    (hbtg : btg < SIZE_MOD) (hbtg8 : btg % ALIGN = 0) (hh : h < SIZE_MOD) :
    pool_inv sizeofT
      { s with
        start_free := b,
        end_free := b + btg,
        heap_size := h,
        malloc_time := mt,
        sys := sy,
        trace := SysEvent.malloc btg b :: s.trace }
      used F := by
  have hreg : ∀ g ∈ regions s.trace, disjoint (b, btg) g := by
    have := hsys.2
    rw [regions, List.pairwise_cons] at this
    exact this.1
  have hnew : ∀ x : Nat × Nat,
      (∃ g ∈ regions s.trace, g.1 ≤ x.1 ∧ x.1 + x.2 ≤ g.1 + g.2) →
      disjoint x (b, b + btg - b) := by
    rintro x ⟨g, hg, hx⟩
    exact disjoint_of_inside (disjoint_symm (hreg g hg)) hx
      ⟨le_refl _, by dsimp only; omega⟩
  have hgrow : ∀ x : Nat × Nat,
      (∃ g ∈ regions s.trace, g.1 ≤ x.1 ∧ x.1 + x.2 ≤ g.1 + g.2) →
      ∃ g ∈ regions (SysEvent.malloc btg b :: s.trace), g.1 ≤ x.1 ∧ x.1 + x.2 ≤ g.1 + g.2 := by
    rintro x ⟨g, hg, hx⟩
    exact ⟨g, by rw [regions]; exact List.mem_cons_of_mem _ hg, hx⟩
  constructor
  · exact hinv.chains
  · exact hinv.classes
  · exact hinv.pooled
  · exact hinv.free_disj
  · exact hinv.used_disj
  · exact hinv.free_used
  · intro a ha
    exact hnew _ (hinv.free_in a ha)
  · intro u hu
    exact hnew _ (hinv.used_in u hu)
  · intro a ha
    exact hgrow _ (hinv.free_in a ha)
  · intro u hu
    exact hgrow _ (hinv.used_in u hu)
  · refine Or.inr ⟨(b, btg), ?_, le_refl _, le_refl _⟩
    rw [regions]
    exact List.mem_cons_self _ _
  · refine ⟨Nat.le_add_right _ _, ?_, ?_, hh⟩
    · show b + btg - b < SIZE_MOD
      omega
    · show (b + btg - b) % ALIGN = 0
      rw [Nat.add_sub_cancel_left]; exact hbtg8

/-- Carving `k` blocks of a pooled class out of the arena keeps the invariant,
once the chains of the new state are known: the first block goes to the
client, the others are the new free blocks of the class. -/
theorem carve_pool_inv (sizeofT cnt rn k : Nat) (s s1 : State) (used F : List (Nat × Nat))
    (hinv : pool_inv sizeofT s used F)
    (hcnt : pooled_size sizeofT cnt = true) (hrn : rn = ROUND_UP (cnt * sizeofT % SIZE_MOD))
    (hk1 : 1 ≤ k) (hk : rn * k ≤ s.end_free - s.start_free)
    (hst : s1.start_free = s.start_free + rn * k) (hen : s1.end_free = s.end_free)
    (htr : s1.trace = s.trace) (hhp : s1.heap_size = s.heap_size)
    (hch : ∀ i, is_chain s1.mem (s1.free_list i)
      (class_blocks ((List.range (k - 1)).map
        (fun j => (s.start_free + rn + j * rn, freelist_index rn)) ++ F) i)) :
    pool_inv sizeofT s1 ((s.start_free, cnt) :: used)
      ((List.range (k - 1)).map
        (fun j => (s.start_free + rn + j * rn, freelist_index rn)) ++ F) := by
  have hp := (pooled_size_iff _ _).mp hcnt
  obtain ⟨hcs1, hcs2, hcs3⟩ := class_size _ hp.1 hp.2
  have hidx : freelist_index rn = freelist_index (cnt * sizeofT % SIZE_MOD) := by
    rw [hrn]; exact freelist_index_ROUND_UP _ hp.1 hp.2
  have hur : used_range sizeofT (s.start_free, cnt) = (s.start_free, rn) := by
    unfold used_range; rw [hrn]
  have hbr : ∀ a, block_range (a, freelist_index rn) = (a, rn) := by
    intro a; unfold block_range; rw [hidx, hrn]
    show (a, (freelist_index (cnt * sizeofT % SIZE_MOD) + 1) * ALIGN) = _
    rw [hcs1]
  have hrn8 : rn % ALIGN = 0 := by
    rw [hrn, ROUND_UP_eq]; simp only [ALIGN]; omega
  rw [← hrn] at hcs3
  rw [← hidx] at hcs2
  clear hcs1 hidx hrn hp
  obtain ⟨ho1, ho2, ho3, ho4⟩ := hinv.arena
  have hP1 : rn ≤ rn * k := Nat.le_mul_of_pos_right rn hk1
  have hP8 : (rn * k) % ALIGN = 0 := by
    rw [Nat.mul_mod, hrn8, Nat.zero_mul]; rfl
  have hnewr : ∀ a ∈ (List.range (k - 1)).map
      (fun j => (s.start_free + rn + j * rn, freelist_index rn)),
      ∃ x, block_range a = (x, rn) ∧ a.2 = freelist_index rn ∧ s.start_free + rn ≤ x
        ∧ x + rn ≤ s.start_free + rn * k := by
    intro a ha
    rw [List.mem_map] at ha
    obtain ⟨j, hj, hja⟩ := ha
    rw [List.mem_range] at hj
    have h := Nat.mul_le_mul_right rn (show j + 2 ≤ k by omega)
    rw [Nat.add_mul, Nat.mul_comm k rn] at h
    refine ⟨s.start_free + rn + j * rn, ?_, ?_, by omega, by omega⟩
    · rw [← hja]; exact hbr _
    · rw [← hja]
  have hnewp : ((List.range (k - 1)).map
      (fun j => (s.start_free + rn + j * rn, freelist_index rn))).Pairwise
      (fun a b => disjoint (block_range a) (block_range b)) := by
    rw [List.pairwise_map]
    refine (List.pairwise_lt_range (k - 1)).imp ?_
    intro i j hij
    rw [hbr, hbr]
    have h := Nat.mul_le_mul_right rn (show i + 1 ≤ j by omega)
    rw [Nat.add_mul] at h
    unfold disjoint; dsimp only; omega
  generalize (List.range (k - 1)).map
      (fun j => (s.start_free + rn + j * rn, freelist_index rn)) = new at hnewr hnewp hch ⊢
  generalize rn * k = P at *
  have hin : ∃ g ∈ regions s.trace, g.1 ≤ s.start_free ∧ s.end_free ≤ g.1 + g.2 := by
    rcases hinv.arena_in with h | h
    · omega
    · exact h
  have hsubF : ∀ x : Nat × Nat, ∀ a l : Nat, s.start_free ≤ a →
      a + l ≤ s.end_free → disjoint x (s.start_free, s.end_free - s.start_free) →
      disjoint x (a, l) :=
    fun x a l h1 h2 hx => disjoint_sub hx h1 (by omega)
  constructor
  · exact hch
  · intro b hb
    rcases List.mem_append.mp hb with h | h
    · obtain ⟨x, _, hx, _⟩ := hnewr b h
      rw [hx]; exact hcs2
    · exact hinv.classes b h
  · intro u hu
    rcases List.mem_cons.mp hu with h | h
    · rw [h]; exact hcnt
    · exact hinv.pooled u h
  · rw [List.pairwise_append]
    refine ⟨hnewp, hinv.free_disj, fun a ha b hb => ?_⟩
    obtain ⟨x, hx, _, hx1, hx2⟩ := hnewr a ha
    rw [hx]
    exact disjoint_symm (hsubF _ _ _ (by omega) (by omega) (hinv.free_arena b hb))
  · rw [List.pairwise_cons]
    refine ⟨fun u hu => ?_, hinv.used_disj⟩
    rw [hur]
    exact disjoint_symm (hsubF _ _ _ (le_refl _) (by omega) (hinv.used_arena u hu))
  · intro a ha u hu
    rcases List.mem_append.mp ha with h | h
    · obtain ⟨x, hx, _, hx1, hx2⟩ := hnewr a h
      rw [hx]
      rcases List.mem_cons.mp hu with h1 | h1
      · rw [h1, hur]
        unfold disjoint; dsimp only; omega
      · exact disjoint_symm (hsubF _ _ _ (by omega) (by omega) (hinv.used_arena u h1))
    · rcases List.mem_cons.mp hu with h1 | h1
      · rw [h1, hur]
        exact hsubF _ _ _ (le_refl _) (by omega) (hinv.free_arena a h)
      · exact hinv.free_used a h u h1
  · intro a ha
    rw [hst, hen]
    rcases List.mem_append.mp ha with h | h
    · obtain ⟨x, hx, _, hx1, hx2⟩ := hnewr a h
      rw [hx]
      unfold disjoint; dsimp only; omega
    · exact hsubF _ _ _ (by omega) (by omega) (hinv.free_arena a h)
  · intro u hu
    rw [hst, hen]
    rcases List.mem_cons.mp hu with h | h
    · rw [h, hur]
      unfold disjoint; dsimp only; omega
    · exact hsubF _ _ _ (by omega) (by omega) (hinv.used_arena u h)
  · intro a ha
    rw [htr]
    rcases List.mem_append.mp ha with h | h
    · obtain ⟨x, hx, _, hx1, hx2⟩ := hnewr a h
      rw [hx]
      obtain ⟨g, hg, h1, h2⟩ := hin
      exact ⟨g, hg, by dsimp only; omega, by dsimp only; omega⟩
    · exact hinv.free_in a h
  · intro u hu
    rw [htr]
    rcases List.mem_cons.mp hu with h | h
    · rw [h, hur]
      obtain ⟨g, hg, h1, h2⟩ := hin
      exact ⟨g, hg, by dsimp only; omega, by dsimp only; omega⟩
    · exact hinv.used_in u h
  · rw [htr, hst, hen]
    obtain ⟨g, hg, h1, h2⟩ := hin
    exact Or.inr ⟨g, hg, by omega, h2⟩
  · unfold arena_ok
    rw [hst, hen, hhp]
    simp only [ALIGN] at *
    refine ⟨by omega, by omega, by omega, ho4⟩

/-- The chains after the linking loop of `refill`: the class of the request,
empty before, holds the carved blocks but the first; the other classes keep
their blocks, which lie outside the arena. -/
theorem refill_chains (rn k : Nat) (s : State) (F : List (Nat × Nat))
    (hch : ∀ i, is_chain s.mem (s.free_list i) (class_blocks F i))
    (hfa : ∀ a ∈ F, disjoint (block_range a) (s.start_free, s.end_free - s.start_free))
    (hhead : s.free_list (freelist_index rn) = 0) (hk2 : 2 ≤ k)
    (hk : rn * k ≤ s.end_free - s.start_free) (hrn : 0 < rn) (i : Nat) :
    is_chain (link_blocks (k - 2) (s.start_free + rn) rn s.mem)
      (write s.free_list (freelist_index rn) (s.start_free + rn) i)
      (class_blocks ((List.range (k - 1)).map
        (fun j => (s.start_free + rn + j * rn, freelist_index rn)) ++ F) i) := by
  generalize freelist_index rn = idx at *
  have e := class_blocks_map (fun j => s.start_free + rn + j * rn) idx i
    (List.range (k - 1))
  rw [class_blocks_append, e]
  clear e
  by_cases hi : idx = i
  · rw [if_pos hi]
    subst hi
    have hnil : class_blocks F idx = [] := by
      have h0 := hch idx
      rw [hhead] at h0
      exact is_chain_null _ _ h0
    rw [write_same, hnil, List.append_nil]
    have hK : k - 1 = (k - 2) + 1 := by omega
    rw [hK]
    apply is_chain_links
    · omega
    · intro j hj
      exact link_blocks_at (k - 2) (s.start_free + rn) rn s.mem hrn j hj
  · rw [if_neg hi, List.nil_append, write_other _ _ _ _ (Ne.symm hi)]
    have hmem : ∀ a ∈ class_blocks F i,
        link_blocks (k - 2) (s.start_free + rn) rn s.mem a = s.mem a := by
      intro a ha
      rw [mem_class_blocks] at ha
      have hd := hfa _ ha
      have hpos := block_range_pos (a, i)
      apply link_blocks_other
      intro j hj
      have h := Nat.mul_le_mul_right rn (show j + 2 ≤ k by omega)
      rw [Nat.add_mul, Nat.mul_comm k rn] at h
      unfold disjoint block_range at hd
      unfold block_range at hpos
      dsimp only at hd hpos
      omega
    exact is_chain_congr _ _ _ _ hmem (hch i)

/-- The state that `refill` leaves after `chunk_alloc` carved `k` blocks of a
pooled class out of the arena satisfies the invariant. -/
theorem refill_state_pool_inv (sizeofT cnt rn k : Nat) (s : State) (used F : List (Nat × Nat))
    (hinv : pool_inv sizeofT s used F)
    (hcnt : pooled_size sizeofT cnt = true) (hrn : rn = ROUND_UP (cnt * sizeofT % SIZE_MOD))
    (hhead : s.free_list (freelist_index rn) = 0)
    (hk1 : 1 ≤ k) (hk : rn * k ≤ s.end_free - s.start_free) :
    pool_inv sizeofT
      (if k = 1 then { s with start_free := s.start_free + rn * k }
       else
        { s with
          start_free := s.start_free + rn * k,
          free_list := write s.free_list (freelist_index rn) (s.start_free + rn),
          mem := link_blocks (k - 2) (s.start_free + rn) rn s.mem })
      ((s.start_free, cnt) :: used)
      ((List.range (k - 1)).map
        (fun j => (s.start_free + rn + j * rn, freelist_index rn)) ++ F) := by
  have hp := (pooled_size_iff _ _).mp hcnt
  have hpos : 0 < rn := by rw [hrn]; exact (class_size _ hp.1 hp.2).2.2
  by_cases h1 : k = 1
  · rw [if_pos h1]
    refine carve_pool_inv sizeofT cnt rn k s _ used F hinv hcnt hrn hk1 hk ?_ ?_ ?_ ?_ ?_
    · rfl
    · rfl
    · rfl
    · rfl
    intro i
    subst h1
    exact hinv.chains i
  · rw [if_neg h1]
    refine carve_pool_inv sizeofT cnt rn k s _ used F hinv hcnt hrn hk1 hk ?_ ?_ ?_ ?_ ?_
    · rfl
    · rfl
    · rfl
    · rfl
    intro i
    exact refill_chains rn k s F hinv.chains hinv.free_arena hhead (by omega) hk hpos i

/-- What a successful `refill` did. -/
theorem refill_some (fuel n p : Nat) (s s1 : State) (h : refill fuel n s = some (p, s1)) :
    ∃ k s0, chunk_alloc fuel n 50 s = some (p, k, s0) ∧ k ≠ 0
      ∧ s1 = if k = 1 then s0
        else
          { s0 with
            free_list := write s0.free_list (freelist_index n) (p + n),
            mem := link_blocks (k - 2) (p + n) n s0.mem } := by
  unfold refill at h
  cases hc : chunk_alloc fuel n 50 s with
  | none => rw [hc] at h; simp at h
  | some r =>
    obtain ⟨c, k, s0⟩ := r
    rw [hc] at h
    dsimp only at h
    by_cases h1 : k = 1
    · rw [if_pos h1] at h
      injection h with h
      injection h with hp hs
      subst hp
      exact ⟨k, s0, rfl, by omega, by rw [if_pos h1, hs]⟩
    · rw [if_neg h1] at h
      by_cases h0 : k = 0
      · rw [if_pos h0] at h; simp at h
      · rw [if_neg h0] at h
        injection h with h
        injection h with hp hs
        subst hp
        exact ⟨k, s0, rfl, h0, by rw [if_neg h1, hs]⟩

/-- The growth step of `chunk_alloc` keeps the invariant when the system
allocator returns a region that overlaps none of the earlier ones: the
remainder of the old arena, if any, becomes a free block, and the new region
becomes the arena. -/
theorem grow_pool_inv (sizeofT rn b btg h : Nat) (mt : Int) (sy : List Nat) (s : State)
    (used F : List (Nat × Nat)) (hinv : pool_inv sizeofT s used F)
    (hsys : system_ok (SysEvent.malloc btg b :: s.trace))
    (hlt : ptrdiff s.end_free s.start_free < rn) (hrn : rn ≤ MAX_BYTES)
    (hbtg : btg < SIZE_MOD) (hbtg8 : btg % ALIGN = 0) (hh : h < SIZE_MOD) :
    ∃ F0, pool_inv sizeofT
      { start_free := b,
        end_free := b + btg,
        heap_size := h,
        free_list :=
          if ptrdiff s.end_free s.start_free > 0 then
            write s.free_list (freelist_index (ptrdiff s.end_free s.start_free)) s.start_free
          else s.free_list,
        mem :=
          if ptrdiff s.end_free s.start_free > 0 then
            write s.mem s.start_free
              (s.free_list (freelist_index (ptrdiff s.end_free s.start_free)))
          else s.mem,
        malloc_time := mt,
        sys := sy,
        trace := SysEvent.malloc btg b :: s.trace }
      used F0 := by
  have hsys0 : system_ok s.trace := system_ok_of_append [SysEvent.malloc btg b] s.trace hsys
  by_cases hbl : ptrdiff s.end_free s.start_free > 0
  · rw [if_pos hbl, if_pos hbl]
    have hd := donate_pool_inv sizeofT rn s used F hinv hsys0 hbl hlt hrn
    exact ⟨_, new_region_pool_inv sizeofT b btg h mt sy _ used _ hd hsys hbtg hbtg8 hh⟩
  · rw [if_neg hbl, if_neg hbl]
    exact ⟨_, new_region_pool_inv sizeofT b btg h mt sy s used F hinv hsys hbtg hbtg8 hh⟩

/-- A `refill` that has to grow the arena keeps the invariant, when the system
allocator succeeded with a region that overlaps none of the earlier ones. -/
theorem grow_refill_pool_inv (sizeofT fuel cnt rn p : Nat) (s s1 : State)
    (used F : List (Nat × Nat)) (hinv : pool_inv sizeofT s used F)
    (hcnt : pooled_size sizeofT cnt = true) (hrn : rn = ROUND_UP (cnt * sizeofT % SIZE_MOD))
    (hhead : s.free_list (freelist_index rn) = 0)
    (hlt : ptrdiff s.end_free s.start_free < rn)
    (h : refill fuel rn s = some (p, s1)) (hsys : system_ok s1.trace) :
    (∃ F1, pool_inv sizeofT s1 ((p, cnt) :: used) F1) ∧ ∃ evs, s1.trace = evs ++ s.trace := by
  obtain ⟨k, s0, hc, hk0, hs1⟩ := refill_some fuel rn p s s1 h
  have hs1tr : s1.trace = s0.trace := by
    rw [hs1]
    by_cases h1 : k = 1
    · rw [if_pos h1]
    · rw [if_neg h1]
  have hp := (pooled_size_iff _ _).mp hcnt
  obtain ⟨_, _, hrnle, hrn8⟩ := ROUND_UP_pooled _ hp.2
  rw [← hrn] at hrnle hrn8
  have hheap := hinv.arena.2.2.2
  have hru := ROUND_UP_eq (s.heap_size / 16)
  have h20 : 20 * (rn * 50) + ROUND_UP (s.heap_size / 16) < SIZE_MOD := by
    rw [hru]; simp only [MAX_BYTES, SIZE_MOD] at *; omega
  have hbtg8 : (20 * (rn * 50) + ROUND_UP (s.heap_size / 16)) % ALIGN = 0 := by
    rw [hru]; simp only [ALIGN] at *; omega
  have htot : rn * 50 % SIZE_MOD = rn * 50 := by
    apply Nat.mod_eq_of_lt
    simp only [MAX_BYTES, SIZE_MOD] at *
    omega
  have hbtg : (20 * (rn * 50) + ROUND_UP (s.heap_size / 16)) % SIZE_MOD
      = 20 * (rn * 50) + ROUND_UP (s.heap_size / 16) := Nat.mod_eq_of_lt h20
  obtain ⟨_, _, _, _, _, hidx⟩ := chunk_alloc_grow_pooled rn s hinv.arena hrn8 hrnle hlt
  generalize hB : 20 * (rn * 50) + ROUND_UP (s.heap_size / 16) = btg at *
  clear hru
  cases fuel with
  | zero => simp [chunk_alloc] at hc
  | succ f =>
    obtain ⟨s2, he, htr2, hfit2⟩ := chunk_alloc_grow_step_fit f rn 50 s hlt (by omega)
      (by rw [hB]; exact h20)
    have hc2 := hc
    rw [he] at hc2
    obtain ⟨_, hs0, _, _, _⟩ := chunk_alloc_carve_pooled f rn p k s2 s0 hc2 hfit2 hrnle
    have htr0 : s0.trace = SysEvent.malloc btg (s.sys.headD 0) :: s.trace := by
      rw [hs0]
      show s2.trace = _
      rw [htr2, htot, hB, hbtg]
    rw [hs1tr, htr0] at hsys
    have hr : s.sys.headD 0 ≠ 0 := by
      have := hsys.1 (s.sys.headD 0, btg) (by rw [regions]; exact List.mem_cons_self _ _)
      exact this
    have hfull := chunk_alloc_grow_success_fit f rn 50 s hlt (by omega)
      (by rw [hB]; exact h20) hr
    rw [chunk_alloc_bound_le (f + 1) 1 rn 50 s _ hc, hB] at hfull
    injection hfull with hfull
    injection hfull with hp1 hfull
    injection hfull with hk1 hs0e
    refine ⟨?_, [SysEvent.malloc btg (s.sys.headD 0)], by rw [hs1tr, htr0]; rfl⟩
    obtain ⟨F0, hG⟩ := grow_pool_inv sizeofT rn (s.sys.headD 0) btg
      ((s.heap_size + btg) % SIZE_MOD) (s.malloc_time + 1) s.sys.tail s used F hinv hsys hlt
      hrnle h20 hbtg8 (Nat.mod_lt _ (by simp [SIZE_MOD]))
    have hres := refill_state_pool_inv sizeofT cnt rn 50 _ used F0 hG hcnt hrn
      (by
        show (if ptrdiff s.end_free s.start_free > 0 then
            write s.free_list (freelist_index (ptrdiff s.end_free s.start_free)) s.start_free
          else s.free_list) (freelist_index rn) = 0
        by_cases hbl : ptrdiff s.end_free s.start_free > 0
        · rw [if_pos hbl, write_other _ _ _ _ (by have := hidx hbl; omega)]
          exact hhead
        · rw [if_neg hbl]; exact hhead)
      (by omega)
      (by
        show rn * 50 ≤ s.sys.headD 0 + btg - s.sys.headD 0
        omega)
    rw [if_neg (by decide)] at hres
    rw [hs1, hk1, if_neg (by decide), hs0e, hp1]
    exact ⟨_, hres⟩

/-- The record of the system calls only grows in `chunk_alloc`. -/
theorem chunk_alloc_trace (fuel size nobjs c k : Nat) (s s1 : State)
    (h : chunk_alloc fuel size nobjs s = some (c, k, s1)) :
    ∃ evs, s1.trace = evs ++ s.trace := by
  induction fuel generalizing s with
  | zero => simp [chunk_alloc] at h
  | succ fuel ih =>
    by_cases h1 : size * nobjs % SIZE_MOD ≤ ptrdiff s.end_free s.start_free
    · rw [chunk_alloc_carve_all fuel size nobjs s h1] at h
      injection h with h; injection h with _ h; injection h with _ h
      rw [← h]; exact ⟨[], rfl⟩
    · by_cases h2 : size ≤ ptrdiff s.end_free s.start_free
      · rw [chunk_alloc_carve_fit fuel size nobjs s (by omega) h2] at h
        injection h with h; injection h with _ h; injection h with _ h
        rw [← h]; exact ⟨[], rfl⟩
      · obtain ⟨s2, he, htr, _⟩ := chunk_alloc_grow_state size nobjs s h1 h2
        rw [he] at h
        obtain ⟨evs, hevs⟩ := ih s2 h
        rw [htr] at hevs
        exact ⟨evs ++ [SysEvent.malloc
          ((20 * (size * nobjs % SIZE_MOD) + ROUND_UP (s.heap_size / 16)) % SIZE_MOD)
          (s.sys.headD 0)], by rw [hevs, List.append_assoc]; rfl⟩

/-- The record of the system calls only grows in `allocate`. -/
theorem allocate_trace (sizeofT fuel n p : Nat) (s s1 : State)
    (h : allocate sizeofT fuel n s = some (p, s1)) : ∃ evs, s1.trace = evs ++ s.trace := by
  unfold allocate at h
  dsimp only at h
  by_cases hbig : n * sizeofT % SIZE_MOD > MAX_BYTES
  · rw [if_pos hbig] at h
    injection h with h; injection h with _ h
    rw [← h]
    exact ⟨[SysEvent.malloc (n * sizeofT % SIZE_MOD) (s.sys.headD 0)], rfl⟩
  · rw [if_neg hbig] at h
    by_cases hhead : s.free_list (freelist_index (n * sizeofT % SIZE_MOD)) = 0
    · rw [if_pos hhead] at h
      obtain ⟨k, s0, hc, _, hs1⟩ := refill_some _ _ _ _ _ h
      obtain ⟨evs, hevs⟩ := chunk_alloc_trace _ _ _ _ _ _ _ hc
      refine ⟨evs, ?_⟩
      rw [hs1, ← hevs]
      by_cases hk : k = 1
      · rw [if_pos hk]
      · rw [if_neg hk]
    · rw [if_neg hhead] at h
      injection h with h; injection h with _ h
      rw [← h]; exact ⟨[], rfl⟩

/-- The record of the system calls only grows along a run of the client. -/
theorem run_client_trace (sizeofT fuel : Nat) (ops : List Op) (s sf : State)
    (used usedf : List (Nat × Nat))
    (h : run_client sizeofT fuel ops (s, used) = some (sf, usedf)) :
    ∃ evs, sf.trace = evs ++ s.trace := by
  induction ops generalizing s used with
  | nil =>
    rw [run_client] at h
    injection h with h; injection h with h _
    rw [← h]; exact ⟨[], rfl⟩
  | cons op ops ih =>
    cases op with
    | allocate n =>
      rw [run_client] at h
      cases ha : allocate sizeofT fuel n s with
      | none => rw [ha] at h; simp at h
      | some r =>
        obtain ⟨p, s1⟩ := r
        rw [ha] at h
        dsimp only at h
        obtain ⟨e1, h1⟩ := allocate_trace _ _ _ _ _ _ ha
        obtain ⟨e2, h2⟩ := ih s1 _ h
        exact ⟨e2 ++ e1, by rw [h2, h1, List.append_assoc]⟩
    | deallocate p n =>
      rw [run_client] at h
      by_cases hm : (p, n) ∈ used
      · rw [if_pos hm] at h
        obtain ⟨_, _, e1, h1, _⟩ := deallocate_counts sizeofT p n s
        obtain ⟨e2, h2⟩ := ih _ _ h
        exact ⟨e2 ++ e1, by rw [h2, h1, List.append_assoc]⟩
      · rw [if_neg hm] at h; simp at h

/-- A pooled `allocate` keeps the invariant, when the system allocator succeeded
with a region that overlaps none of the earlier ones. -/
theorem allocate_pool_inv (sizeofT fuel n p : Nat) (s s1 : State) (used F : List (Nat × Nat))
    (hinv : pool_inv sizeofT s used F) (hn : pooled_size sizeofT n = true)
    (h : allocate sizeofT fuel n s = some (p, s1)) (hsys : system_ok s1.trace) :
    ∃ F1, pool_inv sizeofT s1 ((p, n) :: used) F1 := by
  have hp := (pooled_size_iff _ _).mp hn
  obtain ⟨_, _, hrnle, hrn8⟩ := ROUND_UP_pooled _ hp.2
  have hidx := freelist_index_ROUND_UP _ hp.1 hp.2
  have hpd := ptrdiff_of_arena_ok s hinv.arena
  unfold allocate at h
  dsimp only at h
  rw [if_neg (by omega)] at h
  by_cases hhead : s.free_list (freelist_index (n * sizeofT % SIZE_MOD)) = 0
  · rw [if_pos hhead] at h
    rw [← hidx] at hhead
    by_cases hfit : ROUND_UP (n * sizeofT % SIZE_MOD) ≤ ptrdiff s.end_free s.start_free
    · obtain ⟨k, s0, hc, _, hs1⟩ := refill_some _ _ _ _ _ h
      obtain ⟨hpe, hs0, hk, hk1, _⟩ := chunk_alloc_carve_pooled _ _ _ _ _ _ hc hfit hrnle
      rw [hpd] at hk
      have hres := refill_state_pool_inv sizeofT n _ k s used F hinv hn rfl hhead hk1 hk
      rw [hs1, hs0, hpe]
      by_cases h1 : k = 1
      · rw [if_pos h1] at hres ⊢
        exact ⟨_, hres⟩
      · rw [if_neg h1] at hres ⊢
        exact ⟨_, hres⟩
    · exact (grow_refill_pool_inv sizeofT fuel n _ p s s1 used F hinv hn rfl hhead
        (by omega) h hsys).1
  · rw [if_neg hhead] at h
    injection h with h; injection h with hp1 hs1
    rw [← hs1, ← hp1]
    exact ⟨_, allocate_hit_pool_inv sizeofT n _ s used F hinv hn rfl hhead⟩

/-- The initial state satisfies the invariant, with no block in use and none
free. -/
theorem pool_inv_init (sizeofT : Nat) (script : List Nat) :
    pool_inv sizeofT (init script) [] [] := by
  constructor
  · intro i; exact rfl
  · intro b hb; exact absurd hb (List.not_mem_nil _)
  · intro b hb; exact absurd hb (List.not_mem_nil _)
  · exact List.Pairwise.nil
  · exact List.Pairwise.nil
  · intro b hb; exact absurd hb (List.not_mem_nil _)
  · intro b hb; exact absurd hb (List.not_mem_nil _)
  · intro b hb; exact absurd hb (List.not_mem_nil _)
  · intro b hb; exact absurd hb (List.not_mem_nil _)
  · intro b hb; exact absurd hb (List.not_mem_nil _)
  · exact Or.inl rfl
  · exact arena_ok_init script

/-- The invariant holds after every run of a client that asks for pooled sizes
and returns only blocks in use, when the system allocator always succeeded with
a region that overlaps none of the earlier ones. -/
theorem run_client_pool_inv (sizeofT fuel : Nat) (ops : List Op) (s sf : State)
    (used usedf F : List (Nat × Nat)) (hinv : pool_inv sizeofT s used F)
    (hops : ∀ op ∈ ops, pooled_op sizeofT op = true)
    (h : run_client sizeofT fuel ops (s, used) = some (sf, usedf))
    (hsys : system_ok sf.trace) : ∃ Ff, pool_inv sizeofT sf usedf Ff := by
  induction ops generalizing s used F with
  | nil =>
    rw [run_client] at h
    injection h with h; injection h with h1 h2
    rw [← h1, ← h2]; exact ⟨F, hinv⟩
  | cons op ops ih =>
    have hop := hops op (List.mem_cons_self _ _)
    have hrest : ∀ o ∈ ops, pooled_op sizeofT o = true :=
      fun o ho => hops o (List.mem_cons_of_mem _ ho)
    cases op with
    | allocate n =>
      rw [run_client] at h
      cases ha : allocate sizeofT fuel n s with
      | none => rw [ha] at h; simp at h
      | some r =>
        obtain ⟨p, s1⟩ := r
        rw [ha] at h
        dsimp only at h
        obtain ⟨e2, h2⟩ := run_client_trace _ _ _ _ _ _ _ h
        have hsys1 : system_ok s1.trace := system_ok_of_append e2 _ (h2 ▸ hsys)
        obtain ⟨F1, h1⟩ := allocate_pool_inv sizeofT fuel n p s s1 used F hinv hop ha hsys1
        exact ih s1 _ F1 h1 hrest h
    | deallocate p n =>
      rw [run_client] at h
      by_cases hm : (p, n) ∈ used
      · rw [if_pos hm] at h
        obtain ⟨e2, h2⟩ := run_client_trace _ _ _ _ _ _ _ h
        obtain ⟨_, _, e1, h1, _⟩ := deallocate_counts sizeofT p n s
        have hsys1 : system_ok s.trace := by
          rw [h2, h1, ← List.append_assoc] at hsys
          exact system_ok_of_append _ _ hsys
        exact ih _ _ _ (deallocate_pool_inv sizeofT p n s used F hinv hsys1 hm) hrest h
      · rw [if_neg hm] at h; simp at h

/-- One `allocate` moves the counter by at most one. -/
theorem allocate_counter_step (sizeofT fuel n q : Nat) (s s1 : State)
    (hheap : s.heap_size < SIZE_MOD) (h : allocate sizeofT (fuel + 2) n s = some (q, s1)) :
    s1.malloc_time ≤ s.malloc_time + 1 := by
  obtain ⟨q1, s2, h1, _, _, h3, h4, h5, h6⟩ := allocate_counts sizeofT fuel n s hheap
  rw [h1] at h
  injection h with h
  injection h with _ hs
  subst hs
  by_cases hb : n * sizeofT % SIZE_MOD > MAX_BYTES
  · rw [(h3 hb).1]
  · have hle : n * sizeofT % SIZE_MOD ≤ MAX_BYTES := by omega
    by_cases hh : s.free_list (freelist_index (n * sizeofT % SIZE_MOD)) = 0
    · by_cases hf : ROUND_UP (n * sizeofT % SIZE_MOD) ≤ ptrdiff s.end_free s.start_free
      · rw [h5 hle hh hf]; omega
      · rw [h6 hle hh (by omega)]
    · rw [h4 hle hh]; omega

/-! ## Claims -/

/-- C1: for every byte count `n` with `1 <= n <= 4096`, `freelist_index n` selects
a class `i` whose canonical size `(i + 1) * 8` satisfies `n <= (i + 1) * 8 < n + 8`,
and `freelist_index (n + 8) = freelist_index n + 1`. -/
theorem freelist_index_selects_class (n : Nat) (h1 : 1 ≤ n) (h2 : n ≤ MAX_BYTES) :
    n ≤ (freelist_index n + 1) * ALIGN ∧ (freelist_index n + 1) * ALIGN < n + ALIGN
      ∧ freelist_index (n + ALIGN) = freelist_index n + 1 := by
  simp only [MAX_BYTES, ALIGN] at *
  rw [freelist_index_eq, freelist_index_eq]
  omega

theorem freelist_index_selects_class_witness :
    (1 ≤ 13 ∧ 13 ≤ MAX_BYTES) ∧ 13 ≤ (freelist_index 13 + 1) * ALIGN
      ∧ (freelist_index 13 + 1) * ALIGN < 13 + ALIGN
      ∧ freelist_index (13 + ALIGN) = freelist_index 13 + 1 :=
  ⟨by decide, freelist_index_selects_class 13 (by decide) (by decide)⟩

/-- C2: in every state and for every count `n` whose byte size `required` lies in
`[1, 4096]`: if `allocate(n)` returns a block `p` (a pointer that is not null),
then after `deallocate(p, n)` the next `allocate(n)` returns `p` again, whatever
recursion bound it is given, and that second call issues no request to the
system allocator: the counter, the record of system calls and the script are
those left by the first call, and so are the free lists and the arena. -/
theorem allocate_deallocate_allocate (sizeofT fuel fuel2 n p : Nat) (s s1 : State)
    (hlo : 1 ≤ n * sizeofT % SIZE_MOD) (hhi : n * sizeofT % SIZE_MOD ≤ MAX_BYTES)
    (halloc : allocate sizeofT fuel n s = some (p, s1)) (hp : p ≠ 0) :
    ∃ s3, allocate sizeofT fuel2 n (deallocate sizeofT p n s1) = some (p, s3)
      ∧ s3.malloc_time = s1.malloc_time ∧ s3.trace = s1.trace ∧ s3.sys = s1.sys
      ∧ s3.free_list = s1.free_list ∧ s3.start_free = s1.start_free
      ∧ s3.end_free = s1.end_free ∧ s3.heap_size = s1.heap_size := by
  have hnot : ¬ n * sizeofT % SIZE_MOD > MAX_BYTES := by omega
  simp only [allocate, deallocate, hnot, if_false, write_same, hp]
  refine ⟨_, rfl, rfl, rfl, rfl, ?_, rfl, rfl, rfl⟩
  exact write_write_restore _ _ _

theorem allocate_deallocate_allocate_witness :
    ∃ p s1, allocate 4 2 1 (init [65536]) = some (p, s1) ∧ p ≠ 0 ∧
      ∃ s3, allocate 4 0 1 (deallocate 4 p 1 s1) = some (p, s3)
      ∧ s3.malloc_time = s1.malloc_time ∧ s3.trace = s1.trace ∧ s3.sys = s1.sys
      ∧ s3.free_list = s1.free_list ∧ s3.start_free = s1.start_free
      ∧ s3.end_free = s1.end_free ∧ s3.heap_size = s1.heap_size :=
  ⟨65536, _, rfl, by decide,
    allocate_deallocate_allocate 4 2 0 1 65536 (init [65536]) _ (by decide) (by decide) rfl
      (by decide)⟩

/-- C3, evaluated on the code: for a 4-byte element type a block of 2000 elements
has 8000 bytes, above the 4096-byte threshold, and `allocate` serves it by a
direct `malloc`.  `reallocate` of that block to 3000 elements does not call the
resize primitive: it compares the count 2000 with 4096, frees the block and
asks `malloc` for a new one, so the record holds a `free` and a second `malloc`
and no `realloc`. -/
theorem reallocate_large_bytes_takes_pooled_branch :
    2000 * 4 % SIZE_MOD > MAX_BYTES ∧
    (allocate 4 2 2000 (init [65536, 131072])).map (fun r => (r.1, r.2.trace, r.2.malloc_time))
      = some (65536, [SysEvent.malloc 8000 65536], 1) ∧
    ((allocate 4 2 2000 (init [65536, 131072])).bind
        (fun r => reallocate 4 2 r.1 2000 3000 r.2)).map
        (fun r => (r.1, r.2.trace, r.2.malloc_time))
      = some (131072,
          [SysEvent.malloc 12000 131072, SysEvent.free 65536, SysEvent.malloc 8000 65536], 2) := by
  decide

set_option maxHeartbeats 4000000 in
/-- C4, the claim as stated fails, in two ways.  First, `allocate` has no error to
fail with: for 2000 elements of 4 bytes (8000 bytes) and a system allocator that
fails, the call returns to its caller, with the null pointer as its value.
Second, the byte size is computed in `size_t`: for `n = 2 ^ 62 + 1` elements of
4 bytes the product `n * sizeof(T)` is far above 4096 but wraps to 4, so after
one `allocate(1)`, with a system allocator that fails from then on,
`allocate(n)` takes the pooled path and returns the block 65544 from the free
list of class 0 (whose head moves on to 65552), without any request to the
system. -/
theorem allocate_large_claim_fails :
    2000 * 4 > MAX_BYTES ∧ (init []).sys.headD 0 = 0 ∧
    (allocate 4 0 2000 (init [])).map Prod.fst = some 0 ∧
    4611686018427387905 * 4 > MAX_BYTES ∧
    4611686018427387905 * 4 % SIZE_MOD = 4 ∧
    (allocate 4 2 1 (init [65536])).map
        (fun r => (r.1, r.2.sys.headD 0, r.2.free_list 0, r.2.trace))
      = some (65536, 0, 65544, [SysEvent.malloc 8000 65536]) ∧
    ((allocate 4 2 1 (init [65536])).bind
        (fun r => allocate 4 2 4611686018427387905 r.2)).map
        (fun r => (r.1, r.2.free_list 0, r.2.trace))
      = some (65544, 65552, [SysEvent.malloc 8000 65536]) := by
  decide

/-- C4, amended: for every count `n` whose byte size `required`, the value of
`n * sizeof(T)` in `size_t` as the source computes it, is above 4096, in a state
whose counter is below `INT_MAX`, when the system allocator fails (the next
scripted answer is null) `allocate(n)` returns the null pointer to its caller
(the source has no error to raise), and no recovery is attempted: the state
changes only by the one recorded `malloc` call and the counter (which stays
within `int`), the arena and every free list are untouched. -/
theorem allocate_large_failure (sizeofT fuel n : Nat) (s : State)
    (hbig : n * sizeofT % SIZE_MOD > MAX_BYTES) (hfail : s.sys.headD 0 = 0)
    (hcnt : s.malloc_time < INT_MAX) :
    allocate sizeofT fuel n s
      = some (0, { s with
          sys := s.sys.tail,
          trace := SysEvent.malloc (n * sizeofT % SIZE_MOD) 0 :: s.trace,
          malloc_time := s.malloc_time + 1 })
      ∧ s.malloc_time + 1 ≤ INT_MAX := by
  refine ⟨?_, by omega⟩
  unfold allocate
  simp only [hbig, if_true, sys_malloc, hfail]

theorem allocate_large_failure_witness :
    (1 * 5000 % SIZE_MOD > MAX_BYTES ∧ (init []).sys.headD 0 = 0
      ∧ (init []).malloc_time < INT_MAX) ∧
    (allocate 5000 0 1 (init [])
      = some (0, { init [] with
          sys := (init []).sys.tail,
          trace := SysEvent.malloc (1 * 5000 % SIZE_MOD) 0 :: (init []).trace,
          malloc_time := (init []).malloc_time + 1 })
      ∧ (init []).malloc_time + 1 ≤ INT_MAX) :=
  ⟨by decide, allocate_large_failure 5000 0 1 (init []) (by decide) (by decide) (by decide)⟩

set_option maxRecDepth 100000 in
/-- C6, evaluated on the code: from the initial state, with a system allocator that
fails and every free list empty, `allocate(1)` for a 4-byte element type finds
nothing to scavenge and `chunk_alloc` yields the null pointer with `nobjs = 50`;
`allocate` returns null, yet `refill` has installed the chain `8 -> 16 -> ...`
in the free list of the class, the arena is `[400, 8000)` and `heap_size` is
`8000`.  The following `allocate(1)` hands out the address `8`. -/
theorem allocate_total_failure_corrupts_state :
    (init []).sys.headD 0 = 0 ∧
    scavenge (NFREELEISTS + 1) (ROUND_UP (1 * 4 % SIZE_MOD)) (init []).free_list = none ∧
    (chunk_alloc 2 (ROUND_UP (1 * 4 % SIZE_MOD)) 50 (init [])).map (fun r => (r.1, r.2.1))
      = some (0, 50) ∧
    (allocate 4 2 1 (init [])).map
        (fun r => (r.1, r.2.free_list (freelist_index 4), r.2.mem 8, r.2.start_free,
          r.2.end_free, r.2.heap_size))
      = some (0, 8, 16, 400, 8000, 8000) ∧
    ((allocate 4 2 1 (init [])).bind (fun r => allocate 4 2 1 r.2)).map Prod.fst = some 8 := by
  decide

/-- C7: in every state, for every pointer `p` and counts with
`oldCount * sizeof(T) <= 4096`, `reallocate(p, oldCount, newCount)` gives the same
pointer and the same state as `deallocate(p, oldCount)` followed by
`allocate(newCount)`; the `deallocate` step only pushes `p` on its free list (it
writes the link word of `p` and the list head), so nothing is copied. -/
theorem reallocate_pooled_eq (sizeofT fuel p oldCount newCount : Nat) (s : State)
    (hT : 1 ≤ sizeofT) (hold : oldCount * sizeofT ≤ MAX_BYTES) :
    reallocate sizeofT fuel p oldCount newCount s
        = allocate sizeofT fuel newCount (deallocate sizeofT p oldCount s)
      ∧ deallocate sizeofT p oldCount s
        = { s with
            mem := write s.mem p (s.free_list (freelist_index (oldCount * sizeofT))),
            free_list := write s.free_list (freelist_index (oldCount * sizeofT)) p } := by
  have h1 : oldCount ≤ oldCount * sizeofT := Nat.le_mul_of_pos_right _ hT
  have h2 : ¬ oldCount > MAX_BYTES := by omega
  have h3 : oldCount * sizeofT % SIZE_MOD = oldCount * sizeofT := by
    apply Nat.mod_eq_of_lt
    simp only [MAX_BYTES, SIZE_MOD] at *
    omega
  have h4 : ¬ oldCount * sizeofT > MAX_BYTES := by omega
  constructor
  · simp [reallocate, h2]
  · simp [deallocate, h3, h4]

theorem reallocate_pooled_eq_witness :
    (1 ≤ 4 ∧ 3 * 4 ≤ MAX_BYTES) ∧
    (reallocate 4 2 65536 3 5 (init [131072])
        = allocate 4 2 5 (deallocate 4 65536 3 (init [131072]))
      ∧ deallocate 4 65536 3 (init [131072])
        = { init [131072] with
            mem := write (init [131072]).mem 65536
              ((init [131072]).free_list (freelist_index (3 * 4))),
            free_list := write (init [131072]).free_list (freelist_index (3 * 4)) 65536 }) :=
  ⟨by decide, reallocate_pooled_eq 4 2 65536 3 5 (init [131072]) (by decide) (by decide)⟩

/-- C10, evaluated on the code: for an element size of 1 byte `max_size()` is
`UINT_MAX = 4294967295`; the next count still fits in `size_t`, so `max_size()`
is not the largest count without overflow and differs from `SIZE_MAX / 1`. -/
theorem max_size_not_largest :
    max_size 1 = 4294967295 ∧ (max_size 1 + 1) * 1 ≤ SIZE_MAX ∧ max_size 1 ≠ SIZE_MAX / 1 := by
  decide

set_option maxRecDepth 100000 in
/-- C5, evaluated on the code.  First the bare situation: the arena is empty, the
system allocator fails and the only free block is one of 4096 bytes; a request
for 8 bytes scans the classes of 8 to 4088 bytes, never the last one, and
`allocate` returns the null pointer with the 4096-byte block still on its list.
Then the same through calls only: `Allocator<char>` obtains one arena, takes a block
of 4096 bytes (which leaves 49 blocks on the list of the last class) and then
one block of each of 20 smaller classes, after which 1112 bytes remain in the
arena and the system allocator has nothing more to give.  The request for 4088
bytes that follows needs growth and `malloc` fails; the class of 4096-byte
blocks still holds a block but the scan stops before it, so `allocate` returns
the null pointer and that list is left as it was. -/
theorem scavenge_skips_last_class :
    scavenge (NFREELEISTS + 1) 8 (write (init []).free_list (freelist_index 4096) 65536) = none ∧
    (allocate 1 2 8
        { init [] with free_list := write (init []).free_list (freelist_index 4096) 65536 }).map
        (fun r => (r.1, r.2.free_list (freelist_index 4096)))
      = some (0, 65536) ∧
    (allocate_seq 1 2 (4096 :: (List.range 20).map (fun j => 4080 - 8 * j))
        (init [1048576])).map
        (fun r => (r.2.free_list (freelist_index 4096), r.2.free_list (freelist_index 4088),
          ptrdiff r.2.end_free r.2.start_free, r.2.sys))
      = some (1052672, 0, 1112, []) ∧
    ((allocate_seq 1 2 (4096 :: (List.range 20).map (fun j => 4080 - 8 * j))
        (init [1048576])).bind (fun r => allocate 1 2 4088 r.2)).map
        (fun r => (r.1, r.2.free_list (freelist_index 4096)))
      = some (0, 1052672) := by
  decide

set_option maxHeartbeats 4000000 in
/-- C9, the claim as stated fails: the byte size is computed in `size_t`.  For
`n = 2 ^ 61 + 1` elements of 8 bytes the product `n * sizeof(T)` is far above
the 4096-byte threshold but wraps to 8, so after one `allocate(1)` (counter 1,
one recorded `malloc`, class 0 headed by 65544) the call `allocate(n)` is
served from the free list of class 0: it returns 65544, the head moves on to
65552, nothing is asked of the system and the counter stays 1, where the claim
says `+1` with every free list unchanged. -/
theorem allocate_above_threshold_counts_nothing :
    2305843009213693953 * 8 > MAX_BYTES ∧
    2305843009213693953 * 8 % SIZE_MOD = 8 ∧
    (allocate 8 2 1 (init [65536])).map
        (fun r => (r.2.malloc_time, r.2.free_list 0, r.2.trace))
      = some (1, 65544, [SysEvent.malloc 8000 65536]) ∧
    ((allocate 8 2 1 (init [65536])).bind
        (fun r => allocate 8 2 2305843009213693953 r.2)).map
        (fun r => (r.1, r.2.malloc_time, r.2.free_list 0, r.2.trace))
      = some (65544, 1, 65552, [SysEvent.malloc 8000 65536]) := by
  decide

/-- C9, amended: with the byte size `n * sizeof(T)` computed in `size_t`, as the
source does, for every operation whose byte size is not 0 (so that the slot of
a pooled size lies in the table) and in every state whose counter is below
`INT_MAX`, `malloc_time` moves by exactly the number of requests the operation
makes to the system allocator.  For `allocate(n)`, which always returns: the
calls it records are put in front of the record and the counter grows by the
number of requests among them; that is `+1` when the byte size is above 4096
(arena, free lists and `heap_size` untouched), `0` on a free-list hit, `0` when
the refill is served from the arena, and `+1` when the arena has to grow.
`deallocate` leaves the counter alone and records no request.  `reallocate`
obeys the same accounting (`+1` on its resize branch).  The counter never
decreases and stays within `int`. -/
theorem malloc_time_counts_requests (sizeofT fuel n m p : Nat) (s : State) (hfuel : 2 ≤ fuel)
    (hheap : s.heap_size < SIZE_MOD) (hcnt : s.malloc_time < INT_MAX)
    (hn : 1 ≤ n * sizeofT % SIZE_MOD) (hm : 1 ≤ m * sizeofT % SIZE_MOD) :
    (∃ q s1, allocate sizeofT fuel n s = some (q, s1)
      ∧ (∃ evs, s1.trace = evs ++ s.trace ∧ s1.malloc_time = s.malloc_time + requests evs)
      ∧ s.malloc_time ≤ s1.malloc_time
      ∧ s1.malloc_time ≤ INT_MAX
      ∧ (n * sizeofT % SIZE_MOD > MAX_BYTES →
          s1.malloc_time = s.malloc_time + 1 ∧ s1.free_list = s.free_list
            ∧ s1.start_free = s.start_free ∧ s1.end_free = s.end_free
            ∧ s1.heap_size = s.heap_size)
      ∧ (n * sizeofT % SIZE_MOD ≤ MAX_BYTES →
          freelist_index (n * sizeofT % SIZE_MOD) < NFREELEISTS)
      ∧ (n * sizeofT % SIZE_MOD ≤ MAX_BYTES →
          s.free_list (freelist_index (n * sizeofT % SIZE_MOD)) ≠ 0 →
          s1.malloc_time = s.malloc_time)
      ∧ (n * sizeofT % SIZE_MOD ≤ MAX_BYTES →
          s.free_list (freelist_index (n * sizeofT % SIZE_MOD)) = 0 →
          ROUND_UP (n * sizeofT % SIZE_MOD) ≤ ptrdiff s.end_free s.start_free →
          s1.malloc_time = s.malloc_time)
      ∧ (n * sizeofT % SIZE_MOD ≤ MAX_BYTES →
          s.free_list (freelist_index (n * sizeofT % SIZE_MOD)) = 0 →
          ptrdiff s.end_free s.start_free < ROUND_UP (n * sizeofT % SIZE_MOD) →
          s1.malloc_time = s.malloc_time + 1))
    ∧ ((deallocate sizeofT p n s).malloc_time = s.malloc_time
      ∧ (∃ evs, (deallocate sizeofT p n s).trace = evs ++ s.trace ∧ requests evs = 0)
      ∧ (n * sizeofT % SIZE_MOD ≤ MAX_BYTES →
          freelist_index (n * sizeofT % SIZE_MOD) < NFREELEISTS))
    ∧ (∃ q s1, reallocate sizeofT fuel p n m s = some (q, s1)
      ∧ (∃ evs, s1.trace = evs ++ s.trace ∧ s1.malloc_time = s.malloc_time + requests evs)
      ∧ s.malloc_time ≤ s1.malloc_time
      ∧ s1.malloc_time ≤ INT_MAX
      ∧ (n > MAX_BYTES → s1.malloc_time = s.malloc_time + 1)
      ∧ (n ≤ MAX_BYTES → m * sizeofT % SIZE_MOD ≤ MAX_BYTES →
          freelist_index (m * sizeofT % SIZE_MOD) < NFREELEISTS)) := by
  obtain ⟨f, rfl⟩ : ∃ f, fuel = f + 2 := ⟨fuel - 2, by omega⟩
  refine ⟨?_, ?_, ?_⟩
  · obtain ⟨q, s1, h, ⟨evs, he1, he2⟩, _, h3, h4, h5, h6⟩ := allocate_counts sizeofT f n s hheap
    have hstep := allocate_counter_step sizeofT f n q s s1 hheap h
    exact ⟨q, s1, h, ⟨evs, he1, he2⟩, by rw [he2]; omega, by omega, h3,
      fun hle => (class_size _ hn hle).2.1, h4, h5, h6⟩
  · obtain ⟨h1, _, h2⟩ := deallocate_counts sizeofT p n s
    exact ⟨h1, h2, fun hle => (class_size _ hn hle).2.1⟩
  · unfold reallocate
    by_cases hbig : n > MAX_BYTES
    · rw [if_pos hbig]
      refine ⟨_, _, rfl, ⟨[SysEvent.realloc _ _ _], rfl, ?_⟩, ?_, ?_, fun _ => rfl,
        fun h => absurd hbig (by omega)⟩
      · simp [requests, is_request, sys_realloc]
      · simp [sys_realloc]
      · show (sys_realloc p m s).2.malloc_time + 1 ≤ INT_MAX
        simp only [sys_realloc]
        omega
    · rw [if_neg hbig]
      obtain ⟨h1, h2, evd, h3, h4⟩ := deallocate_counts sizeofT p n s
      obtain ⟨q, s1, h, ⟨evs, he1, he2⟩, _⟩ :=
        allocate_counts sizeofT f m (deallocate sizeofT p n s) (by rw [h2]; exact hheap)
      have hstep := allocate_counter_step sizeofT f m q _ s1 (by rw [h2]; exact hheap) h
      rw [h1] at hstep
      refine ⟨q, s1, h, ⟨evs ++ evd, ?_, ?_⟩, ?_, by omega, fun h => absurd h hbig,
        fun _ hle => (class_size _ hm hle).2.1⟩
      · rw [he1, h3, List.append_assoc]
      · rw [he2, h1, requests_append, h4]; simp
      · rw [he2, h1]; omega

theorem malloc_time_counts_requests_witness :
    (2 ≤ 2 ∧ (init [65536]).heap_size < SIZE_MOD ∧ (init [65536]).malloc_time < INT_MAX
      ∧ 1 ≤ 1 * 4 % SIZE_MOD ∧ 1 ≤ 1 * 4 % SIZE_MOD) ∧
    ((∃ q s1, allocate 4 2 1 (init [65536]) = some (q, s1)
      ∧ (∃ evs, s1.trace = evs ++ (init [65536]).trace
          ∧ s1.malloc_time = (init [65536]).malloc_time + requests evs)
      ∧ (init [65536]).malloc_time ≤ s1.malloc_time
      ∧ s1.malloc_time ≤ INT_MAX
      ∧ (1 * 4 % SIZE_MOD > MAX_BYTES →
          s1.malloc_time = (init [65536]).malloc_time + 1 ∧ s1.free_list = (init [65536]).free_list
            ∧ s1.start_free = (init [65536]).start_free ∧ s1.end_free = (init [65536]).end_free
            ∧ s1.heap_size = (init [65536]).heap_size)
      ∧ (1 * 4 % SIZE_MOD ≤ MAX_BYTES → freelist_index (1 * 4 % SIZE_MOD) < NFREELEISTS)
      ∧ (1 * 4 % SIZE_MOD ≤ MAX_BYTES →
          (init [65536]).free_list (freelist_index (1 * 4 % SIZE_MOD)) ≠ 0 →
          s1.malloc_time = (init [65536]).malloc_time)
      ∧ (1 * 4 % SIZE_MOD ≤ MAX_BYTES →
          (init [65536]).free_list (freelist_index (1 * 4 % SIZE_MOD)) = 0 →
          ROUND_UP (1 * 4 % SIZE_MOD) ≤ ptrdiff (init [65536]).end_free (init [65536]).start_free →
          s1.malloc_time = (init [65536]).malloc_time)
      ∧ (1 * 4 % SIZE_MOD ≤ MAX_BYTES →
          (init [65536]).free_list (freelist_index (1 * 4 % SIZE_MOD)) = 0 →
          ptrdiff (init [65536]).end_free (init [65536]).start_free < ROUND_UP (1 * 4 % SIZE_MOD) →
          s1.malloc_time = (init [65536]).malloc_time + 1))
    ∧ ((deallocate 4 65536 1 (init [65536])).malloc_time = (init [65536]).malloc_time
      ∧ (∃ evs, (deallocate 4 65536 1 (init [65536])).trace = evs ++ (init [65536]).trace
          ∧ requests evs = 0)
      ∧ (1 * 4 % SIZE_MOD ≤ MAX_BYTES → freelist_index (1 * 4 % SIZE_MOD) < NFREELEISTS))
    ∧ (∃ q s1, reallocate 4 2 65536 1 1 (init [65536]) = some (q, s1)
      ∧ (∃ evs, s1.trace = evs ++ (init [65536]).trace
          ∧ s1.malloc_time = (init [65536]).malloc_time + requests evs)
      ∧ (init [65536]).malloc_time ≤ s1.malloc_time
      ∧ s1.malloc_time ≤ INT_MAX
      ∧ (1 > MAX_BYTES → s1.malloc_time = (init [65536]).malloc_time + 1)
      ∧ (1 ≤ MAX_BYTES → 1 * 4 % SIZE_MOD ≤ MAX_BYTES →
          freelist_index (1 * 4 % SIZE_MOD) < NFREELEISTS))) :=
  ⟨by decide,
    malloc_time_counts_requests 4 2 1 1 65536 (init [65536]) (by decide) (by decide)
      (by decide) (by decide) (by decide)⟩

/-- C8: from the zero-initialised state, with a system allocator whose first answer
is the address `base` (not null), 50 consecutive `allocate(n)` calls of one
pooled size (byte size `required` in `[1, 4096]`) all return, and they return
`base + k * ROUND_UP(required)` for `k = 0..49`: 50 pairwise distinct pointers,
none of them null.  The whole run makes exactly one request to the system
allocator, the `malloc` of the first call, so `malloc_time` grows by exactly 1. -/
theorem fifty_allocations (sizeofT fuel n base : Nat) (script : List Nat) (hfuel : 2 ≤ fuel)
    (hlo : 1 ≤ n * sizeofT % SIZE_MOD) (hhi : n * sizeofT % SIZE_MOD ≤ MAX_BYTES)
    (hbase : base ≠ 0) :
    ∃ s1, allocate_seq sizeofT fuel (List.replicate 50 n) (init (base :: script))
        = some ((List.range 50).map (fun k => base + k * ROUND_UP (n * sizeofT % SIZE_MOD)), s1)
      ∧ s1.malloc_time = (init (base :: script)).malloc_time + 1
      ∧ s1.trace = [SysEvent.malloc (20 * (ROUND_UP (n * sizeofT % SIZE_MOD) * 50)) base]
      ∧ s1.sys = script
      ∧ ((List.range 50).map (fun k => base + k * ROUND_UP (n * sizeofT % SIZE_MOD))).Nodup
      ∧ ∀ p ∈ (List.range 50).map (fun k => base + k * ROUND_UP (n * sizeofT % SIZE_MOD)),
          p ≠ 0 := by
  obtain ⟨f, rfl⟩ : ∃ f, fuel = f + 2 := ⟨fuel - 2, by omega⟩
  have hru := ROUND_UP_pooled _ hhi
  have hidx := freelist_index_ROUND_UP _ hlo hhi
  generalize hrn : ROUND_UP (n * sizeofT % SIZE_MOD) = rn at hru hidx ⊢
  have hrn_pos : 0 < rn := by omega
  have hbig : ¬ n * sizeofT % SIZE_MOD > MAX_BYTES := by omega
  have hprod : rn * 50 ≤ 204800 := by simp only [MAX_BYTES] at hru; omega
  have hru0 : ROUND_UP (0 / 16) = 0 := by decide
  -- the first call grows the arena and refills the class
  have hchunk := chunk_alloc_grow_success f rn 50 (init (base :: script))
    (by show ptrdiff 0 0 < rn; rw [ptrdiff_self]; exact hrn_pos) (by omega) hprod
    (by show 0 < SIZE_MOD; decide) hbase
  have hpd : ¬ ptrdiff (init (base :: script)).end_free (init (base :: script)).start_free > 0 := by
    show ¬ ptrdiff 0 0 > 0
    rw [ptrdiff_self]; omega
  rw [if_neg hpd, if_neg hpd] at hchunk
  have hfirst : allocate sizeofT (f + 2) n (init (base :: script))
      = some (base,
          { start_free := base + rn * 50,
            end_free := base + 20 * (rn * 50),
            heap_size := 20 * (rn * 50) % SIZE_MOD,
            free_list := write (fun _ => 0) (freelist_index rn) (base + rn),
            mem := link_blocks 48 (base + rn) rn (fun _ => 0),
            malloc_time := 1,
            sys := script,
            trace := [SysEvent.malloc (20 * (rn * 50)) base] }) := by
    unfold allocate
    dsimp only
    rw [if_neg hbig, if_pos (show (init (base :: script)).free_list _ = 0 from rfl), hrn]
    unfold refill
    rw [hchunk]
    simp [init, hru0]
  obtain ⟨s1, h1, h2, h3, h4, _⟩ := allocate_seq_chain sizeofT (f + 2) n rn hhi 49
    { start_free := base + rn * 50,
      end_free := base + 20 * (rn * 50),
      heap_size := 20 * (rn * 50) % SIZE_MOD,
      free_list := write (fun _ => 0) (freelist_index rn) (base + rn),
      mem := link_blocks 48 (base + rn) rn (fun _ => 0),
      malloc_time := 1,
      sys := script,
      trace := [SysEvent.malloc (20 * (rn * 50)) base] }
    (base + rn) (by omega)
    (by intro _; dsimp only; rw [← hidx, write_same])
    (by
      intro j hj
      dsimp only
      rw [link_blocks_at 48 (base + rn) rn _ hrn_pos j (by omega)]
      by_cases h : j < 48
      · have : j + 1 < 49 := by omega
        simp only [h, this, if_true]
      · have : ¬ j + 1 < 49 := by omega
        simp only [h, this, if_false])
  refine ⟨s1, ?_, h2, h3, h4, ?_, ?_⟩
  · rw [show (50 : Nat) = 49 + 1 from rfl, List.replicate_succ, allocate_seq, hfirst]
    dsimp only
    rw [h1]
    dsimp only
    rw [range_map_shift]
  · apply List.Nodup.map _ (List.nodup_range 50)
    intro i j hij
    dsimp only at hij
    exact Nat.eq_of_mul_eq_mul_right hrn_pos (by omega)
  · intro p hp
    rw [List.mem_map] at hp
    obtain ⟨j, _, rfl⟩ := hp
    omega

theorem fifty_allocations_witness :
    (2 ≤ 2 ∧ 1 ≤ 1 * 4 % SIZE_MOD ∧ 1 * 4 % SIZE_MOD ≤ MAX_BYTES ∧ 65536 ≠ 0) ∧
    (∃ s1, allocate_seq 4 2 (List.replicate 50 1) (init (65536 :: []))
        = some ((List.range 50).map (fun k => 65536 + k * ROUND_UP (1 * 4 % SIZE_MOD)), s1)
      ∧ s1.malloc_time = (init (65536 :: [])).malloc_time + 1
      ∧ s1.trace = [SysEvent.malloc (20 * (ROUND_UP (1 * 4 % SIZE_MOD) * 50)) 65536]
      ∧ s1.sys = []
      ∧ ((List.range 50).map (fun k => 65536 + k * ROUND_UP (1 * 4 % SIZE_MOD))).Nodup
      ∧ ∀ p ∈ (List.range 50).map (fun k => 65536 + k * ROUND_UP (1 * 4 % SIZE_MOD)),
          p ≠ 0) :=
  ⟨by decide, fifty_allocations 4 2 1 65536 [] (by decide) (by decide) (by decide) (by decide)⟩

set_option maxRecDepth 100000 in
/-- C15, evaluated on the code: from the initial state, with a system allocator that
fails, `allocate(1)` for a 4-byte element type makes one growth request of 8000
bytes, which returns null; nothing is obtained from the system allocator, the
caller gets the null pointer, and yet `heap_size` is 8000 afterwards. -/
theorem heap_size_counts_failed_growth :
    (allocate 4 2 1 (init [])).map
        (fun r => (r.1, r.2.heap_size, r.2.trace, obtained r.2.trace))
      = some (0, 8000, [SysEvent.malloc 8000 0], 0) := by
  decide

/-- C19, evaluated on the code: for the count 0 the byte size `required` is 0, not
above 4096, so the request goes to the pooled path; the index computed from it
is `(0 + 7) / 8 - 1` in `size_t`, that is `2 ^ 64 - 1`, outside `[0, 512)`, and
`deallocate(p, 0)` stores `p` in that slot, leaving the 512 slots of the table as
they were.  The same happens for a count whose byte size wraps to 0. -/
theorem freelist_index_out_of_table :
    0 * 4 % SIZE_MOD ≤ MAX_BYTES ∧
    freelist_index (0 * 4 % SIZE_MOD) = 18446744073709551615 ∧
    ¬ freelist_index (0 * 4 % SIZE_MOD) < NFREELEISTS ∧
    (deallocate 4 65536 0 (init [])).free_list 18446744073709551615 = 65536 ∧
    ((deallocate 4 65536 0 (init [])).free_list 0, (deallocate 4 65536 0 (init [])).free_list 511)
      = (0, 0) ∧
    4611686018427387904 * 4 % SIZE_MOD ≤ MAX_BYTES ∧
    ¬ freelist_index (4611686018427387904 * 4 % SIZE_MOD) < NFREELEISTS := by
  decide

/-- C20: on its resize branch (`originalSize > MAX_BYTES`) `reallocate` asks the
system for `newSize` bytes, the argument as it is, whereas `allocate(newSize)`
asks `malloc` for `newSize * sizeof(T)` bytes (in `size_t`) on its large branch
and `deallocate(p, newSize)` routes on that same product: to `free` above 4096,
to the free list of the class of `newSize * sizeof(T)` otherwise. -/
theorem reallocate_passes_newSize_unscaled (sizeofT fuel p originalSize newSize : Nat)
    (s : State) (hbig : originalSize > MAX_BYTES) :
    reallocate sizeofT fuel p originalSize newSize s
        = some (s.sys.headD 0,
            { s with
              sys := s.sys.tail,
              trace := SysEvent.realloc p newSize (s.sys.headD 0) :: s.trace,
              malloc_time := s.malloc_time + 1 })
      ∧ (newSize * sizeofT % SIZE_MOD > MAX_BYTES →
          allocate sizeofT fuel newSize s
            = some (s.sys.headD 0,
                { s with
                  sys := s.sys.tail,
                  trace := SysEvent.malloc (newSize * sizeofT % SIZE_MOD) (s.sys.headD 0)
                    :: s.trace,
                  malloc_time := s.malloc_time + 1 }))
      ∧ (newSize * sizeofT % SIZE_MOD > MAX_BYTES →
          deallocate sizeofT p newSize s = sys_free p s)
      ∧ (newSize * sizeofT % SIZE_MOD ≤ MAX_BYTES →
          deallocate sizeofT p newSize s
            = { s with
                mem := write s.mem p
                  (s.free_list (freelist_index (newSize * sizeofT % SIZE_MOD))),
                free_list :=
                  write s.free_list (freelist_index (newSize * sizeofT % SIZE_MOD)) p }) := by
  refine ⟨?_, ?_, ?_, ?_⟩
  · unfold reallocate
    rw [if_pos hbig]
    rfl
  · intro h
    unfold allocate
    dsimp only
    rw [if_pos h]
    rfl
  · intro h
    unfold deallocate
    dsimp only
    rw [if_pos h]
  · intro h
    unfold deallocate
    dsimp only
    rw [if_neg (by omega)]

theorem reallocate_passes_newSize_unscaled_witness :
    5000 > MAX_BYTES ∧
    (reallocate 4 2 65536 5000 6000 (init [131072])
        = some ((init [131072]).sys.headD 0,
            { (init [131072]) with
              sys := (init [131072]).sys.tail,
              trace := SysEvent.realloc 65536 6000 ((init [131072]).sys.headD 0) :: (init [131072]).trace,
              malloc_time := (init [131072]).malloc_time + 1 })
      ∧ (6000 * 4 % SIZE_MOD > MAX_BYTES →
          allocate 4 2 6000 (init [131072])
            = some ((init [131072]).sys.headD 0,
                { (init [131072]) with
                  sys := (init [131072]).sys.tail,
                  trace := SysEvent.malloc (6000 * 4 % SIZE_MOD) ((init [131072]).sys.headD 0)
                    :: (init [131072]).trace,
                  malloc_time := (init [131072]).malloc_time + 1 }))
      ∧ (6000 * 4 % SIZE_MOD > MAX_BYTES →
          deallocate 4 65536 6000 (init [131072]) = sys_free 65536 (init [131072]))
      ∧ (6000 * 4 % SIZE_MOD ≤ MAX_BYTES →
          deallocate 4 65536 6000 (init [131072])
            = { (init [131072]) with
                mem := write (init [131072]).mem 65536
                  ((init [131072]).free_list (freelist_index (6000 * 4 % SIZE_MOD))),
                free_list :=
                  write (init [131072]).free_list (freelist_index (6000 * 4 % SIZE_MOD)) 65536 })) :=
  ⟨by decide, reallocate_passes_newSize_unscaled 4 2 65536 5000 6000 (init [131072]) (by decide)⟩

/-- C11: for every `refill(n)` with `n` a positive multiple of 8 in which
`chunk_alloc` yields the chunk `c` with `k` blocks, `1 <= k <= 50`: `refill`
returns `c`; for `k = 1` the state is the one `chunk_alloc` left (no free list
touched); for `k >= 2` only the head of class `freelist_index n` changes, and
reading that list gives exactly `c + n, c + 2n, ..., c + (k - 1) n` and then the
null link (`k - 1` blocks, whatever the reading bound from `k` on), no other
memory cell is written and the arena is untouched.  The class has canonical
size `n`, and the `k` blocks of `n` bytes, the returned one included, do not
overlap. -/
theorem refill_installs_chain (fuel n c k : Nat) (s s1 : State) (hn : 0 < n)
    (hn8 : n % ALIGN = 0) (hsz : n < SIZE_MOD)
    (hchunk : chunk_alloc fuel n 50 s = some (c, k, s1)) (hk1 : 1 ≤ k) (hk50 : k ≤ 50) :
    ∃ s2, refill fuel n s = some (c, s2)
      ∧ (k = 1 → s2 = s1)
      ∧ (2 ≤ k →
          s2.free_list = write s1.free_list (freelist_index n) (c + n)
          ∧ (∀ b, k ≤ b →
              free_chain s2.mem b (s2.free_list (freelist_index n))
                = (List.range (k - 1)).map (fun j => c + n + j * n))
          ∧ (∀ x, (∀ j, j < k - 1 → x ≠ c + n + j * n) → s2.mem x = s1.mem x)
          ∧ s2.start_free = s1.start_free ∧ s2.end_free = s1.end_free)
      ∧ (freelist_index n + 1) * ALIGN = n
      ∧ (∀ i j, i < j → j < k → c + i * n + n ≤ c + j * n) := by
  have hidx : (freelist_index n + 1) * ALIGN = n := by
    rw [freelist_index_eq]
    simp only [ALIGN, SIZE_MOD] at *
    omega
  have hdis : ∀ i j, i < j → j < k → c + i * n + n ≤ c + j * n := by
    intro i j hij _
    have : (i + 1) * n ≤ j * n := Nat.mul_le_mul_right n hij
    rw [Nat.succ_mul] at this
    omega
  unfold refill
  rw [hchunk]
  dsimp only
  by_cases h1 : k = 1
  · rw [if_pos h1]
    exact ⟨s1, rfl, fun _ => rfl, fun h => absurd h1 (by omega), hidx, hdis⟩
  · have h0 : ¬ k = 0 := by omega
    rw [if_neg h1, if_neg h0]
    refine ⟨_, rfl, fun h => absurd h h1, fun _ => ⟨rfl, ?_, ?_, rfl, rfl⟩, hidx, hdis⟩
    · intro b hb
      dsimp only
      rw [write_same]
      have hk : k - 1 = (k - 2) + 1 := by omega
      rw [hk]
      exact free_chain_links _ n (k - 2) (c + n) b (by omega) (by omega)
        (fun j hj => link_blocks_at (k - 2) (c + n) n s1.mem hn j hj)
    · intro x hx
      dsimp only
      exact link_blocks_other _ _ _ _ _ (fun j hj => hx j (by omega))

theorem refill_installs_chain_witness :
    ∃ c k s1,
      (0 < 8 ∧ 8 % ALIGN = 0 ∧ 8 < SIZE_MOD
        ∧ chunk_alloc 2 8 50 (init [65536]) = some (c, k, s1) ∧ 1 ≤ k ∧ k ≤ 50) ∧
      (∃ s2, refill 2 8 (init [65536]) = some (c, s2)
        ∧ (k = 1 → s2 = s1)
        ∧ (2 ≤ k →
            s2.free_list = write s1.free_list (freelist_index 8) (c + 8)
            ∧ (∀ b, k ≤ b →
                free_chain s2.mem b (s2.free_list (freelist_index 8))
                  = (List.range (k - 1)).map (fun j => c + 8 + j * 8))
            ∧ (∀ x, (∀ j, j < k - 1 → x ≠ c + 8 + j * 8) → s2.mem x = s1.mem x)
            ∧ s2.start_free = s1.start_free ∧ s2.end_free = s1.end_free)
        ∧ (freelist_index 8 + 1) * ALIGN = 8
        ∧ (∀ i j, i < j → j < k → c + i * 8 + 8 ≤ c + j * 8)) :=
  ⟨65536, 50, _, ⟨by decide, by decide, by decide, rfl, by decide, by decide⟩,
    refill_installs_chain 2 8 65536 50 (init [65536]) _ (by decide) (by decide) (by decide) rfl
      (by decide) (by decide)⟩

/-- C12, the claim as stated fails: with `size = 2 ^ 63`, `count = 2` and an arena
of exactly `2 ^ 63` bytes starting at 65536, `available >= size` holds and
`available >= size * count` does not, so the claim asks for `count' = 1` and a
cursor advanced by `2 ^ 63`.  But `size * count` is 0 in `size_t`, the first
branch of `chunk_alloc` is taken: the count stays 2 and the cursor stays at
65536, whatever the recursion bound. -/
theorem chunk_alloc_carve_claim_fails_on_wrap :
    (65536 : Nat) ≤ 9223372036854841344 ∧ 1 ≤ 9223372036854775808 ∧ 1 ≤ 2 ∧
    9223372036854775808 ≤ 9223372036854841344 - 65536 ∧
    ¬ (9223372036854775808 * 2 ≤ 9223372036854841344 - 65536) ∧
    (9223372036854841344 - 65536) / 9223372036854775808 = 1 ∧
    ∀ fuel, (chunk_alloc (fuel + 1) 9223372036854775808 2
        { init [] with start_free := 65536, end_free := 9223372036854841344 }).map
        (fun r => (r.1, r.2.1, r.2.2.start_free, r.2.2.end_free))
      = some (65536, 2, 65536, 9223372036854841344) := by
  refine ⟨by decide, by decide, by decide, by decide, by decide, by decide, ?_⟩
  intro fuel
  rw [chunk_alloc_carve_all fuel 9223372036854775808 2
    { init [] with start_free := 65536, end_free := 9223372036854841344 } (by decide)]
  decide

/-- C12, amended: in every state with `cursor <= limit` (pointers being 64-bit
values) and for every `size >= 1`, `count >= 1` with
`available = limit - cursor >= size`, `chunk_alloc(size, count)` returns the old
cursor and changes nothing but the cursor: the count stays `count` when
`available >= total` and becomes `available / size` otherwise, where `total` is
`size * count` as the source computes it, in `size_t` (the integer product
whenever that is below `2 ^ 64`); the cursor advances by exactly `total` in the
first case and by exactly `size * count'`, which does not wrap, in the second;
the limit is unchanged and the new cursor does not exceed it. -/
theorem chunk_alloc_carves (fuel size count : Nat) (s : State) (hfuel : 1 ≤ fuel)
    (hord : s.start_free ≤ s.end_free) (hend : s.end_free < SIZE_MOD) (hsize : 1 ≤ size)
    (hcount : 1 ≤ count) (havail : size ≤ s.end_free - s.start_free) :
    ∃ count1, chunk_alloc fuel size count s
        = some (s.start_free, count1,
            { s with start_free := s.start_free + size * count1 % SIZE_MOD })
      ∧ (size * count % SIZE_MOD ≤ s.end_free - s.start_free → count1 = count)
      ∧ (s.end_free - s.start_free < size * count % SIZE_MOD →
          count1 = (s.end_free - s.start_free) / size
            ∧ size * count1 % SIZE_MOD = size * count1)
      ∧ 1 ≤ count1
      ∧ s.start_free + size * count1 % SIZE_MOD ≤ s.end_free := by
  obtain ⟨f, rfl⟩ : ∃ f, fuel = f + 1 := ⟨fuel - 1, by omega⟩
  have hpd := ptrdiff_of_le _ _ hord hend
  by_cases h : size * count % SIZE_MOD ≤ s.end_free - s.start_free
  · refine ⟨count, ?_, fun _ => rfl, fun h2 => absurd h (by omega), hcount, by omega⟩
    exact chunk_alloc_carve_all f size count s (by rw [hpd]; exact h)
  · have hlt : s.end_free - s.start_free < size * count % SIZE_MOD := by omega
    have hle : size * ((s.end_free - s.start_free) / size) ≤ s.end_free - s.start_free :=
      Nat.mul_div_le _ _
    have hmod : size * ((s.end_free - s.start_free) / size) % SIZE_MOD
        = size * ((s.end_free - s.start_free) / size) := by
      apply Nat.mod_eq_of_lt
      omega
    refine ⟨(s.end_free - s.start_free) / size, ?_, fun h2 => absurd h2 h,
      fun _ => ⟨rfl, hmod⟩, Nat.div_pos havail (by omega), by rw [hmod]; omega⟩
    have := chunk_alloc_carve_fit f size count s (by rw [hpd]; exact hlt) (by rw [hpd]; exact havail)
    rw [hpd] at this
    exact this

theorem chunk_alloc_carves_witness :
    (1 ≤ 1 ∧ ({ init [] with start_free := 65536, end_free := 65736 } : State).start_free ≤ ({ init [] with start_free := 65536, end_free := 65736 } : State).end_free ∧ ({ init [] with start_free := 65536, end_free := 65736 } : State).end_free < SIZE_MOD ∧ 1 ≤ 16
      ∧ 1 ≤ 50 ∧ 16 ≤ ({ init [] with start_free := 65536, end_free := 65736 } : State).end_free - ({ init [] with start_free := 65536, end_free := 65736 } : State).start_free) ∧
    (∃ count1, chunk_alloc 1 16 50 ({ init [] with start_free := 65536, end_free := 65736 } : State)
        = some (({ init [] with start_free := 65536, end_free := 65736 } : State).start_free, count1,
            { ({ init [] with start_free := 65536, end_free := 65736 } : State) with start_free := ({ init [] with start_free := 65536, end_free := 65736 } : State).start_free + 16 * count1 % SIZE_MOD })
      ∧ (16 * 50 % SIZE_MOD ≤ ({ init [] with start_free := 65536, end_free := 65736 } : State).end_free - ({ init [] with start_free := 65536, end_free := 65736 } : State).start_free → count1 = 50)
      ∧ (({ init [] with start_free := 65536, end_free := 65736 } : State).end_free - ({ init [] with start_free := 65536, end_free := 65736 } : State).start_free < 16 * 50 % SIZE_MOD →
          count1 = (({ init [] with start_free := 65536, end_free := 65736 } : State).end_free - ({ init [] with start_free := 65536, end_free := 65736 } : State).start_free) / 16
            ∧ 16 * count1 % SIZE_MOD = 16 * count1)
      ∧ 1 ≤ count1
      ∧ ({ init [] with start_free := 65536, end_free := 65736 } : State).start_free + 16 * count1 % SIZE_MOD ≤ ({ init [] with start_free := 65536, end_free := 65736 } : State).end_free) :=
  ⟨by decide,
    chunk_alloc_carves 1 16 50 ({ init [] with start_free := 65536, end_free := 65736 } : State)
      (by decide) (by decide) (by decide) (by decide) (by decide) (by decide)⟩

/-- C13, the claim as stated fails: for `size = 2 ^ 63` and `count = 2` in the
initial state the arena holds less than `size` bytes and the system allocator
is ready to return the address 65536, but `size * count` is 0 in `size_t`, so
`chunk_alloc` takes its first branch: whatever the recursion bound, it never
yields the pointer 65536 after one recorded `malloc` (it returns the old cursor
and asks the system for nothing). -/
theorem chunk_alloc_growth_claim_fails_on_wrap :
    1 ≤ 9223372036854775808 ∧ 1 ≤ 2 ∧
    ptrdiff (init [65536]).end_free (init [65536]).start_free < 9223372036854775808 ∧
    (init [65536]).sys.headD 0 = 65536 ∧
    9223372036854775808 * 2 % SIZE_MOD = 0 ∧
    ∀ fuel, (chunk_alloc fuel 9223372036854775808 2 (init [65536])).map (fun r => (r.1, r.2.2.trace))
      ≠ some (65536,
          [SysEvent.malloc ((20 * (9223372036854775808 * 2 % SIZE_MOD)
            + ROUND_UP ((init [65536]).heap_size / 16)) % SIZE_MOD) 65536]) := by
  refine ⟨by decide, by decide, by decide, by decide, by decide, ?_⟩
  intro fuel
  cases fuel with
  | zero => simp [chunk_alloc]
  | succ f =>
    rw [chunk_alloc_carve_all f 9223372036854775808 2 (init [65536]) (by decide)]
    simp [init]

/-- C13, amended: in every state and for every `size`, `count >= 1` with
`available < size` such that neither `growthBytes = 20 * size * count +
ROUND_UP(heap_size >> 4)` nor `heap_size + growthBytes` overflows `size_t`, when
the system allocator returns the address `b` (not null), `chunk_alloc` returns
within one self-call: it donates the remainder (if any), asks `malloc` for
exactly `growthBytes` bytes, adds `growthBytes` to `heap_size`, and finishes with
result `b`, the count unchanged, `cursor = b + size * count` and
`limit = b + growthBytes`. -/
theorem chunk_alloc_growth_result (fuel size count b : Nat) (s : State) (hfuel : 2 ≤ fuel)
    (hcount : 1 ≤ count)
    (hlt : ptrdiff s.end_free s.start_free < size)
    (hb : s.sys.headD 0 = b) (hb0 : b ≠ 0)
    (h20 : 20 * (size * count) + ROUND_UP (s.heap_size / 16) < SIZE_MOD)
    (hsum : s.heap_size + (20 * (size * count) + ROUND_UP (s.heap_size / 16)) < SIZE_MOD) :
    chunk_alloc fuel size count s
      = some (b, count,
          { start_free := b + size * count,
            end_free := b + (20 * (size * count) + ROUND_UP (s.heap_size / 16)),
            heap_size := s.heap_size + (20 * (size * count) + ROUND_UP (s.heap_size / 16)),
            free_list :=
              if ptrdiff s.end_free s.start_free > 0 then
                write s.free_list (freelist_index (ptrdiff s.end_free s.start_free)) s.start_free
              else s.free_list,
            mem :=
              if ptrdiff s.end_free s.start_free > 0 then
                write s.mem s.start_free
                  (s.free_list (freelist_index (ptrdiff s.end_free s.start_free)))
              else s.mem,
            malloc_time := s.malloc_time + 1,
            sys := s.sys.tail,
            trace := SysEvent.malloc (20 * (size * count) + ROUND_UP (s.heap_size / 16)) b
              :: s.trace }) := by
  obtain ⟨f, rfl⟩ : ∃ f, fuel = f + 2 := ⟨fuel - 2, by omega⟩
  subst hb
  rw [chunk_alloc_grow_success_fit f size count s hlt hcount h20 hb0, Nat.mod_eq_of_lt hsum]

theorem chunk_alloc_growth_result_witness :
    (2 ≤ 2 ∧ 1 ≤ 50 ∧ ptrdiff (init [65536]).end_free (init [65536]).start_free < 8
      ∧ (init [65536]).sys.headD 0 = 65536 ∧ 65536 ≠ 0
      ∧ 20 * (8 * 50) + ROUND_UP ((init [65536]).heap_size / 16) < SIZE_MOD
      ∧ (init [65536]).heap_size + (20 * (8 * 50) + ROUND_UP ((init [65536]).heap_size / 16)) < SIZE_MOD) ∧
    (chunk_alloc 2 8 50 (init [65536])
      = some (65536, 50,
          { start_free := 65536 + 8 * 50,
            end_free := 65536 + (20 * (8 * 50) + ROUND_UP ((init [65536]).heap_size / 16)),
            heap_size := (init [65536]).heap_size + (20 * (8 * 50) + ROUND_UP ((init [65536]).heap_size / 16)),
            free_list :=
              if ptrdiff (init [65536]).end_free (init [65536]).start_free > 0 then
                write (init [65536]).free_list (freelist_index (ptrdiff (init [65536]).end_free (init [65536]).start_free)) (init [65536]).start_free
              else (init [65536]).free_list,
            mem :=
              if ptrdiff (init [65536]).end_free (init [65536]).start_free > 0 then
                write (init [65536]).mem (init [65536]).start_free
                  ((init [65536]).free_list (freelist_index (ptrdiff (init [65536]).end_free (init [65536]).start_free)))
              else (init [65536]).mem,
            malloc_time := (init [65536]).malloc_time + 1,
            sys := (init [65536]).sys.tail,
            trace := SysEvent.malloc (20 * (8 * 50) + ROUND_UP ((init [65536]).heap_size / 16)) 65536
              :: (init [65536]).trace })) :=
  ⟨by decide,
    chunk_alloc_growth_result 2 8 50 65536 (init [65536]) (by decide) (by decide) (by decide)
      (by decide) (by decide) (by decide) (by decide)⟩

/-- C17, the claim as stated fails: in the initial state (`cursor <= limit`), for
`size = 922337203685477581` and `count = 1`, with a system allocator that
succeeds, the request to the system is `20 * size` in `size_t`, which is 4
bytes; after the first growth the arena holds 4 bytes, still less than `size`,
so the retry has to grow again: `chunk_alloc` does not return within one
recursive self-call (recursion bound 2). -/
theorem chunk_alloc_needs_second_retry :
    (init [65536, 131072]).start_free ≤ (init [65536, 131072]).end_free ∧
    1 ≤ 922337203685477581 ∧
    (20 * (922337203685477581 * 1 % SIZE_MOD)
      + ROUND_UP ((init [65536, 131072]).heap_size / 16)) % SIZE_MOD = 4 ∧
    ptrdiff (65536 + 4) 65536 < 922337203685477581 ∧
    (chunk_alloc 1 922337203685477581 1 (init [65536, 131072])).isSome = false ∧
    (chunk_alloc 2 922337203685477581 1 (init [65536, 131072])).isSome = false := by
  decide

/-- C17, amended: in every state, for every `size` and `count >= 1` such that the
request to the system `20 * size * count + ROUND_UP(heap_size >> 4)` does not
overflow `size_t` (every pooled request is of that kind), and whatever the
system allocator answers, `chunk_alloc` returns after at most one recursive
self-call (recursion bound 2, and every larger bound gives the same result):
with a block in the arena it returns without any self-call and without a
system call; otherwise it issues exactly one `malloc` and the retry carves. -/
theorem chunk_alloc_one_retry (size count : Nat) (s : State) (hcount : 1 ≤ count)
    (h20 : 20 * (size * count) + ROUND_UP (s.heap_size / 16) < SIZE_MOD) :
    ∃ r, chunk_alloc 2 size count s = some r
      ∧ (∀ fuel, 2 ≤ fuel → chunk_alloc fuel size count s = some r)
      ∧ (size ≤ ptrdiff s.end_free s.start_free →
          chunk_alloc 1 size count s = some r ∧ r.2.2.trace = s.trace)
      ∧ (ptrdiff s.end_free s.start_free < size →
          r.2.2.trace = SysEvent.malloc
            ((20 * (size * count % SIZE_MOD) + ROUND_UP (s.heap_size / 16)) % SIZE_MOD)
            (s.sys.headD 0) :: s.trace) := by
  have key : ∃ r, chunk_alloc 2 size count s = some r
      ∧ (size ≤ ptrdiff s.end_free s.start_free →
          chunk_alloc 1 size count s = some r ∧ r.2.2.trace = s.trace)
      ∧ (ptrdiff s.end_free s.start_free < size →
          r.2.2.trace = SysEvent.malloc
            ((20 * (size * count % SIZE_MOD) + ROUND_UP (s.heap_size / 16)) % SIZE_MOD)
            (s.sys.headD 0) :: s.trace) := by
    by_cases hfit : size ≤ ptrdiff s.end_free s.start_free
    · obtain ⟨k, hk, _⟩ := chunk_alloc_carve 0 size count s hfit
      exact ⟨_, chunk_alloc_bound_mono _ _ _ _ _ hk, fun _ => ⟨hk, rfl⟩,
        fun h => absurd hfit (by omega)⟩
    · obtain ⟨s2, he, htr, hfit2⟩ :=
        chunk_alloc_grow_step_fit 1 size count s (by omega) hcount h20
      obtain ⟨k, hk, _⟩ := chunk_alloc_carve 0 size count s2 hfit2
      exact ⟨_, he.trans hk, fun h => absurd h hfit, fun _ => htr⟩
  obtain ⟨r, h2, h3, h4⟩ := key
  refine ⟨r, h2, ?_, h3, h4⟩
  intro fuel hfuel
  obtain ⟨d, rfl⟩ : ∃ d, fuel = 2 + d := ⟨fuel - 2, by omega⟩
  exact chunk_alloc_bound_le 2 d size count s r h2

theorem chunk_alloc_one_retry_witness :
    (1 ≤ 50 ∧ 20 * (8 * 50) + ROUND_UP ((init [65536]).heap_size / 16) < SIZE_MOD) ∧
    (∃ r, chunk_alloc 2 8 50 (init [65536]) = some r
      ∧ (∀ fuel, 2 ≤ fuel → chunk_alloc fuel 8 50 (init [65536]) = some r)
      ∧ (8 ≤ ptrdiff (init [65536]).end_free (init [65536]).start_free →
          chunk_alloc 1 8 50 (init [65536]) = some r ∧ r.2.2.trace = (init [65536]).trace)
      ∧ (ptrdiff (init [65536]).end_free (init [65536]).start_free < 8 →
          r.2.2.trace = SysEvent.malloc
            ((20 * (8 * 50 % SIZE_MOD) + ROUND_UP ((init [65536]).heap_size / 16)) % SIZE_MOD)
            ((init [65536]).sys.headD 0) :: (init [65536]).trace)) :=
  ⟨by decide, chunk_alloc_one_retry 8 50 (init [65536]) (by decide) (by decide)⟩

/-- C14: in every state reached from the initial state by `allocate` and
`deallocate` calls with pooled sizes (whatever the system allocator answers and
whatever pointers are freed), `cursor <= limit`, the remainder
`available = limit - cursor` is what the source computes as `bytes_left` and it
is a multiple of 8.  Hence when a growth event for a request of `size <= 4096`
bytes finds `0 < available < size`, the class `freelist_index(available)` that
receives the remainder lies in `[0, 512)` and has canonical size exactly
`available`. -/
theorem arena_remainder_aligned (sizeofT fuel : Nat) (ops : List Op) (script : List Nat)
    (s : State) (hops : ∀ op ∈ ops, pooled_op sizeofT op = true)
    (hrun : run sizeofT fuel ops (init script) = some s) :
    s.start_free ≤ s.end_free
      ∧ ptrdiff s.end_free s.start_free = s.end_free - s.start_free
      ∧ ptrdiff s.end_free s.start_free % ALIGN = 0
      ∧ ∀ size, size ≤ MAX_BYTES → 0 < ptrdiff s.end_free s.start_free →
          ptrdiff s.end_free s.start_free < size →
          freelist_index (ptrdiff s.end_free s.start_free) < NFREELEISTS
            ∧ (freelist_index (ptrdiff s.end_free s.start_free) + 1) * ALIGN
                = ptrdiff s.end_free s.start_free := by
  have hinv := run_arena_ok sizeofT fuel ops (init script) s hops hrun (arena_ok_init script)
  have hpd := ptrdiff_of_arena_ok s hinv
  obtain ⟨h1, h2, h3, _⟩ := hinv
  refine ⟨h1, hpd, by rw [hpd]; exact h3, ?_⟩
  intro size hsize hpos hlt
  rw [hpd] at hpos hlt ⊢
  rw [freelist_index_eq]
  simp only [MAX_BYTES, ALIGN, NFREELEISTS] at *
  omega

theorem arena_remainder_aligned_witness :
    ∃ s,
      ((∀ op ∈ [Op.allocate 1, Op.allocate 3, Op.deallocate 65536 1], pooled_op 4 op = true)
        ∧ run 4 2 [Op.allocate 1, Op.allocate 3, Op.deallocate 65536 1] (init [65536]) = some s) ∧
      (s.start_free ≤ s.end_free
        ∧ ptrdiff s.end_free s.start_free = s.end_free - s.start_free
        ∧ ptrdiff s.end_free s.start_free % ALIGN = 0
        ∧ ∀ size, size ≤ MAX_BYTES → 0 < ptrdiff s.end_free s.start_free →
            ptrdiff s.end_free s.start_free < size →
            freelist_index (ptrdiff s.end_free s.start_free) < NFREELEISTS
              ∧ (freelist_index (ptrdiff s.end_free s.start_free) + 1) * ALIGN
                  = ptrdiff s.end_free s.start_free) :=
  ⟨_, ⟨by decide, rfl⟩,
    arena_remainder_aligned 4 2 [Op.allocate 1, Op.allocate 3, Op.deallocate 65536 1] [65536] _ (by decide) rfl⟩

/-- C16: in every state reached from the initial state by pooled calls, when
`allocate(n)` finds the list of its class empty it calls `refill`, and in the
state that `chunk_alloc` hands back to `refill` (whatever the system allocator
answered, whatever the recursion bound) the list of that class is still empty,
so the head that `refill` overwrites is null.  A remainder donated on the way
goes to a strictly lower class. -/
theorem refill_overwrites_empty_list (sizeofT fuel fuel2 n c k : Nat) (ops : List Op)
    (script : List Nat) (s s1 : State) (hops : ∀ op ∈ ops, pooled_op sizeofT op = true)
    (hrun : run sizeofT fuel ops (init script) = some s)
    (hn : pooled_size sizeofT n = true)
    (hempty : s.free_list (freelist_index (n * sizeofT % SIZE_MOD)) = 0)
    (hchunk : chunk_alloc fuel2 (ROUND_UP (n * sizeofT % SIZE_MOD)) 50 s = some (c, k, s1)) :
    allocate sizeofT fuel2 n s = refill fuel2 (ROUND_UP (n * sizeofT % SIZE_MOD)) s
      ∧ freelist_index (ROUND_UP (n * sizeofT % SIZE_MOD))
          = freelist_index (n * sizeofT % SIZE_MOD)
      ∧ s1.free_list (freelist_index (ROUND_UP (n * sizeofT % SIZE_MOD))) = 0
      ∧ (0 < ptrdiff s.end_free s.start_free →
          ptrdiff s.end_free s.start_free < ROUND_UP (n * sizeofT % SIZE_MOD) →
          freelist_index (ptrdiff s.end_free s.start_free)
            < freelist_index (ROUND_UP (n * sizeofT % SIZE_MOD))) := by
  have hinv := run_arena_ok sizeofT fuel ops (init script) s hops hrun (arena_ok_init script)
  rw [pooled_size_iff] at hn
  have hru := ROUND_UP_pooled _ hn.2
  have hidx := freelist_index_ROUND_UP _ hn.1 hn.2
  refine ⟨?_, hidx, ?_, ?_⟩
  · unfold allocate
    dsimp only
    rw [if_neg (by omega), if_pos hempty]
  · exact (chunk_alloc_pooled_inv fuel2 _ c k s s1 hchunk hinv hru.2.2.2 hru.2.2.1).2
      (by rw [hidx]; exact hempty)
  · intro hpos hlt
    obtain ⟨_, _, _, _, _, hlow⟩ := chunk_alloc_grow_pooled _ s hinv hru.2.2.2 hru.2.2.1 hlt
    exact hlow hpos

theorem refill_overwrites_empty_list_witness :
    ∃ s c k s1,
      ((∀ op ∈ [Op.allocate 1], pooled_op 4 op = true)
        ∧ run 4 2 [Op.allocate 1] (init [65536]) = some s
        ∧ pooled_size 4 3 = true
        ∧ s.free_list (freelist_index (3 * 4 % SIZE_MOD)) = 0
        ∧ chunk_alloc 2 (ROUND_UP (3 * 4 % SIZE_MOD)) 50 s = some (c, k, s1)) ∧
      (allocate 4 2 3 s = refill 2 (ROUND_UP (3 * 4 % SIZE_MOD)) s
        ∧ freelist_index (ROUND_UP (3 * 4 % SIZE_MOD))
            = freelist_index (3 * 4 % SIZE_MOD)
        ∧ s1.free_list (freelist_index (ROUND_UP (3 * 4 % SIZE_MOD))) = 0
        ∧ (0 < ptrdiff s.end_free s.start_free →
            ptrdiff s.end_free s.start_free < ROUND_UP (3 * 4 % SIZE_MOD) →
            freelist_index (ptrdiff s.end_free s.start_free)
              < freelist_index (ROUND_UP (3 * 4 % SIZE_MOD)))) :=
  ⟨_, _, _, _, ⟨by decide, rfl, by decide, by decide, rfl⟩,
    refill_overwrites_empty_list 4 2 2 3 _ _ [Op.allocate 1] [65536] _ _ (by decide) rfl (by decide)
      (by decide) rfl⟩

/-- C18: in every state reached from the initial state by a client that calls
`allocate` and `deallocate` with pooled sizes only and returns only blocks in
use, each with the count of its `allocate`, when every `malloc` recorded
succeeded with a region that overlaps none of the others: there is a list `F`
of free blocks `(address, class)` such that free list `i` is exactly the chain
of the blocks of class `i`, each spanning `(i + 1) * 8` bytes, with
`i < 512`; the ranges of the free blocks, of the blocks in use (`ROUND_UP` of
their byte size) and of the arena `[cursor, limit)` are pairwise disjoint, and
the blocks lie inside regions obtained from the system allocator.
Consequently a further pooled `allocate` returns a block that overlaps no block
in use and no block that is on a free list afterwards. -/
theorem pool_blocks_disjoint (sizeofT fuel : Nat) (ops : List Op) (script : List Nat)
    (s : State) (used : List (Nat × Nat))
    (hops : ∀ op ∈ ops, pooled_op sizeofT op = true)
    (hrun : run_client sizeofT fuel ops (init script, []) = some (s, used))
    (hsys : system_ok s.trace) :
    (∃ F, (∀ i, is_chain s.mem (s.free_list i) (class_blocks F i))
      ∧ (∀ b ∈ F, b.2 < NFREELEISTS)
      ∧ s.start_free ≤ s.end_free
      ∧ (F.map block_range ++ used.map (used_range sizeofT)
          ++ [(s.start_free, s.end_free - s.start_free)]).Pairwise disjoint
      ∧ (∀ r ∈ F.map block_range ++ used.map (used_range sizeofT),
          ∃ g ∈ regions s.trace, g.1 ≤ r.1 ∧ r.1 + r.2 ≤ g.1 + g.2))
    ∧ ∀ n p s1, pooled_size sizeofT n = true → allocate sizeofT fuel n s = some (p, s1) →
        system_ok s1.trace →
        (∀ u ∈ used, disjoint (used_range sizeofT (p, n)) (used_range sizeofT u))
        ∧ ∃ F1, (∀ i, is_chain s1.mem (s1.free_list i) (class_blocks F1 i))
            ∧ ∀ b ∈ F1, disjoint (used_range sizeofT (p, n)) (block_range b) := by
  obtain ⟨F, hinv⟩ := run_client_pool_inv sizeofT fuel ops (init script) s [] used []
    (pool_inv_init sizeofT script) hops hrun hsys
  refine ⟨⟨F, hinv.chains, hinv.classes, hinv.arena.1, ?_, ?_⟩, ?_⟩
  · rw [List.pairwise_append, List.pairwise_append, List.pairwise_map, List.pairwise_map]
    refine ⟨⟨hinv.free_disj, hinv.used_disj, ?_⟩, List.pairwise_singleton _ _, ?_⟩
    · intro a ha b hb
      obtain ⟨x, hx, rfl⟩ := List.mem_map.mp ha
      obtain ⟨y, hy, rfl⟩ := List.mem_map.mp hb
      exact hinv.free_used x hx y hy
    · intro a ha b hb
      rw [List.mem_singleton] at hb
      subst hb
      rcases List.mem_append.mp ha with h | h
      · obtain ⟨x, hx, rfl⟩ := List.mem_map.mp h
        exact hinv.free_arena x hx
      · obtain ⟨y, hy, rfl⟩ := List.mem_map.mp h
        exact hinv.used_arena y hy
  · intro r hr
    rcases List.mem_append.mp hr with h | h
    · obtain ⟨x, hx, rfl⟩ := List.mem_map.mp h
      exact hinv.free_in x hx
    · obtain ⟨y, hy, rfl⟩ := List.mem_map.mp h
      exact hinv.used_in y hy
  · intro n p s1 hn ha hsys1
    obtain ⟨F1, h1⟩ := allocate_pool_inv sizeofT fuel n p s s1 used F hinv hn ha hsys1
    have hu := h1.used_disj
    rw [List.pairwise_cons] at hu
    exact ⟨hu.1, F1, h1.chains,
      fun b hb => disjoint_symm (h1.free_used b hb (p, n) (List.mem_cons_self _ _))⟩

theorem pool_blocks_disjoint_witness :
    ∃ s used,
      ((∀ op ∈ [Op.allocate 1, Op.allocate 1024, Op.allocate 1024, Op.deallocate 65536 1],
          pooled_op 4 op = true)
        ∧ run_client 4 2
            [Op.allocate 1, Op.allocate 1024, Op.allocate 1024, Op.deallocate 65536 1]
            (init [65536, 1048576], []) = some (s, used)
        ∧ system_ok s.trace) ∧
      ((∃ F, (∀ i, is_chain s.mem (s.free_list i) (class_blocks F i))
        ∧ (∀ b ∈ F, b.2 < NFREELEISTS)
        ∧ s.start_free ≤ s.end_free
        ∧ (F.map block_range ++ used.map (used_range 4)
            ++ [(s.start_free, s.end_free - s.start_free)]).Pairwise disjoint
        ∧ (∀ r ∈ F.map block_range ++ used.map (used_range 4),
            ∃ g ∈ regions s.trace, g.1 ≤ r.1 ∧ r.1 + r.2 ≤ g.1 + g.2))
      ∧ ∀ n p s1, pooled_size 4 n = true → allocate 4 2 n s = some (p, s1) →
          system_ok s1.trace →
          (∀ u ∈ used, disjoint (used_range 4 (p, n)) (used_range 4 u))
          ∧ ∃ F1, (∀ i, is_chain s1.mem (s1.free_list i) (class_blocks F1 i))
              ∧ ∀ b ∈ F1, disjoint (used_range 4 (p, n)) (block_range b)) :=
  ⟨_, _, ⟨by decide, rfl, by
      unfold system_ok disjoint
      decide⟩,
    pool_blocks_disjoint 4 2
      [Op.allocate 1, Op.allocate 1024, Op.allocate 1024, Op.deallocate 65536 1]
      [65536, 1048576] _ _ (by decide) rfl (by
        unfold system_ok disjoint
        decide)⟩

end Allocator
